import Mathlib

/-!
Verification of the braid-monodromy / Zariski-Van Kampen implementation in `ZVK.py`.

The numeric types of the source (Sage floating-point reals `RR`/`CC`) are embedded as
exact rationals `ℚ`; a complex number is a pair `(re, im) : ℚ × ℚ`.  Python's
comparison of the two-element lists `[re, im]` is the lexicographic order on the pair.
Fallible code (Python `IndexError`, `ValueError`, `min([])`, `raise`) is embedded with
`Option`/`Except`.  One divergence from Python semantics that is noted where relevant:
division by zero is total in `ℚ` (`x / 0 = 0`) while Sage raises; theorems whose content
depends on a quotient carry a nonzero-denominator hypothesis.
-/

namespace ZVK

/-- A complex number `y`, embedded as the pair `(y.real(), y.imag())` of exact rationals. -/
abbrev Point : Type := ℚ × ℚ

/-- One strand: the list of samples `(t, y)` of `braid_from_piecewise`'s input. -/
abbrev Strand : Type := List (ℚ × Point)

/-- Python `cmp(a, b)` on real numbers: `-1`, `0` or `1`. -/
def qcmp (a b : ℚ) : ℤ := if a < b then -1 else if b < a then 1 else 0

/-- Strict lexicographic comparison of `[re, im]` lists, i.e. Python's `l2[j] < l2[k]`. -/
def pLt (p q : Point) : Prop := p.1 < q.1 ∨ (p.1 = q.1 ∧ p.2 < q.2)

/-- Non-strict lexicographic comparison of `[re, im]` lists. -/
def pLe (p q : Point) : Prop := p.1 < q.1 ∨ (p.1 = q.1 ∧ p.2 ≤ q.2)

instance : DecidableRel pLt := fun p q => by unfold pLt; infer_instance

instance : DecidableRel pLe := fun p q => by unfold pLe; infer_instance

theorem pLe_of_pLt {p q : Point} (h : pLt p q) : pLe p q := by
  rcases h with h | ⟨h1, h2⟩
  · exact Or.inl h
  · exact Or.inr ⟨h1, le_of_lt h2⟩

theorem pLt_or_eq_of_pLe {p q : Point} (h : pLe p q) : pLt p q ∨ p = q := by
  rcases h with h | ⟨h1, h2⟩
  · exact Or.inl (Or.inl h)
  · rcases lt_or_eq_of_le h2 with h2 | h2
    · exact Or.inl (Or.inr ⟨h1, h2⟩)
    · exact Or.inr (Prod.ext h1 h2)

theorem pLt_irrefl (p : Point) : ¬ pLt p p := by
  rintro (h | ⟨_, h⟩) <;> exact lt_irrefl _ h

theorem pLt_trans {p q r : Point} (h1 : pLt p q) (h2 : pLt q r) : pLt p r := by
  rcases h1 with h1 | ⟨h1a, h1b⟩ <;> rcases h2 with h2 | ⟨h2a, h2b⟩
  · exact Or.inl (lt_trans h1 h2)
  · exact Or.inl (h2a ▸ h1)
  · exact Or.inl (h1a ▸ h2)
  · exact Or.inr ⟨h1a.trans h2a, lt_trans h1b h2b⟩

theorem pLt_asymm {p q : Point} (h : pLt p q) : ¬ pLt q p := fun h2 =>
  pLt_irrefl p (pLt_trans h h2)

theorem pLt_trichotomy (p q : Point) : pLt p q ∨ p = q ∨ pLt q p := by
  rcases lt_trichotomy p.1 q.1 with h | h | h
  · exact Or.inl (Or.inl h)
  · rcases lt_trichotomy p.2 q.2 with h2 | h2 | h2
    · exact Or.inl (Or.inr ⟨h, h2⟩)
    · exact Or.inr (Or.inl (Prod.ext h h2))
    · exact Or.inr (Or.inr (Or.inr ⟨h.symm, h2⟩))
  · exact Or.inr (Or.inr (Or.inl h))

theorem pLe_total (p q : Point) : pLe p q ∨ pLe q p := by
  rcases pLt_trichotomy p q with h | h | h
  · exact Or.inl (pLe_of_pLt h)
  · exact Or.inl (h ▸ Or.inr ⟨rfl, le_refl _⟩)
  · exact Or.inr (pLe_of_pLt h)

theorem pLe_trans {p q r : Point} (h1 : pLe p q) (h2 : pLe q r) : pLe p r := by
  rcases h1 with h1 | ⟨h1a, h1b⟩ <;> rcases h2 with h2 | ⟨h2a, h2b⟩
  · exact Or.inl (lt_trans h1 h2)
  · exact Or.inl (h2a ▸ h1)
  · exact Or.inl (h1a ▸ h2)
  · exact Or.inr ⟨h1a.trans h2a, le_trans h1b h2b⟩

theorem pLe_antisymm {p q : Point} (h1 : pLe p q) (h2 : pLe q p) : p = q := by
  rcases h1 with h1 | ⟨h1a, h1b⟩ <;> rcases h2 with h2 | ⟨h2a, h2b⟩
  · exact absurd h2 (lt_asymm h1)
  · exact absurd h1 (h2a ▸ lt_irrefl _)
  · exact absurd h2 (h1a ▸ lt_irrefl _)
  · exact Prod.ext h1a (le_antisymm h1b h2b)

theorem not_pLt_iff_pLe {p q : Point} : ¬ pLt p q ↔ pLe q p := by
  constructor
  · intro h
    rcases pLt_trichotomy p q with h1 | h1 | h1
    · exact absurd h1 h
    · exact h1 ▸ Or.inr ⟨rfl, le_refl _⟩
    · exact pLe_of_pLt h1
  · intro h h2
    rcases pLt_or_eq_of_pLe h with h1 | h1
    · exact pLt_asymm h1 h2
    · exact pLt_irrefl q (h1 ▸ h2)

instance : IsTotal Point pLe := ⟨pLe_total⟩

instance : IsTrans Point pLe := ⟨fun _ _ _ => pLe_trans⟩

instance : IsAntisymm Point pLe := ⟨fun _ _ => pLe_antisymm⟩

/-- Python comparison of the lists `[l1[s], l2[s]]` used by `M.sort()` (line 92):
lexicographic, first the slice-1 point, then the slice-2 point. -/
def mLe (a b : Point × Point) : Prop := pLt a.1 b.1 ∨ (a.1 = b.1 ∧ pLe a.2 b.2)

instance : DecidableRel mLe := fun a b => by unfold mLe; infer_instance

theorem mLe_total (a b : Point × Point) : mLe a b ∨ mLe b a := by
  rcases pLt_trichotomy a.1 b.1 with h | h | h
  · exact Or.inl (Or.inl h)
  · rcases pLe_total a.2 b.2 with h2 | h2
    · exact Or.inl (Or.inr ⟨h, h2⟩)
    · exact Or.inr (Or.inr ⟨h.symm, h2⟩)
  · exact Or.inr (Or.inl h)

theorem mLe_trans {a b c : Point × Point} (h1 : mLe a b) (h2 : mLe b c) : mLe a c := by
  rcases h1 with h1 | ⟨h1a, h1b⟩ <;> rcases h2 with h2 | ⟨h2a, h2b⟩
  · exact Or.inl (pLt_trans h1 h2)
  · exact Or.inl (h2a ▸ h1)
  · exact Or.inl (h1a ▸ h2)
  · exact Or.inr ⟨h1a.trans h2a, pLe_trans h1b h2b⟩

theorem mLe_antisymm {a b : Point × Point} (h1 : mLe a b) (h2 : mLe b a) : a = b := by
  rcases h1 with h1 | ⟨h1a, h1b⟩ <;> rcases h2 with h2 | ⟨h2a, h2b⟩
  · exact absurd h2 (pLt_asymm h1)
  · exact absurd h1 (h2a ▸ pLt_irrefl _)
  · exact absurd h2 (h1a ▸ pLt_irrefl _)
  · exact Prod.ext h1a (pLe_antisymm h1b h2b)

instance : IsTotal (Point × Point) mLe := ⟨mLe_total⟩

instance : IsTrans (Point × Point) mLe := ⟨fun _ _ _ => mLe_trans⟩

instance : IsAntisymm (Point × Point) mLe := ⟨fun _ _ => mLe_antisymm⟩

/-- Python comparison of four-element tuples or lists with entries in linear orders:
lexicographic.  Used for `cruces.sort()` (line 103) and `crossesl.sort()` (line 111). -/
def lex4 {α β γ δ : Type} [LinearOrder α] [LinearOrder β] [LinearOrder γ] [LinearOrder δ]
    (x y : α × β × γ × δ) : Prop :=
  x.1 < y.1 ∨ (x.1 = y.1 ∧ (x.2.1 < y.2.1 ∨ (x.2.1 = y.2.1 ∧
    (x.2.2.1 < y.2.2.1 ∨ (x.2.2.1 = y.2.2.1 ∧ x.2.2.2 ≤ y.2.2.2)))))

section Lex4

variable {α β γ δ : Type} [LinearOrder α] [LinearOrder β] [LinearOrder γ] [LinearOrder δ]

instance : DecidableRel (@lex4 α β γ δ _ _ _ _) := fun x y => by unfold lex4; infer_instance

theorem lex4_total (x y : α × β × γ × δ) : lex4 x y ∨ lex4 y x := by
  unfold lex4
  rcases lt_trichotomy x.1 y.1 with h | h | h
  · exact Or.inl (Or.inl h)
  · rcases lt_trichotomy x.2.1 y.2.1 with h2 | h2 | h2
    · exact Or.inl (Or.inr ⟨h, Or.inl h2⟩)
    · rcases lt_trichotomy x.2.2.1 y.2.2.1 with h3 | h3 | h3
      · exact Or.inl (Or.inr ⟨h, Or.inr ⟨h2, Or.inl h3⟩⟩)
      · rcases le_total x.2.2.2 y.2.2.2 with h4 | h4
        · exact Or.inl (Or.inr ⟨h, Or.inr ⟨h2, Or.inr ⟨h3, h4⟩⟩⟩)
        · exact Or.inr (Or.inr ⟨h.symm, Or.inr ⟨h2.symm, Or.inr ⟨h3.symm, h4⟩⟩⟩)
      · exact Or.inr (Or.inr ⟨h.symm, Or.inr ⟨h2.symm, Or.inl h3⟩⟩)
    · exact Or.inr (Or.inr ⟨h.symm, Or.inl h2⟩)
  · exact Or.inr (Or.inl h)

theorem lex4_trans {x y z : α × β × γ × δ} (h1 : lex4 x y) (h2 : lex4 y z) : lex4 x z := by
  unfold lex4 at h1 h2 ⊢
  rcases h1 with h1 | ⟨e1, h1⟩
  · rcases h2 with h2 | ⟨e2, _⟩
    · exact Or.inl (lt_trans h1 h2)
    · exact Or.inl (e2 ▸ h1)
  · rcases h2 with h2 | ⟨e2, h2⟩
    · exact Or.inl (e1 ▸ h2)
    · refine Or.inr ⟨e1.trans e2, ?_⟩
      rcases h1 with h1 | ⟨f1, h1⟩
      · rcases h2 with h2 | ⟨f2, _⟩
        · exact Or.inl (lt_trans h1 h2)
        · exact Or.inl (f2 ▸ h1)
      · rcases h2 with h2 | ⟨f2, h2⟩
        · exact Or.inl (f1 ▸ h2)
        · refine Or.inr ⟨f1.trans f2, ?_⟩
          rcases h1 with h1 | ⟨g1, h1⟩
          · rcases h2 with h2 | ⟨g2, _⟩
            · exact Or.inl (lt_trans h1 h2)
            · exact Or.inl (g2 ▸ h1)
          · rcases h2 with h2 | ⟨g2, h2⟩
            · exact Or.inl (g1 ▸ h2)
            · exact Or.inr ⟨g1.trans g2, le_trans h1 h2⟩

theorem lex4_antisymm {x y : α × β × γ × δ} (h1 : lex4 x y) (h2 : lex4 y x) : x = y := by
  unfold lex4 at h1 h2
  rcases h1 with h1 | ⟨e1, h1⟩
  · rcases h2 with h2 | ⟨e2, _⟩
    · exact absurd h2 (lt_asymm h1)
    · exact absurd h1 (e2 ▸ lt_irrefl _)
  · rcases h2 with h2 | ⟨e2, h2⟩
    · exact absurd h2 (e1 ▸ lt_irrefl _)
    · rcases h1 with h1 | ⟨f1, h1⟩
      · rcases h2 with h2 | ⟨f2, _⟩
        · exact absurd h2 (lt_asymm h1)
        · exact absurd h1 (f2 ▸ lt_irrefl _)
      · rcases h2 with h2 | ⟨f2, h2⟩
        · exact absurd h2 (f1 ▸ lt_irrefl _)
        · rcases h1 with h1 | ⟨g1, h1⟩
          · rcases h2 with h2 | ⟨g2, _⟩
            · exact absurd h2 (lt_asymm h1)
            · exact absurd h1 (g2 ▸ lt_irrefl _)
          · rcases h2 with h2 | ⟨g2, h2⟩
            · exact absurd h2 (g1 ▸ lt_irrefl _)
            · exact Prod.ext e1 (Prod.ext f1 (Prod.ext g1 (le_antisymm h1 h2)))

instance : IsTotal (α × β × γ × δ) lex4 := ⟨lex4_total⟩

instance : IsTrans (α × β × γ × δ) lex4 := ⟨fun _ _ _ => lex4_trans⟩

instance : IsAntisymm (α × β × γ × δ) lex4 := ⟨fun _ _ => lex4_antisymm⟩

end Lex4

/-! ## `braid_from_piecewise` (ZVK.py lines 45-117)

The merging phase (lines 67-85) resamples every strand at the union of all sample
times; the crossing-detection phase (lines 88-101) records, for each consecutive pair
of merged slices, the pairs of sorted positions whose lexicographic order flips; the
resolution phase (lines 102-115) orders the crossings and emits signed generators.
Python structures: `IndexError` / `ValueError` (`min` of an empty list) become `none`.
-/

/-- Evaluate a fallible operation on every element of a list, failing when any single
evaluation fails: the embedding of a Python list comprehension whose body may raise. -/
def mapOpt {α β : Type} (f : α → Option β) : List α → Option (List β)
  | [] => some []
  | a :: l =>
    match f a, mapOpt f l with
    | some b, some bs => some (b :: bs)
    | _, _ => none

theorem mapOpt_map {α β γ : Type} (f : β → Option γ) (g : α → β) (l : List α) :
    mapOpt f (l.map g) = mapOpt (fun a => f (g a)) l := by
  induction l with
  | nil => rfl
  | cons a t ih => simp [mapOpt, ih]

theorem mapOpt_of_eq {α β γ : Type} (f : α → β) (g : β → Option γ) (h : α → γ)
    (hx : ∀ a, g (f a) = some (h a)) (l : List α) :
    mapOpt g (l.map f) = some (l.map h) := by
  induction l with
  | nil => rfl
  | cons a t ih => simp [mapOpt, hx, ih]

theorem mapOpt_singleton {α β : Type} (f : α → Option β) (a : α) :
    mapOpt f [a] = (f a).map fun b => [b] := by
  cases h : f a <;> simp [mapOpt, h]

theorem mapOpt_length {α γ : Type} {g : α → Option γ} :
    ∀ {l : List α} {l2 : List γ}, mapOpt g l = some l2 → l2.length = l.length := by
  intro l
  induction l with
  | nil => intro l2 h; simp [mapOpt] at h; simp [← h]
  | cons a t ih =>
    intro l2 h
    rw [mapOpt] at h
    cases hga : g a with
    | none => rw [hga] at h; simp at h
    | some c =>
      rw [hga] at h
      cases hgt : mapOpt g t with
      | none => rw [hgt] at h; simp at h
      | some l3 =>
        rw [hgt] at h
        simp only [Option.some.injEq] at h
        simp [← h, ih hgt]

/-- `cruces` entry `[t, k, j, -s]` (line 101): interpolated crossing parameter, the two
sorted positions, and the flipped sign. -/
abbrev Cross : Type := ℚ × ℕ × ℕ × ℤ

/-- `crossesl` entry `(P(c[2]+1) - P(c[1]+1), c[1], c[2], c[3])` (lines 108 and 115). -/
abbrev KCross : Type := ℤ × ℕ × ℕ × ℤ

/-- The interpolation `xaux + (yaux - xaux)*(i - aaux)/(baux - aaux)` (line 78), with
the complex arithmetic carried out on the two rational components. -/
def interpola (xaux yaux : Point) (aaux baux i : ℚ) : Point :=
  (xaux.1 + (yaux.1 - xaux.1) * (i - aaux) / (baux - aaux),
   xaux.2 + (yaux.2 - xaux.2) * (i - aaux) / (baux - aaux))

/-- Lines 73-82, the body of the merging for-loop for one strand `s` whose current
index is `k`: either interpolate at time `i` (keeping the index) or consume the sample
(advancing the index).  `none` models Python's `IndexError`.  The source reads
`L[j][indices[j] - 1]`; `k = 0` would make that Python's last element, but the
index never returns to `0` once initialised to `1`. -/
def mergePass1 (s : Strand) (k : ℕ) (i : ℚ) : Option (Point × ℕ) :=
  (s.get? k).bind fun nxt =>
    if i < nxt.1 then
      (s.get? (k - 1)).map fun prv => (interpola prv.2 nxt.2 prv.1 nxt.1 i, k)
    else some (nxt.2, k + 1)

/-- Lines 72-82: one pass of the for-loop over all strands, pairing each strand with
its current index. -/
def mergeBody (L : List Strand) (idx : List ℕ) (i : ℚ) : Option (List (Point × ℕ)) :=
  mapOpt (fun si => mergePass1 si.1 si.2 i) (L.zip idx)

/-- `min([L[k][indices[k]][0] for k in range(len(L))])` (lines 68 and 83): `none` when
some index is out of range (`IndexError`) or `L` is empty (`min([])` raises). -/
def nextTime (L : List Strand) (idx : List ℕ) : Option ℚ :=
  (mapOpt (fun si => (si.1.get? si.2).map (·.1)) (L.zip idx)).bind List.min?

/-- The while-loop of lines 71-83.  `fuel` is an upper bound on the number of
iterations; on well-formed input (strictly increasing sample times ending at `1`) the
loop performs fewer than `totalLen L` iterations, and exhausting the fuel models
non-termination (which cannot happen on well-formed input, see `mergeLoop_total`). -/
def mergeLoop (L : List Strand) : ℕ → List ℕ → ℚ → List (List Point) →
    Option (List (List Point))
  | 0, _, _, _ => none
  | fuel + 1, idx, i, acc =>
    if i < 1 then
      (mergeBody L idx i).bind fun res =>
        (nextTime L (res.map (·.2))).bind fun i2 =>
          mergeLoop L fuel (res.map (·.2)) i2 (acc.zipWith (fun row p => row ++ [p.1]) res)
    else some acc

/-- The total number of samples, used as (more than sufficient) fuel for `mergeLoop`. -/
def totalLen (L : List Strand) : ℕ := (L.map List.length).sum

/-- Lines 67-85: the merging phase of `braid_from_piecewise`.  Returns the list
`totalpoints`: for every strand, its points at the common merged times. -/
def totalpointsOf (L : List Strand) : Option (List (List Point)) := do
  let ts ← mapOpt (fun s => (s.get? 1).map (·.1)) L
  let i0 ← ts.min?
  let acc0 ← mapOpt (fun s => (s.get? 0).map fun a => [a.2]) L
  let acc ← mergeLoop L (totalLen L + 1) (L.map fun _ => 1) i0 acc0
  let lasts ← mapOpt List.getLast? L
  pure (acc.zipWith (fun row a => row ++ [a.2]) lasts)

/-- `[totalpoints[j][i] for j in range(len(L))]` (lines 89-90). -/
def sliceOf (tp : List (List Point)) (i : ℕ) : Option (List Point) :=
  mapOpt (fun row => row.get? i) tp

/-- Lines 91-94: `M = [[l1[s], l2[s]] for s]` sorted, and its row at position `k`.
Indices used below always lie inside the list (they come from `range`), so the
`getD` default is never reached; projecting the pair is the same as indexing the
columns `l1 = [a[0] for a in M]`, `l2 = [a[1] for a in M]` of lines 93-94. -/
def sortedPair (l1 l2 : List Point) (k : ℕ) : Point × Point :=
  (List.insertionSort mLe (l1.zip l2)).getD k ((0, 0), (0, 0))

/-- `l1[k]` after the sort of line 92: the first-slice point at sorted position `k`. -/
def sortedFst (l1 l2 : List Point) (k : ℕ) : Point := (sortedPair l1 l2 k).1

/-- `l2[k]` after the sort of line 92: the second-slice point at sorted position `k`. -/
def sortedSnd (l1 l2 : List Point) (k : ℕ) : Point := (sortedPair l1 l2 k).2

/-- Line 99: `t = (l1[j][0] - l1[k][0]) / (l2[k][0] - l1[k][0] + l1[j][0] - l2[j][0])`.
In `ℚ` the quotient is total (`x / 0 = 0`) whereas Sage raises on a zero denominator;
theorems about the value of `t` assume the denominator is nonzero. -/
def crossParam (l1 l2 : List Point) (k j : ℕ) : ℚ :=
  ((sortedFst l1 l2 j).1 - (sortedFst l1 l2 k).1) /
    ((sortedSnd l1 l2 k).1 - (sortedFst l1 l2 k).1 +
      (sortedFst l1 l2 j).1 - (sortedSnd l1 l2 j).1)

/-- Lines 100-101: the recorded sign `-s` where
`s = cmp(l1[k][1]*(1-t) + t*l2[k][1], l1[j][1]*(1-t) + t*l2[j][1])`. -/
def crossSign (l1 l2 : List Point) (k j : ℕ) : ℤ :=
  -qcmp
    ((sortedFst l1 l2 k).2 * (1 - crossParam l1 l2 k j) +
      crossParam l1 l2 k j * (sortedSnd l1 l2 k).2)
    ((sortedFst l1 l2 j).2 * (1 - crossParam l1 l2 k j) +
      crossParam l1 l2 k j * (sortedSnd l1 l2 j).2)

/-- Lines 91-101: crossing detection for one pair of consecutive slices.  `M` pairs
each strand's point at the first slice with its point at the second slice and is
sorted lexicographically; a crossing `[t, k, j, -s]` is recorded for sorted positions
`k < j` exactly when the second-slice points compare in the opposite order
(`l2[j] < l2[k]`, line 98). -/
def slicePairCrossings (l1 l2 : List Point) : List Cross :=
  (List.range (List.insertionSort mLe (l1.zip l2)).length).flatMap fun j =>
    (List.range j).filterMap fun k =>
      if pLt (sortedSnd l1 l2 j) (sortedSnd l1 l2 k) then
        some (crossParam l1 l2 k j, k, j, crossSign l1 l2 k j)
      else none

/-- Line 114: `P = G(Permutation([(c[1] + 1, c[2] + 1)]))*P`.  Sage composes
permutations left to right, so the new permutation maps `m` to `P` of the transposed
`m`: the values of `P` at `k1` and `j1` are exchanged. -/
def transp (k1 j1 : ℕ) (P : ℕ → ℕ) : ℕ → ℕ :=
  fun m => if m = k1 then P j1 else if m = j1 then P k1 else P m

/-- Lines 108 and 115: key a crossing with the difference of the permuted strand
indices (an integer, computed with the current permutation `P`). -/
def rekey (P : ℕ → ℕ) (c : Cross) : KCross :=
  ((P (c.2.2.1 + 1) : ℤ) - (P (c.2.1 + 1) : ℤ), c.2.1, c.2.2.1, c.2.2.2)

/-- Line 115 applied to an already-keyed crossing: recompute the difference of the
permuted strand indices, keeping `c[1], c[2], c[3]`. -/
def rekeyK (P : ℕ → ℕ) (r : KCross) : KCross :=
  ((P (r.2.2.1 + 1) : ℤ) - (P (r.2.1 + 1) : ℤ), r.2.1, r.2.2.1, r.2.2.2)

/-- Lines 110-115, the inner while-loop over one group of simultaneous crossings:
sort the keyed list, pop its head, emit `c[3] * min(P(c[1]+1), P(c[2]+1))` with the
permutation from BEFORE the update, transpose the permutation, and re-key the
remaining crossings with the updated permutation.  `fuel` bounds the iterations;
`fuel = length` always suffices (`resolveGroup` is only called that way). -/
def resolveGroup (P : ℕ → ℕ) (crossesl : List KCross) : ℕ → List ℤ × (ℕ → ℕ)
  | 0 => ([], P)
  | fuel + 1 =>
    match List.insertionSort lex4 crossesl with
    | [] => ([], P)
    | c :: rest =>
      let g : ℤ := c.2.2.2 * (min (P (c.2.1 + 1)) (P (c.2.2.1 + 1)) : ℕ)
      let P2 := transp (c.2.1 + 1) (c.2.2.1 + 1) P
      let res := resolveGroup P2 (rest.map (rekeyK P2)) fuel
      (g :: res.1, res.2)

/-- Lines 105-115, the outer while-loop: take the prefix group of crossings sharing
the minimal `t` (the list is sorted by `t` first), key it with the current
permutation, resolve it, and continue with the updated permutation.  `fuel` bounds
the iterations; `fuel = length` always suffices. -/
def resolveAll (P : ℕ → ℕ) (cruces : List Cross) : ℕ → List ℤ
  | 0 => []
  | fuel + 1 =>
    match cruces with
    | [] => []
    | c0 :: _ =>
      let crucesl := cruces.filter fun c => c.1 = c0.1
      let res := resolveGroup P (crucesl.map (rekey P)) crucesl.length
      res.1 ++ resolveAll res.2 (cruces.drop crucesl.length) fuel

/-- Lines 95-115 for one consecutive pair of merged slices: detect the crossings and,
if there are any, sort them and resolve them starting from the identity permutation
(`P = G(Permutation([]))`, line 104). -/
def slicePairWord (l1 l2 : List Point) : List ℤ :=
  let cruces := slicePairCrossings l1 l2
  if 0 < cruces.length then
    let sorted := List.insertionSort lex4 cruces
    resolveAll (fun m => m) sorted sorted.length
  else []

/-- Lines 45-117: `braid_from_piecewise`, returning the list `braid` of signed
generator indices (the Tietze word handed to `BraidGroup(len(L))`; the embedding
stops at the word, construction of the braid-group element being the external
collaborator's job).  `none` models a Python exception before the word is formed. -/
def braidFromPiecewise (strands : List Strand) : Option (List ℤ) := do
  let tp ← totalpointsOf strands
  let n := (tp.headD []).length
  let words ← mapOpt (fun i => do
    let l1 ← sliceOf tp i
    let l2 ← sliceOf tp (i + 1)
    pure (slicePairWord l1 l2)) (List.range (n - 1))
  pure words.flatten

/-! ### Semantics of the detected crossings -/

/-- The linearly interpolated plane point of sorted position `k` at parameter `t`:
both coordinates interpolated between the first and the second slice. -/
def pointAt (l1 l2 : List Point) (k : ℕ) (t : ℚ) : Point :=
  ((sortedFst l1 l2 k).1 * (1 - t) + t * (sortedSnd l1 l2 k).1,
   (sortedFst l1 l2 k).2 * (1 - t) + t * (sortedSnd l1 l2 k).2)

/-- The denominator of the crossing parameter (line 99). -/
def crossDenom (l1 l2 : List Point) (k j : ℕ) : ℚ :=
  (sortedSnd l1 l2 k).1 - (sortedFst l1 l2 k).1 +
    (sortedFst l1 l2 j).1 - (sortedSnd l1 l2 j).1

theorem length_insertionSort_zip (l1 l2 : List Point) :
    (List.insertionSort mLe (l1.zip l2)).length = (l1.zip l2).length :=
  (List.perm_insertionSort mLe _).length_eq

theorem slicePairCrossings_mem {l1 l2 : List Point} {c : Cross}
    (hc : c ∈ slicePairCrossings l1 l2) :
    ∃ k j, k < j ∧ j < (l1.zip l2).length ∧
      pLt (sortedSnd l1 l2 j) (sortedSnd l1 l2 k) ∧
      c = (crossParam l1 l2 k j, k, j, crossSign l1 l2 k j) := by
  simp only [slicePairCrossings, List.mem_flatMap, List.mem_filterMap,
    List.mem_range] at hc
  obtain ⟨j, hj, k, hk, hik⟩ := hc
  by_cases hflip : pLt (sortedSnd l1 l2 j) (sortedSnd l1 l2 k)
  · rw [if_pos hflip] at hik
    refine ⟨k, j, hk, ?_, hflip, (Option.some.injEq _ _).mp hik |>.symm⟩
    rw [← length_insertionSort_zip l1 l2]
    exact hj
  · rw [if_neg hflip] at hik
    exact absurd hik (by simp)

theorem slicePairCrossings_mem_intro {l1 l2 : List Point} {k j : ℕ}
    (hkj : k < j) (hj : j < (l1.zip l2).length)
    (hflip : pLt (sortedSnd l1 l2 j) (sortedSnd l1 l2 k)) :
    (crossParam l1 l2 k j, k, j, crossSign l1 l2 k j) ∈ slicePairCrossings l1 l2 := by
  simp only [slicePairCrossings, List.mem_flatMap, List.mem_filterMap, List.mem_range]
  refine ⟨j, ?_, k, hkj, by rw [if_pos hflip]⟩
  rw [length_insertionSort_zip l1 l2]
  exact hj

theorem sortedPair_rel {l1 l2 : List Point} {k j : ℕ} (hkj : k < j)
    (hj : j < (l1.zip l2).length) :
    mLe (sortedPair l1 l2 k) (sortedPair l1 l2 j) := by
  have hs := List.sorted_insertionSort mLe (l1.zip l2)
  have hlen := length_insertionSort_zip l1 l2
  have hk2 : k < (List.insertionSort mLe (l1.zip l2)).length := by omega
  have hj2 : j < (List.insertionSort mLe (l1.zip l2)).length := by omega
  have hrel := List.Sorted.rel_get_of_lt hs
    (show (⟨k, hk2⟩ : Fin _) < ⟨j, hj2⟩ from hkj)
  rw [sortedPair, sortedPair, List.getD_eq_getElem _ _ hk2, List.getD_eq_getElem _ _ hj2]
  simpa [List.get_eq_getElem] using hrel

/-- When the flip is recorded but the denominator of `t` vanishes, the two strands
have equal real parts at both slices (so Python would raise `ZeroDivisionError`;
in the embedding `t = 0`). -/
theorem crossDenom_zero {l1 l2 : List Point} {k j : ℕ} (hkj : k < j)
    (hj : j < (l1.zip l2).length)
    (hflip : pLt (sortedSnd l1 l2 j) (sortedSnd l1 l2 k))
    (hden : crossDenom l1 l2 k j = 0) :
    (sortedFst l1 l2 k).1 = (sortedFst l1 l2 j).1 ∧
    (sortedSnd l1 l2 k).1 = (sortedSnd l1 l2 j).1 := by
  have hrel := sortedPair_rel hkj hj
  have h1 : (sortedFst l1 l2 k).1 ≤ (sortedFst l1 l2 j).1 := by
    rcases hrel with h | ⟨h, _⟩
    · rcases h with h | ⟨h, _⟩
      · exact le_of_lt h
      · exact le_of_eq h
    · exact le_of_eq (congrArg Prod.fst h)
  have h2 : (sortedSnd l1 l2 j).1 ≤ (sortedSnd l1 l2 k).1 := by
    rcases hflip with h | ⟨h, _⟩
    · exact le_of_lt h
    · exact le_of_eq h
  unfold crossDenom at hden
  constructor <;> linarith

/-- At the recorded parameter the two strands' projections to the real axis
coincide (including the degenerate zero-denominator case, where the real parts
agree at every parameter). -/
theorem crossParam_real_coincide {l1 l2 : List Point} {k j : ℕ} (hkj : k < j)
    (hj : j < (l1.zip l2).length)
    (hflip : pLt (sortedSnd l1 l2 j) (sortedSnd l1 l2 k)) :
    (pointAt l1 l2 k (crossParam l1 l2 k j)).1 =
      (pointAt l1 l2 j (crossParam l1 l2 k j)).1 := by
  by_cases hden : crossDenom l1 l2 k j = 0
  · obtain ⟨e1, e2⟩ := crossDenom_zero hkj hj hflip hden
    simp only [pointAt, e1, e2]
  · unfold pointAt crossParam
    unfold crossDenom at hden
    field_simp
    ring

/-- With a nonzero denominator, the recorded parameter is the unique one at which
the two projections coincide. -/
theorem crossParam_unique {l1 l2 : List Point} {k j : ℕ}
    (hden : crossDenom l1 l2 k j ≠ 0) {u : ℚ}
    (h : (pointAt l1 l2 k u).1 = (pointAt l1 l2 j u).1) :
    u = crossParam l1 l2 k j := by
  unfold pointAt at h
  unfold crossParam
  unfold crossDenom at hden
  rw [eq_div_iff hden]
  simp only at h
  linear_combination h

theorem crossSign_cases (l1 l2 : List Point) (k j : ℕ) :
    (crossSign l1 l2 k j = -1 ↔
      (pointAt l1 l2 j (crossParam l1 l2 k j)).2 <
        (pointAt l1 l2 k (crossParam l1 l2 k j)).2) ∧
    (crossSign l1 l2 k j = 1 ↔
      (pointAt l1 l2 k (crossParam l1 l2 k j)).2 <
        (pointAt l1 l2 j (crossParam l1 l2 k j)).2) ∧
    (crossSign l1 l2 k j = 0 ↔
      (pointAt l1 l2 k (crossParam l1 l2 k j)).2 =
        (pointAt l1 l2 j (crossParam l1 l2 k j)).2) := by
  unfold crossSign qcmp pointAt
  split_ifs with h1 h2 <;>
    refine ⟨?_, ?_, ?_⟩ <;> constructor <;> intro h <;> simp_all <;> linarith

/-- On a crossing where the two strands do not fully coincide at the recorded
parameter, the recorded sign is `±1` (never `0`). -/
theorem crossSign_ne_zero {l1 l2 : List Point} {k j : ℕ} (hkj : k < j)
    (hj : j < (l1.zip l2).length)
    (hflip : pLt (sortedSnd l1 l2 j) (sortedSnd l1 l2 k))
    (hne : pointAt l1 l2 k (crossParam l1 l2 k j) ≠
      pointAt l1 l2 j (crossParam l1 l2 k j)) :
    crossSign l1 l2 k j = 1 ∨ crossSign l1 l2 k j = -1 := by
  have hre := crossParam_real_coincide hkj hj hflip
  have him : (pointAt l1 l2 k (crossParam l1 l2 k j)).2 ≠
      (pointAt l1 l2 j (crossParam l1 l2 k j)).2 := by
    intro h
    exact hne (Prod.ext hre h)
  have hc := crossSign_cases l1 l2 k j
  rcases lt_trichotomy (pointAt l1 l2 k (crossParam l1 l2 k j)).2
      (pointAt l1 l2 j (crossParam l1 l2 k j)).2 with h | h | h
  · exact Or.inl (hc.2.1.mpr h)
  · exact absurd h him
  · exact Or.inr (hc.1.mpr h)

/-! ## Claim C2: what the detection phase records -/

/-- **C2** (counterexample).  For the slice pair in which the two strands cross
transversally through the SAME point of the plane — first slice `[(0,0), (2,0)]`,
second slice `[(2,0), (0,0)]` — the recorded crossing is `(1/2, 0, 1, 0)`: its sign
is `0`, not `+1`, although the strand of higher index does not pass from below to
above (the imaginary parts are equal at `t* = 1/2`).  The claim's dichotomy "-1 if
below-to-above, +1 otherwise" is therefore false as stated (and Sage would go on to
reject the Tietze letter `0`). -/
theorem slicePairCrossings_sign_cex :
    slicePairCrossings [((0 : ℚ), (0 : ℚ)), (2, 0)] [(2, 0), (0, 0)] =
      [(1/2, 0, 1, 0)] ∧ ¬ ((0 : ℤ) = -1 ∨ (0 : ℤ) = 1) := by
  constructor
  · norm_num [slicePairCrossings, sortedSnd, sortedFst, sortedPair, crossParam, crossSign,
      qcmp, List.insertionSort, List.orderedInsert, mLe, pLt, pLe, List.range_succ,
      List.filterMap_cons, List.getD]
  · decide

/-- **C2** (amended).  For every consecutive pair of merged slices: a crossing
between sorted positions `k < j` is recorded exactly when their relative order under
the real-part-then-imaginary-part sort flips between the two slices; every recorded
entry carries `t* = crossParam` and `s = crossSign`; whenever the defining
denominator is nonzero, `t*` is the unique interpolation parameter at which the two
strands' projections to the real axis coincide (both coordinates interpolated
linearly); and the sign is `-1` when the strand of higher sorted index passes below
the other (strictly smaller imaginary part at `t*`), `+1` when it passes above, and
`0` in the degenerate case where the two interpolated imaginary parts are equal. -/
theorem slicePairCrossings_spec (l1 l2 : List Point) (k j : ℕ) :
    ((∃ t s, (t, k, j, s) ∈ slicePairCrossings l1 l2) ↔
      k < j ∧ j < (l1.zip l2).length ∧
        pLt (sortedSnd l1 l2 j) (sortedSnd l1 l2 k)) ∧
    (∀ t s, (t, k, j, s) ∈ slicePairCrossings l1 l2 →
      t = crossParam l1 l2 k j ∧ s = crossSign l1 l2 k j ∧
      (crossDenom l1 l2 k j ≠ 0 →
        (pointAt l1 l2 k t).1 = (pointAt l1 l2 j t).1 ∧
        ∀ u, (pointAt l1 l2 k u).1 = (pointAt l1 l2 j u).1 → u = t) ∧
      (s = -1 ↔ (pointAt l1 l2 j t).2 < (pointAt l1 l2 k t).2) ∧
      (s = 1 ↔ (pointAt l1 l2 k t).2 < (pointAt l1 l2 j t).2) ∧
      (s = 0 ↔ (pointAt l1 l2 k t).2 = (pointAt l1 l2 j t).2)) := by
  constructor
  · constructor
    · rintro ⟨t, s, hmem⟩
      obtain ⟨k2, j2, hkj, hj, hflip, heq⟩ := slicePairCrossings_mem hmem
      obtain ⟨rfl, rfl⟩ : k = k2 ∧ j = j2 := by
        have h1 := congrArg (fun c : Cross => c.2.1) heq
        have h2 := congrArg (fun c : Cross => c.2.2.1) heq
        exact ⟨h1, h2⟩
      exact ⟨hkj, hj, hflip⟩
    · rintro ⟨hkj, hj, hflip⟩
      exact ⟨_, _, slicePairCrossings_mem_intro hkj hj hflip⟩
  · intro t s hmem
    obtain ⟨k2, j2, hkj, hj, hflip, heq⟩ := slicePairCrossings_mem hmem
    obtain ⟨rfl, rfl⟩ : k = k2 ∧ j = j2 := by
      have h1 := congrArg (fun c : Cross => c.2.1) heq
      have h2 := congrArg (fun c : Cross => c.2.2.1) heq
      exact ⟨h1, h2⟩
    obtain ⟨rfl, rfl⟩ : t = crossParam l1 l2 k j ∧ s = crossSign l1 l2 k j := by
      have h1 := congrArg (fun c : Cross => c.1) heq
      have h2 := congrArg (fun c : Cross => c.2.2.2) heq
      exact ⟨h1, h2⟩
    refine ⟨rfl, rfl, fun hden => ⟨crossParam_real_coincide hkj hj hflip,
      fun u hu => crossParam_unique hden hu⟩, crossSign_cases l1 l2 k j⟩

/-- Concrete check of the amended C2: the strands `(0,0) -> (1,0)` and
`(1,1) -> (0,1)` cross at `t* = 1/2` with the higher-index strand above, sign `+1`. -/
theorem slicePairCrossings_spec_witness :
    ((1 : ℚ)/2, 1) ∈ (fun c : Cross => (c.1, c.2.2.2)) '' {c |
      c ∈ slicePairCrossings [((0 : ℚ), (0 : ℚ)), (1, 1)] [(1, 0), (0, 1)]} ∧
    (pointAt [((0 : ℚ), (0 : ℚ)), (1, 1)] [(1, 0), (0, 1)] 0 (1/2)).1 =
      (pointAt [((0 : ℚ), (0 : ℚ)), (1, 1)] [(1, 0), (0, 1)] 1 (1/2)).1 := by
  have hmem : ((1 : ℚ)/2, 0, 1, (1 : ℤ)) ∈
      slicePairCrossings [((0 : ℚ), (0 : ℚ)), (1, 1)] [(1, 0), (0, 1)] := by
    norm_num [slicePairCrossings, sortedSnd, sortedFst, sortedPair, crossParam, crossSign,
      qcmp, List.insertionSort, List.orderedInsert, mLe, pLt, pLe, List.range_succ,
      List.filterMap_cons, List.getD]
  have h := (slicePairCrossings_spec [((0 : ℚ), (0 : ℚ)), (1, 1)] [(1, 0), (0, 1)] 0 1).2
    (1/2) 1 hmem
  refine ⟨⟨((1 : ℚ)/2, 0, 1, (1 : ℤ)), hmem, rfl⟩, ?_⟩
  have hden : crossDenom [((0 : ℚ), (0 : ℚ)), (1, 1)] [(1, 0), (0, 1)] 0 1 ≠ 0 := by
    norm_num [crossDenom, sortedSnd, sortedFst, sortedPair, List.insertionSort,
      List.orderedInsert, mLe, pLt, pLe, List.getD]
  exact (h.2.2.1 hden).1

theorem min?_replicate_one (n : ℕ) :
    ((List.replicate n (1 : ℚ)).min?).elim (1 : ℚ) (min 1) = 1 := by
  induction n with
  | zero => rfl
  | succ m ih => rw [List.replicate_succ, List.min?_cons]; simp_all

theorem min?_map_one {α : Type} (L : List α) (hne : L ≠ []) :
    (L.map fun _ => (1 : ℚ)).min? = some 1 := by
  cases L with
  | nil => exact absurd rfl hne
  | cons a t => simp [List.min?_cons, min?_replicate_one]

theorem zipWith_map_same {α β γ δ : Type} (f : β → γ → δ) (g : α → β) (h : α → γ)
    (l : List α) : List.zipWith f (l.map g) (l.map h) = l.map fun a => f (g a) (h a) := by
  induction l with
  | nil => rfl
  | cons a t ih => simp [ih]

/-- The boundary-correction strand families built on lines 316 and 329 consist of
two-sample strands from time 0 to time 1; on any nonempty such family
`braid_from_piecewise` succeeds, returning the word of the single slice pair. -/
theorem totalpointsOf_boundary (L : List (Point × Point)) (hne : L ≠ []) :
    totalpointsOf (L.map fun ab => [((0 : ℚ), ab.1), ((1 : ℚ), ab.2)]) =
      some (L.map fun ab => [ab.1, ab.2]) := by
  have h1 : mapOpt (fun s => (s.get? 1).map (·.1))
      (L.map fun ab => [((0 : ℚ), ab.1), ((1 : ℚ), ab.2)]) =
      some (L.map fun _ => (1 : ℚ)) :=
    mapOpt_of_eq (fun ab => [((0 : ℚ), ab.1), ((1 : ℚ), ab.2)]) _
      (fun _ => (1 : ℚ)) (fun a => rfl) L
  have h2 : mapOpt (fun s => (s.get? 0).map fun a => [a.2])
      (L.map fun ab => [((0 : ℚ), ab.1), ((1 : ℚ), ab.2)]) =
      some (L.map fun ab => [ab.1]) :=
    mapOpt_of_eq (fun ab => [((0 : ℚ), ab.1), ((1 : ℚ), ab.2)]) _
      (fun ab => [ab.1]) (fun a => rfl) L
  have h3 : mapOpt List.getLast? (L.map fun ab => [((0 : ℚ), ab.1), ((1 : ℚ), ab.2)]) =
      some (L.map fun ab => ((1 : ℚ), ab.2)) :=
    mapOpt_of_eq (fun ab => [((0 : ℚ), ab.1), ((1 : ℚ), ab.2)]) _
      (fun ab => ((1 : ℚ), ab.2)) (fun a => rfl) L
  have hloop : ∀ idx acc, mergeLoop (L.map fun ab => [((0 : ℚ), ab.1), ((1 : ℚ), ab.2)])
      (totalLen (L.map fun ab => [((0 : ℚ), ab.1), ((1 : ℚ), ab.2)]) + 1)
      idx 1 acc = some acc := by
    intro idx acc; simp [mergeLoop]
  have hzip : List.zipWith (fun row a => row ++ [a.2]) (L.map fun ab => [ab.1])
      (L.map fun ab => ((1 : ℚ), ab.2)) = L.map fun ab => [ab.1, ab.2] := by
    rw [zipWith_map_same]; rfl
  rw [totalpointsOf]
  simp only [h1, h2, h3, Option.bind_eq_bind, Option.some_bind,
    min?_map_one L hne, hloop, hzip]
  rfl

theorem braidFromPiecewise_boundary (L : List (Point × Point)) (hne : L ≠ []) :
    braidFromPiecewise (L.map fun ab => [((0 : ℚ), ab.1), ((1 : ℚ), ab.2)]) =
      some (slicePairWord (L.map (·.1)) (L.map (·.2))) := by
  rw [braidFromPiecewise, totalpointsOf_boundary L hne]
  simp only [Option.bind_eq_bind, Option.some_bind]
  obtain ⟨c, t, rfl⟩ : ∃ c t, L = c :: t := by
    cases L with
    | nil => exact absurd rfl hne
    | cons c t => exact ⟨c, t, rfl⟩
  have hs0 : sliceOf ((c :: t).map fun ab => [ab.1, ab.2]) 0 =
      some ((c :: t).map (·.1)) :=
    mapOpt_of_eq (fun ab : Point × Point => [ab.1, ab.2]) (fun row => row.get? 0)
      (·.1) (fun a => rfl) _
  have hs1 : sliceOf ((c :: t).map fun ab => [ab.1, ab.2]) 1 =
      some ((c :: t).map (·.2)) :=
    mapOpt_of_eq (fun ab : Point × Point => [ab.1, ab.2]) (fun row => row.get? 1)
      (·.2) (fun a => rfl) _
  have hrange : List.range ((((c :: t).map fun ab => [ab.1, ab.2]).headD []).length - 1)
      = [0] := rfl
  rw [hrange, mapOpt_singleton]
  simp only [List.map_cons] at hs0 hs1
  simp [hs0, hs1]

/-! ### Claim C10: the emitted generators are admissible Tietze letters -/

/-- The permutation invariant maintained by the resolution loop: `P` restricts to an
injection of `{1, ..., d}` into itself (hence a bijection). -/
def PermOn (d : ℕ) (P : ℕ → ℕ) : Prop :=
  (∀ m, 1 ≤ m → m ≤ d → 1 ≤ P m ∧ P m ≤ d) ∧
  (∀ m1 m2, 1 ≤ m1 → m1 ≤ d → 1 ≤ m2 → m2 ≤ d → P m1 = P m2 → m1 = m2)

theorem PermOn_id (d : ℕ) : PermOn d (fun m => m) :=
  ⟨fun m h1 h2 => ⟨h1, h2⟩, fun _ _ _ _ _ _ h => h⟩

/-- The underlying swap of positions: `transp k1 j1 P = P ∘ swapN k1 j1`. -/
def swapN (k1 j1 m : ℕ) : ℕ := if m = k1 then j1 else if m = j1 then k1 else m

theorem transp_eq (k1 j1 : ℕ) (P : ℕ → ℕ) (m : ℕ) :
    transp k1 j1 P m = P (swapN k1 j1 m) := by
  unfold transp swapN
  split_ifs <;> rfl

theorem swapN_invol (k1 j1 m : ℕ) : swapN k1 j1 (swapN k1 j1 m) = m := by
  unfold swapN
  split_ifs <;> omega

theorem swapN_bounds {d k1 j1 m : ℕ} (hk : 1 ≤ k1 ∧ k1 ≤ d) (hj : 1 ≤ j1 ∧ j1 ≤ d)
    (h1 : 1 ≤ m) (h2 : m ≤ d) : 1 ≤ swapN k1 j1 m ∧ swapN k1 j1 m ≤ d := by
  unfold swapN
  split_ifs <;> omega

theorem PermOn_transp {d : ℕ} {P : ℕ → ℕ} (hP : PermOn d P) {k1 j1 : ℕ}
    (hk : 1 ≤ k1 ∧ k1 ≤ d) (hj : 1 ≤ j1 ∧ j1 ≤ d) : PermOn d (transp k1 j1 P) := by
  constructor
  · intro m h1 h2
    rw [transp_eq]
    obtain ⟨hs1, hs2⟩ := swapN_bounds hk hj h1 h2
    exact hP.1 _ hs1 hs2
  · intro m1 m2 h11 h12 h21 h22 heq
    rw [transp_eq, transp_eq] at heq
    obtain ⟨hb11, hb12⟩ := swapN_bounds hk hj h11 h12
    obtain ⟨hb21, hb22⟩ := swapN_bounds hk hj h21 h22
    have := hP.2 _ _ hb11 hb12 hb21 hb22 heq
    calc m1 = swapN k1 j1 (swapN k1 j1 m1) := (swapN_invol k1 j1 m1).symm
    _ = swapN k1 j1 (swapN k1 j1 m2) := by rw [this]
    _ = m2 := swapN_invol k1 j1 m2

/-- Admissibility of a keyed crossing for `d` strands: positions in range, sign
`±1`. -/
def KAdm (d : ℕ) (r : KCross) : Prop :=
  r.2.1 < r.2.2.1 ∧ r.2.2.1 < d ∧ (r.2.2.2 = 1 ∨ r.2.2.2 = -1)

/-- Admissibility of a detected crossing for `d` strands. -/
def CAdm (d : ℕ) (c : Cross) : Prop :=
  c.2.1 < c.2.2.1 ∧ c.2.2.1 < d ∧ (c.2.2.2 = 1 ∨ c.2.2.2 = -1)

theorem emit_bounds {d : ℕ} {P : ℕ → ℕ} (hP : PermOn d P) {k j : ℕ} {sg : ℤ}
    (hkj : k < j) (hj : j < d) (hsg : sg = 1 ∨ sg = -1) :
    1 ≤ (sg * (min (P (k + 1)) (P (j + 1)) : ℕ)).natAbs ∧
    (sg * (min (P (k + 1)) (P (j + 1)) : ℕ)).natAbs ≤ d - 1 := by
  obtain ⟨hk1, hk2⟩ := hP.1 (k + 1) (by omega) (by omega)
  obtain ⟨hj1, hj2⟩ := hP.1 (j + 1) (by omega) (by omega)
  have hne : P (k + 1) ≠ P (j + 1) := by
    intro h
    have := hP.2 (k + 1) (j + 1) (by omega) (by omega) (by omega) (by omega) h
    omega
  have hmin : 1 ≤ min (P (k + 1)) (P (j + 1)) ∧ min (P (k + 1)) (P (j + 1)) ≤ d - 1 := by
    rw [Nat.min_def]
    split_ifs <;> omega
  have habs : (sg * (min (P (k + 1)) (P (j + 1)) : ℕ)).natAbs =
      min (P (k + 1)) (P (j + 1)) := by
    rcases hsg with rfl | rfl
    · rw [one_mul, Int.natAbs_ofNat]
    · rw [neg_one_mul, Int.natAbs_neg, Int.natAbs_ofNat]
  omega

theorem resolveGroup_entries {d : ℕ} :
    ∀ (fuel : ℕ) (P : ℕ → ℕ) (crossesl : List KCross), PermOn d P →
      (∀ r ∈ crossesl, KAdm d r) →
      (∀ g ∈ (resolveGroup P crossesl fuel).1, 1 ≤ g.natAbs ∧ g.natAbs ≤ d - 1) ∧
      PermOn d (resolveGroup P crossesl fuel).2 := by
  intro fuel
  induction fuel with
  | zero =>
    intro P crossesl hP hc
    exact ⟨by simp [resolveGroup], hP⟩
  | succ f ih =>
    intro P crossesl hP hc
    rw [resolveGroup]
    cases hs : List.insertionSort lex4 crossesl with
    | nil => exact ⟨by simp, hP⟩
    | cons c rest =>
      have hsub : ∀ r ∈ List.insertionSort lex4 crossesl, KAdm d r := fun r hr =>
        hc r ((List.perm_insertionSort lex4 crossesl).subset hr)
      have hcadm : KAdm d c := hsub c (hs ▸ List.mem_cons_self c rest)
      obtain ⟨hkj, hjd, hsg⟩ := hcadm
      have hP2 : PermOn d (transp (c.2.1 + 1) (c.2.2.1 + 1) P) :=
        PermOn_transp hP ⟨by omega, by omega⟩ ⟨by omega, by omega⟩
      have hrest : ∀ r ∈ rest.map (rekeyK (transp (c.2.1 + 1) (c.2.2.1 + 1) P)),
          KAdm d r := by
        intro r hr
        obtain ⟨r0, hr0, rfl⟩ := List.mem_map.mp hr
        have := hsub r0 (hs ▸ List.mem_cons_of_mem c hr0)
        exact this
      have hih := ih (transp (c.2.1 + 1) (c.2.2.1 + 1) P)
        (rest.map (rekeyK (transp (c.2.1 + 1) (c.2.2.1 + 1) P))) hP2 hrest
      refine ⟨?_, hih.2⟩
      intro g hg
      rcases List.mem_cons.mp hg with rfl | hg2
      · exact emit_bounds hP hkj hjd hsg
      · exact hih.1 g hg2

theorem resolveAll_entries {d : ℕ} :
    ∀ (fuel : ℕ) (P : ℕ → ℕ) (cruces : List Cross), PermOn d P →
      (∀ c ∈ cruces, CAdm d c) →
      ∀ g ∈ resolveAll P cruces fuel, 1 ≤ g.natAbs ∧ g.natAbs ≤ d - 1 := by
  intro fuel
  induction fuel with
  | zero =>
    intro P cruces hP hc
    simp [resolveAll]
  | succ f ih =>
    intro P cruces hP hc
    cases cruces with
    | nil => simp [resolveAll]
    | cons c0 cs =>
      rw [resolveAll]
      intro g hg
      have hkadm : ∀ r ∈ (((c0 :: cs).filter fun c => c.1 = c0.1).map (rekey P)),
          KAdm d r := by
        intro r hr
        obtain ⟨r0, hr0, rfl⟩ := List.mem_map.mp hr
        exact hc r0 (List.mem_of_mem_filter hr0)
      have hgrp := resolveGroup_entries (((c0 :: cs).filter fun c => c.1 = c0.1)).length
        P (((c0 :: cs).filter fun c => c.1 = c0.1).map (rekey P)) hP hkadm
      rcases List.mem_append.mp hg with hg1 | hg2
      · exact hgrp.1 g hg1
      · refine ih _ _ hgrp.2 (fun c hcm => hc c (List.drop_subset _ _ hcm)) g hg2

theorem slicePairWord_entries (l1 l2 : List Point)
    (hco : ∀ k j, k < j → j < (l1.zip l2).length →
      pLt (sortedSnd l1 l2 j) (sortedSnd l1 l2 k) →
      pointAt l1 l2 k (crossParam l1 l2 k j) ≠
        pointAt l1 l2 j (crossParam l1 l2 k j)) :
    ∀ g ∈ slicePairWord l1 l2, 1 ≤ g.natAbs ∧ g.natAbs ≤ (l1.zip l2).length - 1 := by
  intro g hg
  rw [slicePairWord] at hg
  by_cases hlen : 0 < (slicePairCrossings l1 l2).length
  · rw [if_pos hlen] at hg
    refine resolveAll_entries _ (fun m => m) _ (PermOn_id _) ?_ g hg
    intro c hcmem
    have hcm : c ∈ slicePairCrossings l1 l2 :=
      (List.perm_insertionSort lex4 _).subset hcmem
    obtain ⟨k, j, hkj, hj, hflip, rfl⟩ := slicePairCrossings_mem hcm
    exact ⟨hkj, hj, crossSign_ne_zero hkj hj hflip (hco k j hkj hj hflip)⟩
  · rw [if_neg hlen] at hg
    simp at hg

theorem mapOpt_mem {α β : Type} {f : α → Option β} :
    ∀ {l : List α} {r : List β}, mapOpt f l = some r → ∀ b ∈ r, ∃ a ∈ l, f a = some b := by
  intro l
  induction l with
  | nil =>
    intro r h b hb
    rw [mapOpt] at h
    simp only [Option.some.injEq] at h
    rw [← h] at hb
    simp at hb
  | cons a t ih =>
    intro r h b hb
    rw [mapOpt] at h
    cases hfa : f a with
    | none => rw [hfa] at h; simp at h
    | some c =>
      rw [hfa] at h
      cases hft : mapOpt f t with
      | none => rw [hft] at h; simp at h
      | some r2 =>
        rw [hft] at h
        simp only [Option.some.injEq] at h
        rw [← h] at hb
        rcases List.mem_cons.mp hb with rfl | hb2
        · exact ⟨a, List.mem_cons_self a t, hfa⟩
        · obtain ⟨a2, ha2, hfa2⟩ := ih hft b hb2
          exact ⟨a2, List.mem_cons_of_mem a ha2, hfa2⟩

theorem mergeLoop_length (L : List Strand) :
    ∀ fuel (idx : List ℕ) (i : ℚ) (acc out : List (List Point)),
      mergeLoop L fuel idx i acc = some out →
      idx.length = L.length → acc.length = L.length → out.length = L.length := by
  intro fuel
  induction fuel with
  | zero => intro idx i acc out h _ _; exact absurd h (by simp [mergeLoop])
  | succ f ih =>
    intro idx i acc out h hidx hacc
    rw [mergeLoop] at h
    by_cases hi : i < 1
    · rw [if_pos hi] at h
      cases hb : mergeBody L idx i with
      | none => rw [hb] at h; exact absurd h (by simp)
      | some res =>
        rw [hb, Option.some_bind] at h
        have hres : res.length = L.length := by
          have := mapOpt_length hb
          rw [List.length_zip, hidx] at this
          simpa using this
        cases hn : nextTime L (res.map (·.2)) with
        | none => rw [hn] at h; exact absurd h (by simp)
        | some i2 =>
          rw [hn, Option.some_bind] at h
          refine ih _ _ _ _ h (by simp [hres]) ?_
          rw [List.length_zipWith, hacc, hres]
          simp
    · rw [if_neg hi] at h
      simp only [Option.some.injEq] at h
      rw [← h]
      exact hacc

theorem totalpointsOf_length {L : List Strand} {tp : List (List Point)}
    (h : totalpointsOf L = some tp) : tp.length = L.length := by
  rw [totalpointsOf] at h
  simp only [Option.bind_eq_bind, bind, Option.bind_eq_some] at h
  obtain ⟨ts, hts, h⟩ := h
  obtain ⟨i0, hi0, h⟩ := h
  obtain ⟨acc0, hacc0, h⟩ := h
  obtain ⟨acc, hacc, h⟩ := h
  obtain ⟨lasts, hlasts, h⟩ := h
  simp only [Option.pure_def, Option.some.injEq] at h
  rw [← h, List.length_zipWith]
  have h1 : acc0.length = L.length := by rw [mapOpt_length hacc0]
  have h2 : acc.length = L.length :=
    mergeLoop_length L _ _ _ _ _ hacc (by simp) h1
  have h3 : lasts.length = L.length := mapOpt_length hlasts
  omega

/-- **C10.**  For every family of strands in which no two distinct strands coincide
at any interpolated crossing parameter of any consecutive pair of merged slices,
every entry of the generator sequence built by `braid_from_piecewise` is a nonzero
signed generator index of absolute value between `1` and `d - 1`, where `d` is the
number of strands — hence the final conversion of the sequence into an element of
the braid group on `d` strands is well defined. -/
theorem braidFromPiecewise_word_wellformed (L : List Strand) (w : List ℤ)
    (hw : braidFromPiecewise L = some w)
    (hco : ∀ tp, totalpointsOf L = some tp → ∀ i l1 l2,
      sliceOf tp i = some l1 → sliceOf tp (i + 1) = some l2 →
      ∀ k j, k < j → j < (l1.zip l2).length →
        pLt (sortedSnd l1 l2 j) (sortedSnd l1 l2 k) →
        pointAt l1 l2 k (crossParam l1 l2 k j) ≠
          pointAt l1 l2 j (crossParam l1 l2 k j)) :
    ∀ g ∈ w, 1 ≤ g.natAbs ∧ g.natAbs ≤ L.length - 1 := by
  intro g hg
  rw [braidFromPiecewise] at hw
  simp only [Option.bind_eq_bind, bind, Option.bind_eq_some] at hw
  obtain ⟨tp, htp, hw⟩ := hw
  obtain ⟨words, hwords, hw⟩ := hw
  simp only [Option.pure_def, Option.some.injEq] at hw
  rw [← hw] at hg
  obtain ⟨word, hword, hgw⟩ := List.mem_flatten.mp hg
  obtain ⟨i, _, hbody⟩ := mapOpt_mem hwords word hword
  simp only [Option.bind_eq_bind, bind, Option.bind_eq_some] at hbody
  obtain ⟨l1, hl1, hbody⟩ := hbody
  obtain ⟨l2, hl2, hbody⟩ := hbody
  simp only [Option.pure_def, Option.some.injEq] at hbody
  rw [← hbody] at hgw
  have hlen : (l1.zip l2).length = L.length := by
    have e1 : l1.length = tp.length := mapOpt_length hl1
    have e2 : l2.length = tp.length := mapOpt_length hl2
    have e3 := totalpointsOf_length htp
    rw [List.length_zip]
    omega
  have := slicePairWord_entries l1 l2 (hco tp htp i l1 l2 hl1 hl2) g hgw
  omega

/-- Witness data for C10: two strands crossing transversally with distinct
imaginary parts. -/
theorem braidFromPiecewise_word_wellformed_witness :
    1 ≤ (1 : ℤ).natAbs ∧ (1 : ℤ).natAbs ≤
      ([[((0 : ℚ), ((0 : ℚ), (0 : ℚ))), (1, (1, 0))],
        [(0, ((1 : ℚ), (1 : ℚ))), (1, (0, 1))]] : List Strand).length - 1 := by
  have hmap : ([[((0 : ℚ), ((0 : ℚ), (0 : ℚ))), (1, (1, 0))],
      [(0, ((1 : ℚ), (1 : ℚ))), (1, (0, 1))]] : List Strand) =
      ([(((0 : ℚ), (0 : ℚ)), ((1 : ℚ), (0 : ℚ))), (((1 : ℚ), (1 : ℚ)), ((0 : ℚ), (1 : ℚ)))].map
        fun ab => [((0 : ℚ), ab.1), ((1 : ℚ), ab.2)]) := rfl
  have hcr : slicePairCrossings [((0 : ℚ), (0 : ℚ)), (1, 1)] [(1, 0), (0, 1)] =
      [(1/2, 0, 1, 1)] := by
    norm_num [slicePairCrossings, sortedSnd, sortedFst, sortedPair, crossParam, crossSign,
      qcmp, List.insertionSort, List.orderedInsert, mLe, pLt, pLe, List.range_succ,
      List.filterMap_cons, List.getD]
  have hword : slicePairWord [((0 : ℚ), (0 : ℚ)), (1, 1)] [(1, 0), (0, 1)] = [1] := by
    simp only [slicePairWord, hcr]
    norm_num [resolveAll, resolveGroup, rekey, rekeyK, transp, List.insertionSort,
      List.orderedInsert, lex4, List.filter]
  have hw : braidFromPiecewise [[((0 : ℚ), ((0 : ℚ), (0 : ℚ))), (1, (1, 0))],
      [(0, ((1 : ℚ), (1 : ℚ))), (1, (0, 1))]] = some [1] := by
    rw [hmap, braidFromPiecewise_boundary _ (by simp)]
    simp only [List.map_cons, List.map_nil]
    rw [hword]
  refine braidFromPiecewise_word_wellformed _ [1] hw ?_ 1 (by simp)
  intro tp htp i l1 l2 hl1 hl2 k j hkj hj hflip
  have htp2 : tp = [[((0 : ℚ), (0 : ℚ)), (1, 0)], [(1, 1), (0, 1)]] := by
    rw [hmap, totalpointsOf_boundary _ (by simp)] at htp
    simp only [List.map_cons, List.map_nil, Option.some.injEq] at htp
    exact htp.symm
  subst htp2
  rcases Nat.lt_or_ge i 1 with hi | hi
  · interval_cases i
    have hl1e : l1 = [((0 : ℚ), (0 : ℚ)), (1, 1)] := by
      revert hl1
      norm_num [sliceOf, mapOpt]
      intro h
      exact h.symm
    have hl2e : l2 = [((1 : ℚ), (0 : ℚ)), (0, 1)] := by
      revert hl2
      norm_num [sliceOf, mapOpt]
      intro h
      exact h.symm
    subst hl1e
    subst hl2e
    simp only [List.length_zip, List.length_cons, List.length_nil] at hj
    have hk0 : k = 0 := by omega
    have hj1 : j = 1 := by omega
    subst hk0
    subst hj1
    norm_num [pointAt, sortedSnd, sortedFst, sortedPair, crossParam, List.insertionSort,
      List.orderedInsert, mLe, pLt, pLe, List.getD, Prod.ext_iff]
  · exfalso
    have h2 : ([((1 : ℚ), (0 : ℚ))] : List Point)[i]? = none :=
      List.getElem?_eq_none (by simpa using hi)
    have h3 : sliceOf [[((0 : ℚ), (0 : ℚ)), (1, 0)], [(1, 1), (0, 1)]] (i + 1) = none := by
      simp [sliceOf, mapOpt, h2]
    rw [h3] at hl2
    exact absurd hl2 (by simp)

/-! ## `followstrand` (ZVK.py lines 199-269)

The continuation kernel (`contpath` at precision 53, `contpath_mp` at higher
precisions, lines 263-266) is the external numeric collaborator; only its observable
outcome matters: for fixed `f, x0, x1, y0a` it either succeeds with a list of
samples `(t, y_real, y_imag)` or raises (for any reason).  It is therefore embedded
as a function of the working precision alone. -/

/-- The outcome of the continuation kernel at each working precision. -/
abbrev Kernel : Type := ℕ → Except String (List (ℚ × ℚ × ℚ))

/-- Lines 262-269: call the kernel; on any exception whatsoever (bare `except:`)
return the result of redoing the whole continuation at twice the precision.  The
source recursion has no bound; `fuel` exists only to make the embedding total, and
running out of fuel (`none`) models non-termination, never a raised error.  A raised
error would be `some (.error e)`, which `followstrand` never produces. -/
def followstrand (k : Kernel) : ℕ → ℕ → Option (Except String (List (ℚ × ℚ × ℚ)))
  | 0, _ => none
  | fuel + 1, prec =>
    match k prec with
    | .ok points => some (.ok points)
    | .error _ => followstrand k fuel (2 * prec)

/-! ## `segments` (ZVK.py lines 150-197)

`scipy.spatial.Voronoi` is the external computational-geometry collaborator; the
embedding consumes its output: an array of finite Voronoi vertices and the list
`ridge_vertices`, where index `-1` denotes the point at infinity (scipy's marker for
an unbounded ridge).  The diagram is a parameter `V` of the embedding. -/

/-- The part of scipy's Voronoi output that `segments` reads. -/
structure VoronoiData where
  vertices : List Point
  ridges : List (List ℤ)

/-- Lines 187-188: `added_points = 3*abs(discpoints).max() + 1.0`.  numpy's `abs` is
entrywise on the N x 2 array of real and imaginary parts and `max()` ranges over all
entries, so this is three times the largest absolute coordinate, plus one — NOT three
times the largest modulus.  `none` models numpy raising `ValueError` on the empty
array (zero-size reduction). -/
def addedPoints (points : List Point) : Option ℚ :=
  (points.flatMap fun p => [|p.1|, |p.2|]).max?.map fun m => 3 * m + 1

/-- Line 189: the configuration handed to `Voronoi`: the input points followed by the
four auxiliary points `(M, 0), (-M, 0), (0, M), (0, -M)`. -/
def configurationOf (points : List Point) (m : ℚ) : List Point :=
  points ++ [(m, 0), (-m, 0), (0, m), (0, -m)]

/-- Lines 192-196, the body of the for-loop over `V.ridge_vertices`: ridges
containing `-1` (unbounded) are skipped; for the others the two vertex indices are
looked up (an out-of-range lookup would be a Python `IndexError`, hence `none`;
scipy emits `-1` or valid indices). -/
def ridgeStep (vd : VoronoiData) (res : List (Point × Point)) (rv : List ℤ) :
    Option (List (Point × Point)) :=
  if (-1 : ℤ) ∈ rv then pure res
  else do
    let a ← rv.get? 0
    let b ← rv.get? 1
    let p1 ← vd.vertices.get? a.toNat
    let p2 ← vd.vertices.get? b.toNat
    pure (res ++ [(p1, p2)])

/-- Lines 186-197: `segments`. -/
def segments (V : List Point → VoronoiData) (points : List Point) :
    Option (List (Point × Point)) := do
  let m ← addedPoints points
  let vd := V (configurationOf points m)
  vd.ridges.foldlM (ridgeStep vd) ([] : List (Point × Point))

/-- Following the spec's words: the bounded edges determined by the listed ridges of
a Voronoi diagram: the ridges not touching the point at infinity, as pairs of
endpoint vertices (a malformed ridge contributes nothing; the comparison theorem
assumes a well-formed diagram, as scipy guarantees). -/
def boundedEdgesList (vd : VoronoiData) (rs : List (List ℤ)) : List (Point × Point) :=
  (rs.filter fun rv => ¬ (-1 : ℤ) ∈ rv).filterMap fun rv => do
    let a ← rv.get? 0
    let b ← rv.get? 1
    let p1 ← vd.vertices.get? a.toNat
    let p2 ← vd.vertices.get? b.toNat
    pure (p1, p2)

/-- The bounded edges of a Voronoi diagram. -/
def boundedEdges (vd : VoronoiData) : List (Point × Point) :=
  boundedEdgesList vd vd.ridges

/-- A Voronoi diagram is well formed when every bounded ridge consists of (at least)
two valid vertex indices — true of scipy's output. -/
def VoronoiWF (vd : VoronoiData) : Prop :=
  ∀ rv ∈ vd.ridges, (-1 : ℤ) ∉ rv →
    2 ≤ rv.length ∧ ∀ a ∈ rv.take 2, a.toNat < vd.vertices.length

instance (vd : VoronoiData) : Decidable (VoronoiWF vd) := by
  unfold VoronoiWF; infer_instance

/-- The maximum absolute coordinate (real or imaginary part) of a point set. -/
def maxAbsCoord (points : List Point) : ℚ :=
  ((points.flatMap fun p => [|p.1|, |p.2|]).max?).getD 0

/-- The padded configuration of the amended claim: the branch points followed by the
four auxiliary points `(M, 0), (-M, 0), (0, M), (0, -M)` with
`M = 3 * maxAbsCoord + 1`. -/
def paddedConfiguration (points : List Point) : List Point :=
  configurationOf points (3 * maxAbsCoord points + 1)

/-! ## `fundamental_group` (ZVK.py lines 333-426): presentation assembly

The claims about this function concern the assembly stage (lines 403-426).  Its
inputs here are the y-degree `d` of the processed (square-free, coordinate-shifted)
polynomial, the path-network segments, and the braid computed for each segment
(`braid_in_segment` results, paired with their segments as the parallel map returns
them).  The free-group/braid collaborator is abstracted as the Artin action
`act b k` = Tietze word of `Faux([k + 1]) * b.inverse()` (line 417). -/

/-- A finitely presented group as Sage builds it: `FreeGroup(n) / rels` has exactly
the `n` generators of the free group, plus the relator Tietze words. -/
structure Presentation where
  ngens : ℕ
  rels : List (List ℤ)

/-- `list(set(flatten(segs)))` (line 403): the distinct endpoints of the segments.
Python's set iteration order is unspecified; `dedup` realises one such order.  Only
membership and count matter below. -/
def verticesOf (segs : List (Point × Point)) : List Point :=
  (segs.flatMap fun s => [s.1, s.2]).dedup

/-- The external free-group collaborator: `act b k` is the Tietze word of the Artin
action of the inverse of the braid word `b` on the `(k+1)`-st free generator. -/
abbrev ArtinAction : Type := List ℤ → ℕ → List ℤ

/-- Lines 403-426: assemble the presentation.  For each segment `(v_i, v_j)` with
braid `b` and each sheet `k < d`, the relator is `w1 / w2` where `w1` re-indexes the
word `Faux([k+1]) * b.inverse()` by `a -> sign(a)*d*i + a` and `w2 = F([d*j + k+1])`;
with `projective=True` one extra relator `x_0 x_1 ... x_{d-1}` is prepended.  The
result `F/rels` keeps all `d * len(vertices)` generators. -/
def fundamentalGroupPresentation (d : ℕ) (segs : List (Point × Point))
    (braids : List (List ℤ)) (act : ArtinAction) (projective : Bool) : Presentation :=
  let vertices := verticesOf segs
  let rels0 : List (List ℤ) :=
    if projective then [(List.range d).map fun i => ((i : ℤ) + 1)] else []
  let rels := rels0 ++ (segs.zip braids).flatMap fun sb =>
    let i := vertices.indexOf sb.1.1
    let j := vertices.indexOf sb.1.2
    (List.range d).map fun k =>
      let el1 := act sb.2 k
      let w1 := el1.map fun (a : ℤ) => a.sign * ((d * i : ℕ) : ℤ) + a
      w1 ++ [-((d * j + (k + 1) : ℕ) : ℤ)]
  ⟨d * vertices.length, rels⟩

/-! ## `braid_in_segment` (ZVK.py lines 271-331)

The exact roots `y0s` (fiber at `x0`) and `y1s` (fiber at `x1`) come from the
external root-isolation collaborator, and the tracked strands (`complexstrands`,
line 305) from `followstrand`; all three are parameters.  Sage's `norm()` of a
complex number is the square of its modulus, and `sorted` on the distance pairs
compares lexicographically (ties between equidistant roots broken by the `QQbar`
comparison, embedded as the lexicographic point order). -/

/-- Python exceptions of `braid_in_segment`. -/
inductive SegError
  /-- `raise ValueError("different roots are too close")` (lines 314 and 327). -/
  | rootsTooClose
  /-- any other Python exception (`IndexError`, `min([])`, zero division, ...). -/
  | pythonError
deriving DecidableEq, Repr

/-- Coerce the `Option` of an embedded fallible computation into `Except`. -/
def ofOpt : Option α → Except SegError α := fun o => o.elim (.error .pythonError) .ok

/-- Lexicographic order on the pairs `(distance, root)` used by `sorted` on line 312. -/
def dLe (a b : ℚ × Point) : Prop := a.1 < b.1 ∨ (a.1 = b.1 ∧ pLe a.2 b.2)

instance : DecidableRel dLe := fun a b => by unfold dLe; infer_instance

theorem dLe_total (a b : ℚ × Point) : dLe a b ∨ dLe b a := by
  rcases lt_trichotomy a.1 b.1 with h | h | h
  · exact Or.inl (Or.inl h)
  · rcases pLe_total a.2 b.2 with h2 | h2
    · exact Or.inl (Or.inr ⟨h, h2⟩)
    · exact Or.inr (Or.inr ⟨h.symm, h2⟩)
  · exact Or.inr (Or.inl h)

theorem dLe_trans {a b c : ℚ × Point} (h1 : dLe a b) (h2 : dLe b c) : dLe a c := by
  rcases h1 with h1 | ⟨h1a, h1b⟩ <;> rcases h2 with h2 | ⟨h2a, h2b⟩
  · exact Or.inl (lt_trans h1 h2)
  · exact Or.inl (h2a ▸ h1)
  · exact Or.inl (h1a ▸ h2)
  · exact Or.inr ⟨h1a.trans h2a, pLe_trans h1b h2b⟩

instance : IsTotal (ℚ × Point) dLe := ⟨dLe_total⟩

instance : IsTrans (ℚ × Point) dLe := ⟨fun _ _ _ => dLe_trans⟩

/-- Lines 311-312 (and 324-325): the nearest exact root of an approximate endpoint:
first entry of the sorted distance list.  `none` when there are no roots (Python
`IndexError` on `sorted(distances)[0]`). -/
def nearestRoot (yap : Point) (ys : List Point) : Option Point :=
  (List.insertionSort dLe (ys.map fun y =>
    ((yap.1 - y.1) ^ 2 + (yap.2 - y.2) ^ 2, y))).head?.map (·.2)

/-- Lines 309-316 (and 322-329): match each approximate endpoint, in order, to its
nearest exact root, raising when a root is claimed twice. -/
def matchRoots (aps : List Point) (ys : List Point) (used : List Point) :
    Except SegError (List Point) :=
  match aps with
  | [] => .ok []
  | yap :: rest =>
    match nearestRoot yap ys with
    | none => .error .pythonError
    | some y0 =>
      if y0 ∈ used then .error .rootsTooClose
      else (matchRoots rest ys (used ++ [y0])).map fun l => y0 :: l

theorem matchRoots_cons_some {ys used : List Point} {yap : Point} {rest : List Point}
    {y0 : Point} (h : nearestRoot yap ys = some y0) :
    matchRoots (yap :: rest) ys used =
      if y0 ∈ used then .error .rootsTooClose
      else (matchRoots rest ys (used ++ [y0])).map fun l => y0 :: l := by
  rw [matchRoots, h]

theorem matchRoots_cons_none {ys used : List Point} {yap : Point} {rest : List Point}
    (h : nearestRoot yap ys = none) :
    matchRoots (yap :: rest) ys used = .error .pythonError := by
  rw [matchRoots, h]

/-- Lines 296-331: `braid_in_segment` (with the collaborator outputs as inputs): the
central braid from the tracked strands, then the boundary-correction braids at `x0`
and at `x1`, composed as `initialbraid * centralbraid * finallbraid` (concatenation
of the Tietze words). -/
def braidInSegment (y0s y1s : List Point) (strands : List Strand) :
    Except SegError (List ℤ) := do
  let central ← ofOpt (braidFromPiecewise strands)
  let y0aps ← ofOpt (mapOpt (fun c => (c.get? 0).map (·.2)) strands)
  let m0 ← matchRoots y0aps y0s []
  let initialstrands := (m0.zip y0aps).map fun p => [((0 : ℚ), p.1), ((1 : ℚ), p.2)]
  let initialbraid ← ofOpt (braidFromPiecewise initialstrands)
  let y1aps ← ofOpt (mapOpt (fun c => c.getLast?.map (·.2)) strands)
  let m1 ← matchRoots y1aps y1s []
  let finalstrands := (m1.zip y1aps).map fun p => [((0 : ℚ), p.2), ((1 : ℚ), p.1)]
  let finallbraid ← ofOpt (braidFromPiecewise finalstrands)
  pure (initialbraid ++ central ++ finallbraid)

/-! ## Claim C4: precision-doubling retry in `followstrand` -/

theorem followstrand_step (k : Kernel) (prec f : ℕ) (e : String)
    (h : k prec = .error e) :
    followstrand k (f + 1) prec = followstrand k f (2 * prec) := by
  simp [followstrand, h]

theorem followstrand_iter (k : Kernel) :
    ∀ n prec fuel, n ≤ fuel → (∀ i, i < n → ∃ e, k (2 ^ i * prec) = .error e) →
      followstrand k fuel prec = followstrand k (fuel - n) (2 ^ n * prec) := by
  intro n
  induction n with
  | zero => intro prec fuel _ _; simp
  | succ m ih =>
    intro prec fuel hle hfail
    obtain ⟨f, rfl⟩ : ∃ f, fuel = f + 1 := ⟨fuel - 1, by omega⟩
    obtain ⟨e, he⟩ := hfail 0 (Nat.succ_pos m)
    rw [pow_zero, one_mul] at he
    rw [followstrand_step k _ f e he]
    have h2 := ih (2 * prec) f (by omega) (fun i hi => by
      rw [show 2 ^ i * (2 * prec) = 2 ^ (i + 1) * prec by ring]
      exact hfail (i + 1) (by omega))
    rw [h2]
    congr 1
    · omega
    · ring

theorem followstrand_no_error (k : Kernel) :
    ∀ fuel prec e, followstrand k fuel prec ≠ some (.error e) := by
  intro fuel
  induction fuel with
  | zero => intro prec e; simp [followstrand]
  | succ f ih =>
    intro prec e
    unfold followstrand
    cases h : k prec with
    | ok points => simp
    | error e2 => simpa using ih (2 * prec) e

/-- **C4.**  Whenever the continuation kernel invoked inside `followstrand` fails —
for any reason, since the bare `except:` catches everything — `followstrand` redoes
the whole continuation from scratch with the working precision doubled; the retry is
unbounded (after any number `n` of consecutive failures the computation continues at
precision `2^n * prec`, for every `n`), and consequently a kernel failure is never
surfaced to `followstrand`'s caller: no run of `followstrand` returns an error. -/
theorem followstrand_retries_doubling_never_surfaces (k : Kernel) (prec fuel : ℕ) :
    (∀ e f, k prec = .error e →
      followstrand k (f + 1) prec = followstrand k f (2 * prec)) ∧
    (∀ n, n ≤ fuel → (∀ i, i < n → ∃ e, k (2 ^ i * prec) = .error e) →
      followstrand k fuel prec = followstrand k (fuel - n) (2 ^ n * prec)) ∧
    (∀ e, followstrand k fuel prec ≠ some (.error e)) :=
  ⟨fun e f h => followstrand_step k prec f e h,
   fun n hn hf => followstrand_iter k n prec fuel hn hf,
   fun e => followstrand_no_error k fuel prec e⟩

/-- A concrete kernel for the witness: fails below precision 212, succeeds there. -/
def sampleKernel : Kernel := fun prec =>
  if prec < 212 then .error "certification failed" else .ok [(0, 0, 0)]

theorem followstrand_retries_witness :
    followstrand sampleKernel 3 53 = followstrand sampleKernel 1 (2 ^ 2 * 53) ∧
    ∀ e, followstrand sampleKernel 3 53 ≠ some (.error e) := by
  have h := followstrand_retries_doubling_never_surfaces sampleKernel 53 3
  refine ⟨h.2.1 2 (by norm_num) ?_, h.2.2⟩
  intro i hi
  interval_cases i
  · exact ⟨"certification failed", rfl⟩
  · exact ⟨"certification failed", rfl⟩

/-! ## Claim C9: `segments` on zero branch points -/

/-- **C9** (the code at the failing input): with zero branch points, `segments`
fails before ever reaching the Voronoi computation — `abs(discpoints).max()` is a
zero-size numpy reduction and raises `ValueError` — so no network at all is
returned (for every Voronoi oracle), where the spec requires a trivial network. -/
theorem segments_empty_input_fails (V : List Point → VoronoiData) :
    segments V [] = none := rfl

/-! ## Claim C6: the Voronoi padding of `segments` -/

/-- **C6** (counterexample).  For the single branch point `3 + 4i`, of modulus `5`,
the code's offset is `added_points = 3 * max(|3|, |4|) + 1 = 13`, so the four
auxiliary points of the configuration lie at distance `13` from the origin, and
`13 > 3 * 5` is FALSE: the auxiliary points are NOT at distance greater than three
times the maximum branch-point modulus (the code uses the largest absolute
coordinate, not the modulus). -/
theorem segments_padding_cex :
    addedPoints [((3 : ℚ), 4)] = some 13 ∧
    configurationOf [((3 : ℚ), 4)] 13 =
      [(3, 4), (13, 0), (-13, 0), (0, 13), (0, -13)] ∧
    ¬ ((13 : ℚ) ^ 2 > 9 * (3 ^ 2 + 4 ^ 2)) := by
  refine ⟨by norm_num [addedPoints, List.max?], rfl, by norm_num⟩

theorem addedPoints_of_ne_nil {points : List Point} (h : points ≠ []) :
    addedPoints points = some (3 * maxAbsCoord points + 1) := by
  have hne : (points.flatMap fun p => [|p.1|, |p.2|]) ≠ [] := by
    cases points with
    | nil => exact absurd rfl h
    | cons p t => simp [List.flatMap]
  cases hm : (points.flatMap fun p => [|p.1|, |p.2|]).max? with
  | none => exact absurd (List.max?_eq_none_iff.mp hm) hne
  | some m => simp [addedPoints, maxAbsCoord, hm]

theorem ridges_foldlM_eq_boundedEdges (vd : VoronoiData) :
    ∀ (rs : List (List ℤ)) (acc : List (Point × Point)),
      (∀ rv ∈ rs, (-1 : ℤ) ∉ rv →
        2 ≤ rv.length ∧ ∀ a ∈ rv.take 2, a.toNat < vd.vertices.length) →
      rs.foldlM (ridgeStep vd) acc = some (acc ++ boundedEdgesList vd rs) := by
  intro rs
  induction rs with
  | nil => intro acc _; simp [boundedEdgesList]
  | cons rv rest ih =>
    intro acc hwf
    by_cases hinf : (-1 : ℤ) ∈ rv
    · have hstep : ridgeStep vd acc rv = some acc := by simp [ridgeStep, hinf]
      rw [List.foldlM_cons, hstep]
      show rest.foldlM (ridgeStep vd) acc = _
      rw [ih acc (fun r hr => hwf r (List.mem_cons_of_mem rv hr))]
      simp [boundedEdgesList, hinf]
    · obtain ⟨hlen, hidx⟩ := hwf rv (List.mem_cons_self rv rest) hinf
      obtain ⟨a, b, t, rfl⟩ : ∃ a b t, rv = a :: b :: t := by
        match rv, hlen with
        | a :: b :: t, _ => exact ⟨a, b, t, rfl⟩
      have ha : a.toNat < vd.vertices.length := hidx a (by simp)
      have hb : b.toNat < vd.vertices.length := hidx b (by simp)
      have hstep : ridgeStep vd acc (a :: b :: t) =
          some (acc ++ [(vd.vertices.get ⟨a.toNat, ha⟩, vd.vertices.get ⟨b.toNat, hb⟩)]) := by
        simp [ridgeStep, hinf, List.getElem?_eq_getElem ha, List.getElem?_eq_getElem hb,
          List.get_eq_getElem]
      rw [List.foldlM_cons, hstep]
      show rest.foldlM (ridgeStep vd) _ = _
      rw [ih _ (fun r hr => hwf r (List.mem_cons_of_mem _ hr))]
      simp [boundedEdgesList, hinf, List.getElem?_eq_getElem ha, List.getElem?_eq_getElem hb,
        List.get_eq_getElem]

/-- **C6** (amended).  For every nonempty finite set of branch points and every
well-formed Voronoi collaborator, `segments` returns exactly the bounded edges —
every ridge touching the point at infinity is discarded — of the Voronoi diagram of
the configuration obtained by padding the branch points with four auxiliary points
at coordinate offset `M = 3 * (maximum absolute coordinate of the branch points) + 1`
(which need NOT exceed three times the maximum branch-point modulus, see
`segments_padding_cex`). -/
theorem segments_eq_boundedEdges (V : List Point → VoronoiData) (points : List Point)
    (hne : points ≠ []) (hwf : VoronoiWF (V (paddedConfiguration points))) :
    segments V points = some (boundedEdges (V (paddedConfiguration points))) := by
  have hm := addedPoints_of_ne_nil hne
  have : configurationOf points (3 * maxAbsCoord points + 1) = paddedConfiguration points := rfl
  simp only [segments, hm, Option.bind_eq_bind, Option.some_bind, this]
  exact ridges_foldlM_eq_boundedEdges _ _ [] hwf

/-- A concrete Voronoi oracle for the witness: two finite vertices, one unbounded
ridge (discarded) and one bounded ridge. -/
def sampleVoronoi : List Point → VoronoiData := fun _ =>
  ⟨[(0, 0), (1, 1)], [[-1, 0], [0, 1]]⟩

theorem segments_eq_boundedEdges_witness :
    segments sampleVoronoi [((3 : ℚ), 4)] = some [((0, 0), (1, 1))] :=
  segments_eq_boundedEdges sampleVoronoi [((3 : ℚ), 4)] (by simp) (by decide)

/-! ## Claim C5: generator count of the unsimplified presentation -/

/-- **C5.**  For every assembly input — y-degree `d` of the square-free,
coordinate-shifted polynomial, path-network segments, per-segment braids, Artin
collaborator and projective flag — the presentation returned unsimplified has
exactly `d * n` generators, where `n` is the number of distinct vertices
(segment endpoints) of the path network. -/
theorem fundamentalGroup_ngens (d : ℕ) (segs : List (Point × Point))
    (braids : List (List ℤ)) (act : ArtinAction) (projective : Bool) :
    (fundamentalGroupPresentation d segs braids act projective).ngens =
      d * (segs.flatMap fun s => [s.1, s.2]).toFinset.card := by
  simp [fundamentalGroupPresentation, verticesOf, List.card_toFinset]

/-! ## Claim C3: the "roots too close" error of `braid_in_segment` -/

theorem nearestRoot_isSome (yap : Point) {ys : List Point} (h : ys ≠ []) :
    ∃ y, nearestRoot yap ys = some y := by
  unfold nearestRoot
  cases hs : List.insertionSort dLe (ys.map fun y =>
      ((yap.1 - y.1) ^ 2 + (yap.2 - y.2) ^ 2, y)) with
  | nil =>
    have hlen := (List.perm_insertionSort dLe (ys.map fun y =>
      ((yap.1 - y.1) ^ 2 + (yap.2 - y.2) ^ 2, y))).length_eq
    rw [hs] at hlen
    simp only [List.length_nil, List.length_map] at hlen
    exact absurd (List.length_eq_zero.mp hlen.symm) h
  | cons a t => exact ⟨a.2, rfl⟩

theorem matchRoots_length {ys : List Point} :
    ∀ {aps used l}, matchRoots aps ys used = .ok l → l.length = aps.length := by
  intro aps
  induction aps with
  | nil => intro used l h; simp [matchRoots] at h; simp [← h]
  | cons yap rest ih =>
    intro used l h
    cases hn : nearestRoot yap ys with
    | none => rw [matchRoots_cons_none hn] at h; exact absurd h (by simp)
    | some y0 =>
      rw [matchRoots_cons_some hn] at h
      by_cases hm : y0 ∈ used
      · rw [if_pos hm] at h; exact absurd h (by simp)
      · rw [if_neg hm] at h
        cases hrec : matchRoots rest ys (used ++ [y0]) with
        | error e => rw [hrec] at h; exact absurd h (by simp [Except.map])
        | ok l2 =>
          rw [hrec] at h
          simp only [Except.map, Except.ok.injEq] at h
          simp [← h, ih hrec]

theorem matchRoots_ok_or_close {ys : List Point} (hys : ys ≠ []) :
    ∀ aps used, (∃ l, matchRoots aps ys used = .ok l) ∨
      matchRoots aps ys used = .error .rootsTooClose := by
  intro aps
  induction aps with
  | nil => intro used; exact Or.inl ⟨[], rfl⟩
  | cons yap rest ih =>
    intro used
    obtain ⟨y0, hy0⟩ := nearestRoot_isSome yap hys
    rw [matchRoots_cons_some hy0]
    by_cases hm : y0 ∈ used
    · rw [if_pos hm]; exact Or.inr rfl
    · rw [if_neg hm]
      rcases ih (used ++ [y0]) with ⟨l, hl⟩ | hl
      · exact Or.inl ⟨y0 :: l, by rw [hl]; rfl⟩
      · exact Or.inr (by rw [hl]; rfl)

/-- Two distinct strand endpoints claim the same nearest exact root. -/
def sharedNearest (aps ys : List Point) : Prop :=
  ∃ p q, p < q ∧ q < aps.length ∧
    nearestRoot (aps.getD p (0, 0)) ys = nearestRoot (aps.getD q (0, 0)) ys

theorem matchRoots_close_iff {ys : List Point} (hys : ys ≠ []) :
    ∀ aps used, matchRoots aps ys used = .error .rootsTooClose ↔
      ∃ q, q < aps.length ∧ ∃ y, nearestRoot (aps.getD q (0, 0)) ys = some y ∧
        (y ∈ used ∨ ∃ p, p < q ∧ nearestRoot (aps.getD p (0, 0)) ys = some y) := by
  intro aps
  induction aps with
  | nil => intro used; simp [matchRoots]
  | cons yap rest ih =>
    intro used
    obtain ⟨y0, hy0⟩ := nearestRoot_isSome yap hys
    rw [matchRoots_cons_some hy0]
    by_cases hm : y0 ∈ used
    · rw [if_pos hm]
      simp only [true_iff]
      exact ⟨0, by simp, y0, by simpa using hy0, Or.inl hm⟩
    · rw [if_neg hm]
      have hmap : ((matchRoots rest ys (used ++ [y0])).map fun l => y0 :: l) =
            .error .rootsTooClose ↔
          matchRoots rest ys (used ++ [y0]) = .error .rootsTooClose := by
        cases matchRoots rest ys (used ++ [y0]) <;> simp [Except.map]
      rw [hmap, ih (used ++ [y0])]
      constructor
      · rintro ⟨q, hq, y, hny, hcase⟩
        refine ⟨q + 1, by simpa using hq, y, by simpa using hny, ?_⟩
        rcases hcase with hy | ⟨p, hp, hnp⟩
        · rcases List.mem_append.mp hy with hy | hy
          · exact Or.inl hy
          · refine Or.inr ⟨0, by omega, ?_⟩
            simp only [List.getD_cons_zero, hy0]
            simpa using (List.mem_singleton.mp hy) ▸ rfl
        · exact Or.inr ⟨p + 1, by omega, by simpa using hnp⟩
      · rintro ⟨q, hq, y, hny, hcase⟩
        cases q with
        | zero =>
          simp only [List.getD_cons_zero, hy0, Option.some.injEq] at hny
          rcases hcase with hy | ⟨p, hp, _⟩
          · exact absurd (hny ▸ hy) hm
          · omega
        | succ q2 =>
          refine ⟨q2, by simpa using hq, y, by simpa using hny, ?_⟩
          rcases hcase with hy | ⟨p, hp, hnp⟩
          · exact Or.inl (List.mem_append.mpr (Or.inl hy))
          · cases p with
            | zero =>
              simp only [List.getD_cons_zero, hy0, Option.some.injEq] at hnp
              exact Or.inl (List.mem_append.mpr (Or.inr (by simp [hnp])))
            | succ p2 => exact Or.inr ⟨p2, by omega, by simpa using hnp⟩

theorem matchRoots_close_iff_shared {ys : List Point} (hys : ys ≠ []) (aps : List Point) :
    matchRoots aps ys [] = .error .rootsTooClose ↔ sharedNearest aps ys := by
  rw [matchRoots_close_iff hys aps []]
  constructor
  · rintro ⟨q, hq, y, hny, hcase⟩
    rcases hcase with hy | ⟨p, hp, hnp⟩
    · simp at hy
    · exact ⟨p, q, hp, hq, by rw [hnp, hny]⟩
  · rintro ⟨p, q, hpq, hq, heq⟩
    obtain ⟨y, hny⟩ := nearestRoot_isSome (aps.getD q (0, 0)) hys
    exact ⟨q, hq, y, hny, Or.inr ⟨p, hpq, by rw [heq, hny]⟩⟩

theorem except_bind_ok {α β : Type} (x : α) (f : α → Except SegError β) :
    ((Except.ok x : Except SegError α) >>= f) = f x := rfl

theorem except_bind_error {α β : Type} (e : SegError) (f : α → Except SegError β) :
    ((Except.error e : Except SegError α) >>= f) = Except.error e := rfl

theorem zip_ne_nil {α β : Type} {l1 : List α} {l2 : List β}
    (h1 : l1 ≠ []) (h2 : l2 ≠ []) : l1.zip l2 ≠ [] := by
  cases l1 with
  | nil => exact absurd rfl h1
  | cons a t1 =>
    cases l2 with
    | nil => exact absurd rfl h2
    | cons b t2 => simp [List.zip]

/-- **C3.**  `braid_in_segment` raises the fatal `ValueError("different roots are too
close")` if and only if, at `x0` or at `x1`, two distinct strands' numeric endpoint
approximations have the same nearest exact root of the corresponding fiber; the error
is the outcome returned to the caller — there is no automatic retry (at higher
precision or otherwise) and no braid is returned for the segment.  Hypotheses: each
fiber has at least one exact root, and the strand data are well-formed enough for the
central braid computation and the endpoint extractions to succeed (otherwise the run
dies earlier with a different Python exception). -/
theorem braidInSegment_rootsTooClose_iff (y0s y1s : List Point) (strands : List Strand)
    (w : List ℤ) (y0aps y1aps : List Point)
    (hy0 : y0s ≠ []) (hy1 : y1s ≠ [])
    (hc : braidFromPiecewise strands = some w)
    (h0 : mapOpt (fun c => (c.get? 0).map (·.2)) strands = some y0aps)
    (h1 : mapOpt (fun c => c.getLast?.map (·.2)) strands = some y1aps) :
    (braidInSegment y0s y1s strands = .error .rootsTooClose) ↔
      (sharedNearest y0aps y0s ∨ sharedNearest y1aps y1s) := by
  have hne : strands ≠ [] := by
    intro h
    rw [h] at hc
    exact absurd hc (by rw [show braidFromPiecewise [] = none from rfl]; simp)
  have hlen0 : y0aps.length = strands.length := mapOpt_length h0
  have hlen1 : y1aps.length = strands.length := mapOpt_length h1
  have hne0 : y0aps ≠ [] := by
    intro h; rw [h] at hlen0
    exact hne (List.length_eq_zero.mp hlen0.symm)
  have hne1 : y1aps ≠ [] := by
    intro h; rw [h] at hlen1
    exact hne (List.length_eq_zero.mp hlen1.symm)
  rw [braidInSegment]
  simp only [hc, h0, h1, ofOpt, Option.elim, except_bind_ok]
  by_cases hA : sharedNearest y0aps y0s
  · have hm0 : matchRoots y0aps y0s [] = .error .rootsTooClose :=
      (matchRoots_close_iff_shared hy0 y0aps).mpr hA
    rw [hm0, except_bind_error]
    simp [hA]
  · have hm0 : ∃ m0, matchRoots y0aps y0s [] = .ok m0 := by
      rcases matchRoots_ok_or_close hy0 y0aps [] with h | h
      · exact h
      · exact absurd ((matchRoots_close_iff_shared hy0 y0aps).mp h) hA
    obtain ⟨m0, hm0⟩ := hm0
    have hm0ne : m0 ≠ [] := by
      intro h
      have := matchRoots_length hm0
      rw [h] at this
      exact hne0 (List.length_eq_zero.mp this.symm)
    rw [hm0, except_bind_ok]
    have hib := braidFromPiecewise_boundary (m0.zip y0aps) (zip_ne_nil hm0ne hne0)
    rw [hib]
    simp only [ofOpt, Option.elim, except_bind_ok]
    by_cases hB : sharedNearest y1aps y1s
    · have hm1 : matchRoots y1aps y1s [] = .error .rootsTooClose :=
        (matchRoots_close_iff_shared hy1 y1aps).mpr hB
      rw [hm1, except_bind_error]
      simp [hB]
    · have hm1 : ∃ m1, matchRoots y1aps y1s [] = .ok m1 := by
        rcases matchRoots_ok_or_close hy1 y1aps [] with h | h
        · exact h
        · exact absurd ((matchRoots_close_iff_shared hy1 y1aps).mp h) hB
      obtain ⟨m1, hm1⟩ := hm1
      have hm1ne : m1 ≠ [] := by
        intro h
        have := matchRoots_length hm1
        rw [h] at this
        exact hne1 (List.length_eq_zero.mp this.symm)
      rw [hm1, except_bind_ok]
      have hswap : ((m1.zip y1aps).map fun p => [((0 : ℚ), p.2), ((1 : ℚ), p.1)]) =
          ((m1.zip y1aps).map fun p => (p.2, p.1)).map
            fun ab => [((0 : ℚ), ab.1), ((1 : ℚ), ab.2)] := by
        simp [List.map_map]
      rw [hswap, braidFromPiecewise_boundary _ (by
        simp only [ne_eq, List.map_eq_nil_iff]
        exact zip_ne_nil hm1ne hne1)]
      simp [hA, hB]

set_option maxHeartbeats 1000000 in
/-- Concrete data for the witness: two constant strands starting at `0` and at `1`,
while the exact fiber roots are `0` and `10`, so both strands' nearest exact root
is `0`. -/
theorem braidInSegment_rootsTooClose_witness :
    braidInSegment [((0 : ℚ), (0 : ℚ)), (10, 0)] [((0 : ℚ), (0 : ℚ)), (10, 0)]
      [[(0, ((0 : ℚ), (0 : ℚ))), (1, (0, 0))], [(0, ((1 : ℚ), (0 : ℚ))), (1, (1, 0))]] =
      .error .rootsTooClose := by
  have hword : slicePairWord [((0 : ℚ), (0 : ℚ)), (1, 0)] [((0 : ℚ), (0 : ℚ)), (1, 0)] =
      [] := by
    norm_num [slicePairWord, slicePairCrossings, sortedSnd, sortedFst, sortedPair,
      List.insertionSort, List.orderedInsert, mLe, pLt, pLe, List.range_succ,
      List.filterMap_cons, List.getD]
  have hmap : [[((0 : ℚ), ((0 : ℚ), (0 : ℚ))), (1, (0, 0))],
        [(0, ((1 : ℚ), (0 : ℚ))), (1, (1, 0))]] =
      ([(((0 : ℚ), (0 : ℚ)), ((0 : ℚ), (0 : ℚ))), (((1 : ℚ), (0 : ℚ)), ((1 : ℚ), (0 : ℚ)))].map
        fun ab => [((0 : ℚ), ab.1), ((1 : ℚ), ab.2)]) := rfl
  have hc : braidFromPiecewise
      [[(0, ((0 : ℚ), (0 : ℚ))), (1, (0, 0))], [(0, ((1 : ℚ), (0 : ℚ))), (1, (1, 0))]] =
      some [] := by
    rw [hmap, braidFromPiecewise_boundary _ (by simp)]
    simp only [List.map_cons, List.map_nil]
    rw [hword]
  rw [braidInSegment_rootsTooClose_iff _ _ _ [] [(0, 0), (1, 0)] [(0, 0), (1, 0)]
    (by simp) (by simp) hc (by norm_num [mapOpt]) (by norm_num [mapOpt])]
  refine Or.inl ⟨0, 1, Nat.zero_lt_one, by norm_num, ?_⟩
  norm_num [nearestRoot, List.insertionSort, List.orderedInsert, dLe, pLe]

/-! ### The order in which crossings are resolved (claim C1)

The source sorts the crossing list (`cruces.sort()`, line 103; `crossesl.sort()`,
line 111) and repeatedly pops the head.  The claim describes the same computation
without sorting: process the crossings in increasing order of `t*` (always the
pending group of minimal `t*` next), and inside a group repeatedly select a pending
crossing of minimal key — the key being the strand-index difference
`P(j+1) - P(k+1)` computed with the accumulated permutation, with the tuple
components `k, j, s` as the deterministic tie-break — emit, transpose, and recompute
the keys of the remaining crossings.  The definitions below follow that wording
(selection by a linear scan, no sort) and are proved to agree with the source. -/

/-- The `lex4`-least element of `q :: qs`, found by a linear scan: the claim's
"still-pending crossing whose current strand-index distance is minimal". -/
def leastOf (q : KCross) (qs : List KCross) : KCross :=
  qs.foldl (fun m x => if lex4 m x then m else x) q

/-- Remove the first occurrence of `c`: the selected crossing leaves the pending
list. -/
def removeFirst (c : KCross) : List KCross → List KCross
  | [] => []
  | x :: xs => if x = c then xs else x :: removeFirst c xs

/-- The claim's reading of the inner while-loop (lines 110-115): select the pending
crossing of minimal current key, emit its signed generator, transpose the
accumulated permutation, recompute the keys of the remaining pending crossings. -/
def specResolveGroup (P : ℕ → ℕ) (pending : List KCross) : ℕ → List ℤ × (ℕ → ℕ)
  | 0 => ([], P)
  | fuel + 1 =>
    match pending with
    | [] => ([], P)
    | q :: qs =>
      let c := leastOf q qs
      let g : ℤ := c.2.2.2 * (min (P (c.2.1 + 1)) (P (c.2.2.1 + 1)) : ℕ)
      let P2 := transp (c.2.1 + 1) (c.2.2.1 + 1) P
      let res := specResolveGroup P2 ((removeFirst c (q :: qs)).map (rekeyK P2)) fuel
      (g :: res.1, res.2)

/-- The minimal interpolated crossing time among the pending crossings
`q :: qs`, found by a linear scan. -/
def minTime (q : Cross) (qs : List Cross) : ℚ :=
  (qs.map (·.1)).foldl min q.1

/-- The claim's reading of the outer while-loop (lines 105-115): the next group of
simultaneous crossings consists of the pending crossings of minimal `t*`; the
pending list is never sorted. -/
def specResolveAll (P : ℕ → ℕ) (cruces : List Cross) : ℕ → List ℤ
  | 0 => []
  | fuel + 1 =>
    match cruces with
    | [] => []
    | q :: qs =>
      let t0 := minTime q qs
      let grp := (q :: qs).filter fun c => c.1 = t0
      let res := specResolveGroup P (grp.map (rekey P)) grp.length
      res.1 ++ specResolveAll res.2 ((q :: qs).filter fun c => ¬ c.1 = t0) fuel

/-- `slicePairWord` with the resolution phase as the claim describes it. -/
def specSlicePairWord (l1 l2 : List Point) : List ℤ :=
  let cruces := slicePairCrossings l1 l2
  if 0 < cruces.length then specResolveAll (fun m => m) cruces cruces.length
  else []

/-- `braid_from_piecewise` with the resolution phase as the claim describes it. -/
def specBraidFromPiecewise (strands : List Strand) : Option (List ℤ) := do
  let tp ← totalpointsOf strands
  let n := (tp.headD []).length
  let words ← mapOpt (fun i => do
    let l1 ← sliceOf tp i
    let l2 ← sliceOf tp (i + 1)
    pure (specSlicePairWord l1 l2)) (List.range (n - 1))
  pure words.flatten

theorem lex4_refl {α β γ δ : Type} [LinearOrder α] [LinearOrder β] [LinearOrder γ]
    [LinearOrder δ] (x : α × β × γ × δ) : lex4 x x :=
  (lex4_total x x).elim id id

theorem lex4_fst_le {α β γ δ : Type} [LinearOrder α] [LinearOrder β] [LinearOrder γ]
    [LinearOrder δ] {x y : α × β × γ × δ} (h : lex4 x y) : x.1 ≤ y.1 := by
  rcases h with h | ⟨h, _⟩
  · exact le_of_lt h
  · exact le_of_eq h

theorem removeFirst_perm : ∀ {l : List KCross} {c : KCross}, c ∈ l →
    (c :: removeFirst c l).Perm l := by
  intro l
  induction l with
  | nil => intro c hc; simp at hc
  | cons x xs ih =>
    intro c hc
    rw [removeFirst]
    by_cases hx : x = c
    · rw [if_pos hx, hx]
    · rw [if_neg hx]
      have hcx : c ∈ xs := by
        rcases List.mem_cons.mp hc with rfl | h
        · exact absurd rfl hx
        · exact h
      exact (List.Perm.swap x c _).trans ((ih hcx).cons x)

theorem leastOf_mem : ∀ (qs : List KCross) (q : KCross), leastOf q qs ∈ q :: qs := by
  intro qs
  induction qs with
  | nil => intro q; simp [leastOf]
  | cons y l ih =>
    intro q
    rw [leastOf]
    simp only [List.foldl_cons]
    by_cases hqy : lex4 q y
    · rw [if_pos hqy]
      have h := ih q
      rw [leastOf] at h
      rcases List.mem_cons.mp h with h1 | h1 <;> simp [h1]
    · rw [if_neg hqy]
      have h := ih y
      rw [leastOf] at h
      rcases List.mem_cons.mp h with h1 | h1 <;> simp [h1]

theorem leastOf_le : ∀ (qs : List KCross) (q x : KCross), x ∈ q :: qs →
    lex4 (leastOf q qs) x := by
  intro qs
  induction qs with
  | nil =>
    intro q x hx
    rcases List.mem_cons.mp hx with rfl | h1
    · exact lex4_refl x
    · simp at h1
  | cons y l ih =>
    intro q x hx
    have hstep : lex4 (if lex4 q y then q else y) q ∧ lex4 (if lex4 q y then q else y) y := by
      by_cases h : lex4 q y
      · simp only [if_pos h]
        exact ⟨lex4_refl q, h⟩
      · simp only [if_neg h]
        exact ⟨(lex4_total q y).resolve_left h, lex4_refl y⟩
    have hres : lex4 (leastOf (if lex4 q y then q else y) l) (if lex4 q y then q else y) :=
      ih _ _ (List.mem_cons_self _ _)
    have heq : leastOf q (y :: l) = leastOf (if lex4 q y then q else y) l := by
      rw [leastOf, leastOf]; simp only [List.foldl_cons]
    rcases List.mem_cons.mp hx with rfl | h1
    · exact heq ▸ lex4_trans hres hstep.1
    · rcases List.mem_cons.mp h1 with rfl | h2
      · exact heq ▸ lex4_trans hres hstep.2
      · exact heq ▸ ih _ _ (List.mem_cons_of_mem _ h2)

theorem insertionSort_head_least {l rest : List KCross} {c : KCross}
    (h : List.insertionSort lex4 l = c :: rest) :
    c ∈ l ∧ (∀ x ∈ l, lex4 c x) ∧ l.Perm (c :: rest) := by
  have hperm : (c :: rest).Perm l := by
    have := List.perm_insertionSort lex4 l
    rwa [h] at this
  have hsorted : List.Sorted lex4 (c :: rest) := by
    have := List.sorted_insertionSort lex4 l
    rwa [h] at this
  refine ⟨hperm.subset (List.mem_cons_self c rest), ?_, hperm.symm⟩
  intro x hx
  rcases List.mem_cons.mp (hperm.symm.subset hx) with rfl | hx2
  · exact lex4_refl x
  · exact (List.sorted_cons.mp hsorted).1 x hx2

/-- The source's sort-and-pop inner loop equals the claim's scan-select-recompute
inner loop, on any two lists holding the same pending crossings. -/
theorem resolveGroup_eq_spec (fuel : ℕ) : ∀ (P : ℕ → ℕ) (p1 p2 : List KCross),
    p1.Perm p2 → resolveGroup P p1 fuel = specResolveGroup P p2 fuel := by
  induction fuel with
  | zero => intro P p1 p2 _; rfl
  | succ f ih =>
    intro P p1 p2 hperm
    cases p2 with
    | nil =>
      have hp1 : p1 = [] := hperm.eq_nil
      subst hp1
      rfl
    | cons q qs =>
      rw [resolveGroup, specResolveGroup]
      cases hs : List.insertionSort lex4 p1 with
      | nil =>
        have hp1 : p1 = [] := by
          have hp := List.perm_insertionSort lex4 p1
          rw [hs] at hp
          exact hp.symm.eq_nil
        subst hp1
        have := hperm.symm.eq_nil
        simp at this
      | cons c rest =>
        obtain ⟨hcmem, hcle, hp1perm⟩ := insertionSort_head_least hs
        have hqperm : (q :: qs).Perm (c :: rest) := hperm.symm.trans hp1perm
        have hlc : leastOf q qs = c := by
          have h1 : lex4 (leastOf q qs) c :=
            leastOf_le qs q c (hqperm.symm.subset (List.mem_cons_self c rest))
          have h2 : lex4 c (leastOf q qs) :=
            hcle _ (hperm.symm.subset (leastOf_mem qs q))
          exact lex4_antisymm h1 h2
        have herase : (removeFirst c (q :: qs)).Perm rest := by
          have hcm : c ∈ q :: qs := hqperm.symm.subset (List.mem_cons_self c rest)
          exact ((removeFirst_perm hcm).trans hqperm).cons_inv
        have hrec := ih (transp (c.2.1 + 1) (c.2.2.1 + 1) P)
          (rest.map (rekeyK (transp (c.2.1 + 1) (c.2.2.1 + 1) P)))
          ((removeFirst c (q :: qs)).map (rekeyK (transp (c.2.1 + 1) (c.2.2.1 + 1) P)))
          (herase.symm.map _)
        simp only [hlc, hrec]

theorem foldl_min_mem : ∀ (l : List ℚ) (a : ℚ), l.foldl min a ∈ a :: l := by
  intro l
  induction l with
  | nil => intro a; simp
  | cons y l ih =>
    intro a
    simp only [List.foldl_cons]
    rcases min_choice a y with h2 | h2 <;> rw [h2]
    · have h := ih a
      rcases List.mem_cons.mp h with h1 | h1 <;> simp [h1]
    · have h := ih y
      rcases List.mem_cons.mp h with h1 | h1 <;> simp [h1]

theorem foldl_min_le : ∀ (l : List ℚ) (a x : ℚ), x ∈ a :: l → l.foldl min a ≤ x := by
  intro l
  induction l with
  | nil =>
    intro a x hx
    rcases List.mem_cons.mp hx with rfl | h1
    · simp
    · simp at h1
  | cons y l ih =>
    intro a x hx
    simp only [List.foldl_cons]
    rcases List.mem_cons.mp hx with h1 | h1
    · rw [h1]
      exact le_trans (ih (min a y) _ (List.mem_cons_self _ _)) (min_le_left a y)
    · rcases List.mem_cons.mp h1 with h2 | h2
      · rw [h2]
        exact le_trans (ih (min a y) _ (List.mem_cons_self _ _)) (min_le_right a y)
      · exact ih (min a y) x (List.mem_cons_of_mem _ h2)

theorem minTime_eq_head {c0 : Cross} {cs : List Cross} {q : Cross} {qs : List Cross}
    (hperm : (c0 :: cs).Perm (q :: qs)) (hsort : List.Sorted lex4 (c0 :: cs)) :
    minTime q qs = c0.1 := by
  have hle : ∀ x ∈ c0 :: cs, c0.1 ≤ x.1 := by
    intro x hx
    rcases List.mem_cons.mp hx with rfl | hx2
    · exact le_refl _
    · exact lex4_fst_le ((List.sorted_cons.mp hsort).1 x hx2)
  have h1 : minTime q qs ≤ c0.1 := by
    have hc0 : c0 ∈ q :: qs := hperm.subset (List.mem_cons_self c0 cs)
    have : c0.1 ∈ q.1 :: qs.map (·.1) := by
      rcases List.mem_cons.mp hc0 with rfl | h2
      · exact List.mem_cons_self _ _
      · exact List.mem_cons_of_mem _ (List.mem_map_of_mem _ h2)
    exact foldl_min_le _ _ _ this
  have h2 : c0.1 ≤ minTime q qs := by
    have hmem : minTime q qs ∈ q.1 :: qs.map (·.1) := foldl_min_mem _ _
    rcases List.mem_cons.mp hmem with h3 | h3
    · exact h3 ▸ hle q (hperm.symm.subset (List.mem_cons_self q qs))
    · obtain ⟨x, hx, hx2⟩ := List.mem_map.mp h3
      exact hx2 ▸ hle x (hperm.symm.subset (List.mem_cons_of_mem _ hx))
  exact le_antisymm h1 h2

/-- In a `lex4`-sorted crossing list, the crossings sharing the head's time `t0` form
a prefix: dropping as many elements as that group has leaves exactly the crossings
with a different time. -/
theorem sorted_drop_filter : ∀ (s : List Cross), List.Sorted lex4 s →
    ∀ t0 : ℚ, (∀ x ∈ s, t0 ≤ x.1) →
      s.drop ((s.filter fun c => c.1 = t0).length) = s.filter fun c => ¬ c.1 = t0 := by
  intro s
  induction s with
  | nil => intro _ t0 _; rfl
  | cons a s' ih =>
    intro hsort t0 hle
    by_cases ha : a.1 = t0
    · rw [List.filter_cons_of_pos (by simpa using ha),
        List.filter_cons_of_neg (by simpa using ha)]
      simp only [List.length_cons, List.drop_succ_cons]
      exact ih (List.sorted_cons.mp hsort).2 t0 fun x hx => hle x (List.mem_cons_of_mem a hx)
    · have ht0a : t0 < a.1 := lt_of_le_of_ne (hle a (List.mem_cons_self a s')) (Ne.symm ha)
      have hnone : ∀ x ∈ a :: s', ¬ x.1 = t0 := by
        intro x hx
        rcases List.mem_cons.mp hx with rfl | hx'
        · exact ha
        · have hax : a.1 ≤ x.1 := lex4_fst_le ((List.sorted_cons.mp hsort).1 x hx')
          intro hxeq
          rw [hxeq] at hax
          exact absurd (lt_of_lt_of_le ht0a hax) (lt_irrefl t0)
      have hf1 : ((a :: s').filter fun c => c.1 = t0) = [] :=
        List.filter_eq_nil_iff.mpr fun x hx => by simpa using hnone x hx
      have hf2 : ((a :: s').filter fun c => ¬ c.1 = t0) = a :: s' :=
        List.filter_eq_self.mpr fun x hx => by simpa using hnone x hx
      rw [hf1, hf2]
      rfl

/-- The source's sort-then-split-prefix outer loop equals the claim's
minimal-time-group outer loop: `s` is the sorted crossing list the source iterates
on, `c` any list holding the same crossings. -/
theorem resolveAll_eq_spec (fuel : ℕ) : ∀ (P : ℕ → ℕ) (s c : List Cross),
    s.Perm c → List.Sorted lex4 s → resolveAll P s fuel = specResolveAll P c fuel := by
  induction fuel with
  | zero => intro P s c _ _; rfl
  | succ f ih =>
    intro P s c hperm hsort
    cases s with
    | nil =>
      have hc : c = [] := hperm.symm.eq_nil
      subst hc
      rfl
    | cons c0 cs =>
      cases c with
      | nil =>
        have := hperm.eq_nil
        simp at this
      | cons q qs =>
        rw [resolveAll, specResolveAll]
        have ht0 : minTime q qs = c0.1 := minTime_eq_head hperm hsort
        have hle : ∀ x ∈ c0 :: cs, c0.1 ≤ x.1 := by
          intro x hx
          rcases List.mem_cons.mp hx with rfl | hx2
          · exact le_refl _
          · exact lex4_fst_le ((List.sorted_cons.mp hsort).1 x hx2)
        have hgperm : ((c0 :: cs).filter fun c => c.1 = c0.1).Perm
            ((q :: qs).filter fun c => c.1 = c0.1) := hperm.filter _
        have hglen : ((q :: qs).filter fun c => c.1 = c0.1).length
            = ((c0 :: cs).filter fun c => c.1 = c0.1).length := hgperm.symm.length_eq
        have hgrp := resolveGroup_eq_spec
          (((c0 :: cs).filter fun c => c.1 = c0.1).length) P
          (((c0 :: cs).filter fun c => c.1 = c0.1).map (rekey P))
          (((q :: qs).filter fun c => c.1 = c0.1).map (rekey P))
          (hgperm.map _)
        have hdrop : (c0 :: cs).drop (((c0 :: cs).filter fun c => c.1 = c0.1).length)
            = (c0 :: cs).filter fun c => ¬ c.1 = c0.1 :=
          sorted_drop_filter (c0 :: cs) hsort c0.1 hle
        have hrperm : ((c0 :: cs).filter fun c => ¬ c.1 = c0.1).Perm
            ((q :: qs).filter fun c => ¬ c.1 = c0.1) := hperm.filter _
        have hrsort : List.Sorted lex4 ((c0 :: cs).filter fun c => ¬ c.1 = c0.1) :=
          hsort.sublist (List.filter_sublist _)
        have hrec := ih (resolveGroup P
            (((c0 :: cs).filter fun c => c.1 = c0.1).map (rekey P))
            (((c0 :: cs).filter fun c => c.1 = c0.1).length)).2
          ((c0 :: cs).filter fun c => ¬ c.1 = c0.1)
          ((q :: qs).filter fun c => ¬ c.1 = c0.1) hrperm hrsort
        simp only [ht0, hglen, ← hgrp, hdrop, hrec]

/-- The per-slice word with the source's resolution equals the per-slice word with
the claim's resolution. -/
theorem slicePairWord_eq_spec (l1 l2 : List Point) :
    slicePairWord l1 l2 = specSlicePairWord l1 l2 := by
  rw [slicePairWord, specSlicePairWord]
  by_cases h : 0 < (slicePairCrossings l1 l2).length
  · rw [if_pos h, if_pos h]
    have hperm := List.perm_insertionSort lex4 (slicePairCrossings l1 l2)
    have hlen : (List.insertionSort lex4 (slicePairCrossings l1 l2)).length
        = (slicePairCrossings l1 l2).length := hperm.length_eq
    show resolveAll (fun m => m) (List.insertionSort lex4 (slicePairCrossings l1 l2))
        (List.insertionSort lex4 (slicePairCrossings l1 l2)).length =
      specResolveAll (fun m => m) (slicePairCrossings l1 l2)
        (slicePairCrossings l1 l2).length
    rw [hlen]
    exact resolveAll_eq_spec _ _ _ _ hperm (List.sorted_insertionSort lex4 _)
  · rw [if_neg h, if_neg h]

/-- **C1.**  In `braid_from_piecewise`, for every input strand family, crossings are
processed in increasing order of their interpolated crossing time `t*` (the pending
group of minimal `t*` is always resolved next), and among crossings sharing the same
`t*` the algorithm repeatedly selects the still-pending crossing whose key — the
strand-index difference `P(c[2]+1) - P(c[1]+1)` under the accumulated permutation,
with the components `k, j, s` as tie-break — is minimal, emits its signed generator,
updates the permutation by transposing the pair, and recomputes the keys of the
remaining simultaneous crossings before the next selection: the source's
sort-and-pop loops compute exactly this selection process, which `specResolveAll` /
`specResolveGroup` transcribe from the claim with no sorting. -/
theorem braidFromPiecewise_processes_in_order (strands : List Strand) :
    braidFromPiecewise strands = specBraidFromPiecewise strands := by
  have h : slicePairWord = specSlicePairWord :=
    funext fun l1 => funext fun l2 => slicePairWord_eq_spec l1 l2
  rw [braidFromPiecewise, specBraidFromPiecewise, h]

/-! ### Re-sampling can change the emitted word (claim C8)

Three strands crossing through a common triple point at time `1/2`: inserting the
interpolated sample `(1/2, (1, 0))` into the first strand — which does not change
the piecewise-linear geometry — splits the single merged slice into two, and the
greedy simultaneous-crossing resolution emits `[1, 2, -1]` before the refinement
but `[-2, 1, 2]` after it. -/

theorem totalpointsOf_threeStrands : totalpointsOf
    [[((0:ℚ), ((0:ℚ), (0:ℚ))), (1, (2, 0))],
     [(0, ((1:ℚ), (2:ℚ))), (1, (1, 2))],
     [(0, ((2:ℚ), (1:ℚ))), (1, (0, 1))]] =
    some [[(0, 0), (2, 0)], [(1, 2), (1, 2)], [(2, 1), (0, 1)]] := by
  have h1 : mapOpt (fun s => (s.get? 1).map (·.1))
      [[((0:ℚ), ((0:ℚ), (0:ℚ))), (1, (2, 0))],
       [(0, ((1:ℚ), (2:ℚ))), (1, (1, 2))],
       [(0, ((2:ℚ), (1:ℚ))), (1, (0, 1))]] = some [1, 1, 1] := by
    norm_num [mapOpt]
  have h2 : ([(1:ℚ), 1, 1]).min? = some 1 := by
    norm_num [List.min?]
  have h3 : mapOpt (fun s => (s.get? 0).map fun a => [a.2])
      [[((0:ℚ), ((0:ℚ), (0:ℚ))), (1, (2, 0))],
       [(0, ((1:ℚ), (2:ℚ))), (1, (1, 2))],
       [(0, ((2:ℚ), (1:ℚ))), (1, (0, 1))]] =
      some [[((0:ℚ), (0:ℚ))], [(1, 2)], [(2, 1)]] := by
    norm_num [mapOpt]
  have h4 : ∀ idx, mergeLoop
      [[((0:ℚ), ((0:ℚ), (0:ℚ))), (1, (2, 0))],
       [(0, ((1:ℚ), (2:ℚ))), (1, (1, 2))],
       [(0, ((2:ℚ), (1:ℚ))), (1, (0, 1))]]
      (totalLen [[((0:ℚ), ((0:ℚ), (0:ℚ))), (1, (2, 0))],
       [(0, ((1:ℚ), (2:ℚ))), (1, (1, 2))],
       [(0, ((2:ℚ), (1:ℚ))), (1, (0, 1))]] + 1)
      idx 1
      [[((0:ℚ), (0:ℚ))], [(1, 2)], [(2, 1)]] =
      some [[((0:ℚ), (0:ℚ))], [(1, 2)], [(2, 1)]] := by
    intro idx
    rw [mergeLoop]
    norm_num
  have h5 : mapOpt List.getLast?
      [[((0:ℚ), ((0:ℚ), (0:ℚ))), (1, (2, 0))],
       [(0, ((1:ℚ), (2:ℚ))), (1, (1, 2))],
       [(0, ((2:ℚ), (1:ℚ))), (1, (0, 1))]] =
      some [((1:ℚ), ((2:ℚ), (0:ℚ))), (1, (1, 2)), (1, (0, 1))] := by
    norm_num [mapOpt]
  rw [totalpointsOf]
  simp only [h1, h2, h3, h4, h5, Option.bind_eq_bind, Option.some_bind]
  norm_num

theorem totalpointsOf_threeStrandsRefined : totalpointsOf
    [[((0:ℚ), ((0:ℚ), (0:ℚ))), (1/2, (1, 0)), (1, (2, 0))],
     [(0, ((1:ℚ), (2:ℚ))), (1, (1, 2))],
     [(0, ((2:ℚ), (1:ℚ))), (1, (0, 1))]] =
    some [[(0, 0), (1, 0), (2, 0)], [(1, 2), (1, 2), (1, 2)],
      [(2, 1), (1, 1), (0, 1)]] := by
  have h1 : mapOpt (fun s => (s.get? 1).map (·.1))
      [[((0:ℚ), ((0:ℚ), (0:ℚ))), (1/2, (1, 0)), (1, (2, 0))],
       [(0, ((1:ℚ), (2:ℚ))), (1, (1, 2))],
       [(0, ((2:ℚ), (1:ℚ))), (1, (0, 1))]] = some [1/2, 1, 1] := by
    norm_num [mapOpt]
  have h2 : ([(1/2 : ℚ), 1, 1]).min? = some (1/2) := by
    norm_num [List.min?]
  have h3 : mapOpt (fun s => (s.get? 0).map fun a => [a.2])
      [[((0:ℚ), ((0:ℚ), (0:ℚ))), (1/2, (1, 0)), (1, (2, 0))],
       [(0, ((1:ℚ), (2:ℚ))), (1, (1, 2))],
       [(0, ((2:ℚ), (1:ℚ))), (1, (0, 1))]] =
      some [[((0:ℚ), (0:ℚ))], [(1, 2)], [(2, 1)]] := by
    norm_num [mapOpt]
  have hbody : mergeBody
      [[((0:ℚ), ((0:ℚ), (0:ℚ))), (1/2, (1, 0)), (1, (2, 0))],
       [(0, ((1:ℚ), (2:ℚ))), (1, (1, 2))],
       [(0, ((2:ℚ), (1:ℚ))), (1, (0, 1))]]
      ([[((0:ℚ), ((0:ℚ), (0:ℚ))), (1/2, (1, 0)), (1, (2, 0))],
       [(0, ((1:ℚ), (2:ℚ))), (1, (1, 2))],
       [(0, ((2:ℚ), (1:ℚ))), (1, (0, 1))]].map fun _ => 1) (1/2) =
      some [(((1:ℚ), (0:ℚ)), 2), (((1:ℚ), (2:ℚ)), 1), (((1:ℚ), (1:ℚ)), 1)] := by
    norm_num [mergeBody, mergePass1, mapOpt, interpola]
  have hnext : nextTime
      [[((0:ℚ), ((0:ℚ), (0:ℚ))), (1/2, (1, 0)), (1, (2, 0))],
       [(0, ((1:ℚ), (2:ℚ))), (1, (1, 2))],
       [(0, ((2:ℚ), (1:ℚ))), (1, (0, 1))]] [2, 1, 1] = some 1 := by
    norm_num [nextTime, mapOpt, List.min?]
  have h4 : mergeLoop
      [[((0:ℚ), ((0:ℚ), (0:ℚ))), (1/2, (1, 0)), (1, (2, 0))],
       [(0, ((1:ℚ), (2:ℚ))), (1, (1, 2))],
       [(0, ((2:ℚ), (1:ℚ))), (1, (0, 1))]]
      (totalLen [[((0:ℚ), ((0:ℚ), (0:ℚ))), (1/2, (1, 0)), (1, (2, 0))],
       [(0, ((1:ℚ), (2:ℚ))), (1, (1, 2))],
       [(0, ((2:ℚ), (1:ℚ))), (1, (0, 1))]] + 1)
      ([[((0:ℚ), ((0:ℚ), (0:ℚ))), (1/2, (1, 0)), (1, (2, 0))],
       [(0, ((1:ℚ), (2:ℚ))), (1, (1, 2))],
       [(0, ((2:ℚ), (1:ℚ))), (1, (0, 1))]].map fun _ => 1) (1/2)
      [[((0:ℚ), (0:ℚ))], [(1, 2)], [(2, 1)]] =
      some [[((0:ℚ), (0:ℚ)), (1, 0)], [(1, 2), (1, 2)], [(2, 1), (1, 1)]] := by
    rw [mergeLoop, if_pos (by norm_num), hbody]
    simp only [Option.bind_eq_bind, Option.some_bind, List.map_cons, List.map_nil]
    rw [hnext]
    simp only [Option.bind_eq_bind, Option.some_bind]
    have hfuel : totalLen [[((0:ℚ), ((0:ℚ), (0:ℚ))), (1/2, (1, 0)), (1, (2, 0))],
       [(0, ((1:ℚ), (2:ℚ))), (1, (1, 2))],
       [(0, ((2:ℚ), (1:ℚ))), (1, (0, 1))]] = 6 + 1 := by
      norm_num [totalLen]
    rw [hfuel, mergeLoop]
    norm_num
  have h5 : mapOpt List.getLast?
      [[((0:ℚ), ((0:ℚ), (0:ℚ))), (1/2, (1, 0)), (1, (2, 0))],
       [(0, ((1:ℚ), (2:ℚ))), (1, (1, 2))],
       [(0, ((2:ℚ), (1:ℚ))), (1, (0, 1))]] =
      some [((1:ℚ), ((2:ℚ), (0:ℚ))), (1, (1, 2)), (1, (0, 1))] := by
    norm_num [mapOpt]
  rw [totalpointsOf]
  simp only [h1, h2, h3, h4, h5, Option.bind_eq_bind, Option.some_bind]
  norm_num

theorem slicePairWord_threeStrands : slicePairWord [((0:ℚ), (0:ℚ)), (1, 2), (2, 1)]
    [((2:ℚ), (0:ℚ)), (1, 2), (0, 1)] = [1, 2, -1] := by
  have hcr : slicePairCrossings [((0:ℚ), (0:ℚ)), (1, 2), (2, 1)]
      [((2:ℚ), (0:ℚ)), (1, 2), (0, 1)] =
      [(1/2, 0, 1, 1), (1/2, 0, 2, 1), (1/2, 1, 2, -1)] := by
    norm_num [slicePairCrossings, sortedSnd, sortedFst, sortedPair, crossParam,
      crossSign, qcmp, List.insertionSort, List.orderedInsert, mLe, pLt, pLe,
      List.range_succ, List.filterMap_cons, List.getD]
  rw [slicePairWord, hcr]
  norm_num [resolveAll, resolveGroup, rekey, rekeyK, transp, List.insertionSort,
    List.orderedInsert, lex4, List.filter]

theorem slicePairWord_threeStrandsA : slicePairWord [((0:ℚ), (0:ℚ)), (1, 2), (2, 1)]
    [((1:ℚ), (0:ℚ)), (1, 2), (1, 1)] = [-2] := by
  have hcr : slicePairCrossings [((0:ℚ), (0:ℚ)), (1, 2), (2, 1)]
      [((1:ℚ), (0:ℚ)), (1, 2), (1, 1)] = [(1, 1, 2, -1)] := by
    norm_num [slicePairCrossings, sortedSnd, sortedFst, sortedPair, crossParam,
      crossSign, qcmp, List.insertionSort, List.orderedInsert, mLe, pLt, pLe,
      List.range_succ, List.filterMap_cons, List.getD]
  rw [slicePairWord, hcr]
  norm_num [resolveAll, resolveGroup, rekey, rekeyK, transp, List.insertionSort,
    List.orderedInsert, lex4, List.filter]

theorem slicePairWord_threeStrandsB : slicePairWord [((1:ℚ), (0:ℚ)), (1, 2), (1, 1)]
    [((2:ℚ), (0:ℚ)), (1, 2), (0, 1)] = [1, 2] := by
  have hcr : slicePairCrossings [((1:ℚ), (0:ℚ)), (1, 2), (1, 1)]
      [((2:ℚ), (0:ℚ)), (1, 2), (0, 1)] = [(0, 0, 1, 1), (0, 0, 2, 1)] := by
    norm_num [slicePairCrossings, sortedSnd, sortedFst, sortedPair, crossParam,
      crossSign, qcmp, List.insertionSort, List.orderedInsert, mLe, pLt, pLe,
      List.range_succ, List.filterMap_cons, List.getD]
  rw [slicePairWord, hcr]
  norm_num [resolveAll, resolveGroup, rekey, rekeyK, transp, List.insertionSort,
    List.orderedInsert, lex4, List.filter]

theorem braidFromPiecewise_threeStrands : braidFromPiecewise
    [[((0:ℚ), ((0:ℚ), (0:ℚ))), (1, (2, 0))],
     [(0, ((1:ℚ), (2:ℚ))), (1, (1, 2))],
     [(0, ((2:ℚ), (1:ℚ))), (1, (0, 1))]] = some [1, 2, -1] := by
  have hs0 : sliceOf [[((0:ℚ), (0:ℚ)), (2, 0)], [(1, 2), (1, 2)], [(2, 1), (0, 1)]] 0 =
      some [(0, 0), (1, 2), (2, 1)] := by
    norm_num [sliceOf, mapOpt]
  have hs1 : sliceOf [[((0:ℚ), (0:ℚ)), (2, 0)], [(1, 2), (1, 2)], [(2, 1), (0, 1)]] 1 =
      some [(2, 0), (1, 2), (0, 1)] := by
    norm_num [sliceOf, mapOpt]
  rw [braidFromPiecewise, totalpointsOf_threeStrands]
  simp only [Option.bind_eq_bind, Option.some_bind]
  have hrange : List.range
      ((([[((0:ℚ), (0:ℚ)), (2, 0)], [(1, 2), (1, 2)], [(2, 1), (0, 1)]].headD []).length)
        - 1) = [0] := rfl
  rw [hrange, mapOpt_singleton]
  simp only [hs0, hs1, Option.bind_eq_bind, Option.some_bind, Option.pure_def]
  rw [slicePairWord_threeStrands]
  norm_num

theorem braidFromPiecewise_threeStrandsRefined : braidFromPiecewise
    [[((0:ℚ), ((0:ℚ), (0:ℚ))), (1/2, (1, 0)), (1, (2, 0))],
     [(0, ((1:ℚ), (2:ℚ))), (1, (1, 2))],
     [(0, ((2:ℚ), (1:ℚ))), (1, (0, 1))]] = some [-2, 1, 2] := by
  have hs0 : sliceOf [[((0:ℚ), (0:ℚ)), (1, 0), (2, 0)], [(1, 2), (1, 2), (1, 2)],
      [(2, 1), (1, 1), (0, 1)]] 0 = some [(0, 0), (1, 2), (2, 1)] := by
    norm_num [sliceOf, mapOpt]
  have hs1 : sliceOf [[((0:ℚ), (0:ℚ)), (1, 0), (2, 0)], [(1, 2), (1, 2), (1, 2)],
      [(2, 1), (1, 1), (0, 1)]] 1 = some [(1, 0), (1, 2), (1, 1)] := by
    norm_num [sliceOf, mapOpt]
  have hs2 : sliceOf [[((0:ℚ), (0:ℚ)), (1, 0), (2, 0)], [(1, 2), (1, 2), (1, 2)],
      [(2, 1), (1, 1), (0, 1)]] 2 = some [(2, 0), (1, 2), (0, 1)] := by
    norm_num [sliceOf, mapOpt]
  rw [braidFromPiecewise, totalpointsOf_threeStrandsRefined]
  simp only [Option.bind_eq_bind, Option.some_bind]
  have hrange : List.range
      ((([[((0:ℚ), (0:ℚ)), (1, 0), (2, 0)], [(1, 2), (1, 2), (1, 2)],
        [(2, 1), (1, 1), (0, 1)]].headD []).length) - 1) = [0, 1] := rfl
  rw [hrange]
  simp only [mapOpt, hs0, hs1, hs2, Option.bind_eq_bind, Option.some_bind,
    Option.pure_def, slicePairWord_threeStrandsA, slicePairWord_threeStrandsB]
  norm_num

/-- **C8, counterexample.**  Inserting one extra sample by linear interpolation
between two existing samples — here `(1/2, (1, 0))` on the segment from
`(0, (0, 0))` to `(1, (2, 0))` of the first strand, so the piecewise-linear
geometry is unchanged — changes the braid word returned by
`braid_from_piecewise` from `[1, 2, -1]` to `[-2, 1, 2]`: the three strands pass
through a common point at the inserted time `1/2`, and splitting the time grid
there regroups the simultaneous crossings.  (The two words represent the same
element of the braid group; the claim as stated, about the returned word, fails.) -/
theorem braidFromPiecewise_resample_cex :
    interpola ((0:ℚ), (0:ℚ)) (2, 0) 0 1 (1/2) = ((1:ℚ), (0:ℚ)) ∧
    braidFromPiecewise
      [[((0:ℚ), ((0:ℚ), (0:ℚ))), (1, (2, 0))],
       [(0, ((1:ℚ), (2:ℚ))), (1, (1, 2))],
       [(0, ((2:ℚ), (1:ℚ))), (1, (0, 1))]] = some [1, 2, -1] ∧
    braidFromPiecewise
      [[((0:ℚ), ((0:ℚ), (0:ℚ))), (1/2, (1, 0)), (1, (2, 0))],
       [(0, ((1:ℚ), (2:ℚ))), (1, (1, 2))],
       [(0, ((2:ℚ), (1:ℚ))), (1, (0, 1))]] = some [-2, 1, 2] ∧
    ([1, 2, -1] : List ℤ) ≠ [-2, 1, 2] :=
  ⟨by norm_num [interpola], braidFromPiecewise_threeStrands,
    braidFromPiecewise_threeStrandsRefined, by decide⟩

/-! ### The merged time grid and piecewise-linear strand semantics -/

/-- The sample of `s` at index `k` (`(0, (0, 0))` out of range; indices used under
a bound are always in range). -/
def sampleAt (s : Strand) (k : ℕ) : ℚ × Point := s.getD k (0, (0, 0))

/-- The sample time of `s` at index `k`. -/
def timeAt (s : Strand) (k : ℕ) : ℚ := (sampleAt s k).1

/-- A well-formed strand as `braid_from_piecewise` expects: at least two samples,
strictly increasing times, starting at time `0` and ending at time `1`. -/
def StrandWF (s : Strand) : Prop :=
  2 ≤ s.length ∧ (s.map (·.1)).Pairwise (· < ·) ∧
    s.head?.map (·.1) = some 0 ∧ s.getLast?.map (·.1) = some 1

/-- All sample times of the family. -/
def sampleTimes (L : List Strand) : List ℚ := L.flatMap fun s => s.map (·.1)

/-- The interior merged times: sample times in `(0, 1)`, without duplicates. -/
def interiorTimes (L : List Strand) : List ℚ :=
  ((sampleTimes L).filter fun t => 0 < t ∧ t < 1).dedup

/-- The merged time grid: `0`, the sorted interior sample times, `1`. -/
def mergedTimes (L : List Strand) : List ℚ :=
  0 :: (List.insertionSort (· ≤ ·) (interiorTimes L) ++ [1])

/-- The value of the strand at time `t`: linear interpolation between the bracketing
samples (the last sample's value from its time on). -/
def strandAt (s : Strand) (t : ℚ) : Point :=
  match s with
  | [] => (0, 0)
  | [a] => a.2
  | a :: b :: rest => if t < b.1 then interpola a.2 b.2 a.1 b.1 t else strandAt (b :: rest) t

theorem get?_eq_sampleAt {s : Strand} {k : ℕ} (h : k < s.length) :
    s.get? k = some (sampleAt s k) := by
  rw [List.get?_eq_getElem?, List.getElem?_eq_getElem h, sampleAt,
    List.getD_eq_getElem _ _ h]

theorem timeAt_eq_getElem {s : Strand} {k : ℕ} (h : k < s.length) :
    timeAt s k = (s[k]).1 := by
  rw [timeAt, sampleAt, List.getD_eq_getElem _ _ h]

theorem timeAt_lt {s : Strand} (hpw : (s.map (·.1)).Pairwise (· < ·)) {k m : ℕ}
    (hkm : k < m) (hm : m < s.length) : timeAt s k < timeAt s m := by
  have h := (List.pairwise_iff_getElem.mp hpw) k m
    (by simpa using lt_trans hkm hm) (by simpa using hm) hkm
  simpa [List.getElem_map, timeAt_eq_getElem (lt_trans hkm hm), timeAt_eq_getElem hm]
    using h

theorem timeAt_le {s : Strand} (hpw : (s.map (·.1)).Pairwise (· < ·)) {k m : ℕ}
    (hkm : k ≤ m) (hm : m < s.length) : timeAt s k ≤ timeAt s m := by
  rcases lt_or_eq_of_le hkm with h | h
  · exact le_of_lt (timeAt_lt hpw h hm)
  · rw [h]

theorem timeAt_zero {s : Strand} (hwf : StrandWF s) : timeAt s 0 = 0 := by
  obtain ⟨hlen, _, hhead, _⟩ := hwf
  cases s with
  | nil => simp at hlen
  | cons a t =>
    simp only [List.head?_cons, Option.map_some] at hhead
    simpa [timeAt, sampleAt] using Option.some.inj hhead

theorem timeAt_last {s : Strand} (hwf : StrandWF s) : timeAt s (s.length - 1) = 1 := by
  obtain ⟨hlen, _, _, hlast⟩ := hwf
  have hne : s ≠ [] := by
    intro h; rw [h] at hlen; simp at hlen
  rw [List.getLast?_eq_getLast _ hne] at hlast
  simp only [Option.map_some'] at hlast
  have h2 := List.getLast_eq_getElem s hne
  rw [timeAt_eq_getElem (by have := List.length_pos.mpr hne; omega), ← h2]
  exact Option.some.inj hlast

theorem timeAt_le_one {s : Strand} (hwf : StrandWF s) {k : ℕ} (hk : k < s.length) :
    timeAt s k ≤ 1 := by
  have h := timeAt_le hwf.2.1 (Nat.le_sub_one_of_lt hk) (by omega : s.length - 1 < s.length)
  rw [timeAt_last hwf] at h
  exact h

theorem timeAt_pos {s : Strand} (hwf : StrandWF s) {k : ℕ} (h1 : 1 ≤ k)
    (hk : k < s.length) : 0 < timeAt s k := by
  have h := timeAt_lt hwf.2.1 (by omega : 0 < k) hk
  rw [timeAt_zero hwf] at h
  exact h

theorem timeAt_nonneg {s : Strand} (hwf : StrandWF s) {k : ℕ} (hk : k < s.length) :
    0 ≤ timeAt s k := by
  rcases Nat.eq_zero_or_pos k with rfl | h1
  · rw [timeAt_zero hwf]
  · exact le_of_lt (timeAt_pos hwf h1 hk)

theorem timeAt_mem_sampleTimes {L : List Strand} {s : Strand} (hs : s ∈ L) {k : ℕ}
    (hk : k < s.length) : timeAt s k ∈ sampleTimes L := by
  rw [sampleTimes, List.mem_flatMap]
  exact ⟨s, hs, by
    rw [timeAt_eq_getElem hk]
    exact List.mem_map_of_mem _ (List.getElem_mem hk)⟩

theorem interpola_left (x y : Point) (a b : ℚ) : interpola x y a b a = x := by
  simp [interpola]

theorem strandAt_bracket : ∀ (m : ℕ) (s : Strand), (s.map (·.1)).Pairwise (· < ·) →
    ∀ {a b t : ℚ} {x y : Point}, s.get? m = some (a, x) → s.get? (m + 1) = some (b, y) →
    a ≤ t → t < b → strandAt s t = interpola x y a b t := by
  intro m
  induction m with
  | zero =>
    intro s hpw a b t x y h0 h1 hat htb
    match s with
    | [] => simp at h0
    | [c] => simp at h1
    | c :: d :: rest =>
      simp only [List.get?_cons_zero] at h0
      simp only [List.get?_cons_succ, List.get?_cons_zero] at h1
      rw [strandAt]
      have hc : c = (a, x) := Option.some.inj h0
      have hd : d = (b, y) := Option.some.inj h1
      rw [hc, hd, if_pos htb]
  | succ m ih =>
    intro s hpw a b t x y h0 h1 hat htb
    match s with
    | [] => simp at h0
    | [c] => simp at h0
    | c :: d :: rest =>
      simp only [List.get?_cons_succ] at h0 h1
      rw [strandAt]
      have hpw' : ((d :: rest).map (·.1)).Pairwise (· < ·) := by
        simp only [List.map_cons, List.pairwise_cons] at hpw ⊢
        exact hpw.2
      have hlen : m < (d :: rest).length := by
        by_contra hc
        rw [List.get?_eq_none.mpr (by omega)] at h0
        simp at h0
      have hda : d.1 ≤ a := by
        rcases Nat.eq_zero_or_pos m with rfl | hm0
        · simp only [List.get?_cons_zero] at h0
          rw [Option.some.inj h0]
        · have hsm : sampleAt (d :: rest) m = (a, x) := by
            have h2 := get?_eq_sampleAt hlen
            rw [h0] at h2
            exact (Option.some.inj h2).symm
          have h3 := timeAt_lt hpw' hm0 hlen
          have h5 : timeAt (d :: rest) m = a := by rw [timeAt, hsm]
          rw [h5] at h3
          have h4 : timeAt (d :: rest) 0 = d.1 := rfl
          rw [h4] at h3
          exact le_of_lt h3
      rw [if_neg (not_lt.mpr (le_trans hda hat))]
      exact ih (d :: rest) hpw' h0 h1 hat htb

theorem strandAt_last : ∀ (s : Strand) (hne : s ≠ []),
    (s.map (·.1)).Pairwise (· < ·) → ∀ {T : ℚ}, (s.getLast hne).1 ≤ T →
    strandAt s T = (s.getLast hne).2 := by
  intro s
  induction s with
  | nil => intro hne; exact absurd rfl hne
  | cons c s' ih =>
    intro hne hpw T hT
    match s', ih with
    | [], _ => rw [strandAt]; simp [List.getLast]
    | d :: rest, ih =>
      have hpw' : ((d :: rest).map (·.1)).Pairwise (· < ·) := by
        simp only [List.map_cons, List.pairwise_cons] at hpw ⊢
        exact hpw.2
      have hlast : (c :: d :: rest).getLast hne = (d :: rest).getLast (by simp) := by
        rw [List.getLast_cons]
      have hdlast : d.1 ≤ ((d :: rest).getLast (by simp)).1 := by
        have hmem := List.getLast_mem (l := d :: rest) (by simp)
        rcases List.mem_cons.mp hmem with h | h
        · exact le_of_eq (congrArg Prod.fst h.symm)
        · simp only [List.map_cons, List.pairwise_cons] at hpw'
          exact le_of_lt (hpw'.1 _ (List.mem_map_of_mem _ h))
      rw [strandAt, hlast]
      rw [hlast] at hT
      rw [if_neg (not_lt.mpr (le_trans hdlast hT))]
      exact ih (by simp) hpw' hT

theorem strandAt_sample {s : Strand} (hwf : StrandWF s) {k : ℕ} (hk : k < s.length) :
    strandAt s (timeAt s k) = (sampleAt s k).2 := by
  have hne : s ≠ [] := by
    intro h; rw [h] at hk; simp at hk
  rcases eq_or_lt_of_le (Nat.le_sub_one_of_lt hk) with hlast | hmid
  · have hL : s.getLast hne = sampleAt s k := by
      rw [List.getLast_eq_getElem s hne, sampleAt, List.getD_eq_getElem _ _ hk]
      congr 1
      omega
    have := strandAt_last s hne hwf.2.1 (T := timeAt s k) (by rw [hL]; exact le_refl _)
    rw [this, hL]
  · have hk1 : k + 1 < s.length := by omega
    rw [strandAt_bracket k s hwf.2.1 (a := timeAt s k) (b := timeAt s (k + 1))
      (x := (sampleAt s k).2) (y := (sampleAt s (k + 1)).2)
      (get?_eq_sampleAt hk) (get?_eq_sampleAt hk1) (le_refl _)
      (timeAt_lt hwf.2.1 (by omega) hk1)]
    exact interpola_left _ _ _ _

theorem interiorSorted_pairwise (L : List Strand) :
    (List.insertionSort (· ≤ ·) (interiorTimes L)).Pairwise (· < ·) := by
  have hsorted : (List.insertionSort (· ≤ ·) (interiorTimes L)).Sorted (· ≤ ·) :=
    List.sorted_insertionSort _ _
  have hnodup : (List.insertionSort (· ≤ ·) (interiorTimes L)).Nodup :=
    (List.perm_insertionSort _ _).symm.nodup (by rw [interiorTimes]; exact List.nodup_dedup _)
  exact hsorted.lt_of_le hnodup

theorem mem_interiorSorted {L : List Strand} {t : ℚ} :
    t ∈ List.insertionSort (· ≤ ·) (interiorTimes L) ↔
      t ∈ sampleTimes L ∧ 0 < t ∧ t < 1 := by
  rw [(List.perm_insertionSort (· ≤ ·) (interiorTimes L)).mem_iff, interiorTimes,
    List.mem_dedup, List.mem_filter]
  simp

theorem mergedTimes_pairwise (L : List Strand) : (mergedTimes L).Pairwise (· < ·) := by
  rw [mergedTimes]
  rw [List.pairwise_cons]
  constructor
  · intro b hb
    rcases List.mem_append.mp hb with h | h
    · exact (mem_interiorSorted.mp h).2.1
    · simp only [List.mem_singleton] at h
      rw [h]; norm_num
  · rw [List.pairwise_append]
    refine ⟨interiorSorted_pairwise L, by simp, ?_⟩
    intro a ha b hb
    simp only [List.mem_singleton] at hb
    rw [hb]
    exact (mem_interiorSorted.mp ha).2.2

theorem mem_mergedTimes {L : List Strand} {t : ℚ} :
    t ∈ mergedTimes L ↔ t = 0 ∨ t = 1 ∨ (t ∈ sampleTimes L ∧ 0 < t ∧ t < 1) := by
  rw [mergedTimes]
  simp only [List.mem_cons, List.mem_append, List.mem_singleton, mem_interiorSorted]
  tauto

theorem sample_mem_mergedTimes {L : List Strand} {t : ℚ} (h : t ∈ sampleTimes L)
    (h0 : 0 < t) (h1 : t < 1) : t ∈ mergedTimes L :=
  mem_mergedTimes.mpr (Or.inr (Or.inr ⟨h, h0, h1⟩))

theorem zero_mem_mergedTimes (L : List Strand) : (0 : ℚ) ∈ mergedTimes L :=
  mem_mergedTimes.mpr (Or.inl rfl)

theorem one_mem_mergedTimes (L : List Strand) : (1 : ℚ) ∈ mergedTimes L :=
  mem_mergedTimes.mpr (Or.inr (Or.inl rfl))

theorem mapOpt_forall_some {α β : Type} {g : α → Option β} {h : α → β} :
    ∀ {l : List α}, (∀ a ∈ l, g a = some (h a)) → mapOpt g l = some (l.map h) := by
  intro l
  induction l with
  | nil => intro _; rfl
  | cons a t ih =>
    intro hx
    simp only [mapOpt, hx a (List.mem_cons_self a t),
      ih fun b hb => hx b (List.mem_cons_of_mem a hb), List.map_cons]

theorem mem_zip_index {l1 : List Strand} {l2 : List ℕ} {p : Strand × ℕ}
    (h : p ∈ l1.zip l2) :
    ∃ j, j < l1.length ∧ j < l2.length ∧ l1.getD j [] = p.1 ∧ l2.getD j 0 = p.2 := by
  obtain ⟨⟨n, hn⟩, hget⟩ := List.get_of_mem h
  rw [List.get_eq_getElem] at hget
  rw [List.length_zip] at hn
  have h1 : n < l1.length := by omega
  have h2 : n < l2.length := by omega
  have hp : (l1[n], l2[n]) = p := by
    rw [← List.getElem_zip (h := by rw [List.length_zip]; omega)]
    exact hget
  refine ⟨n, h1, h2, ?_, ?_⟩
  · rw [List.getD_eq_getElem _ _ h1, ← hp]
  · rw [List.getD_eq_getElem _ _ h2, ← hp]

theorem filter_window_step {ts : List ℚ} (hpw : ts.Pairwise (· < ·)) {i i' : ℚ}
    (hi : i ∈ ts) (h1 : i < 1) (hii' : i < i')
    (hgap : ∀ t ∈ ts, i < t → i' ≤ t) :
    ts.filter (fun t => i ≤ t ∧ t < 1) = i :: ts.filter (fun t => i' ≤ t ∧ t < 1) := by
  induction ts with
  | nil => simp at hi
  | cons a ts' ih =>
    rw [List.pairwise_cons] at hpw
    by_cases hai : a = i
    · subst hai
      rw [List.filter_cons_of_pos (by simp [h1]),
        List.filter_cons_of_neg (by simp; intro hca; exact absurd (lt_of_lt_of_le hii' hca) (lt_irrefl a))]
      congr 1
      refine List.filter_congr ?_
      intro t ht
      have hat : a < t := hpw.1 t ht
      have hit : i' ≤ t := hgap t (List.mem_cons_of_mem a ht) hat
      simp only [decide_eq_decide]
      constructor
      · rintro ⟨_, h⟩; exact ⟨hit, h⟩
      · rintro ⟨_, h⟩; exact ⟨le_of_lt hat, h⟩
    · have hits' : i ∈ ts' := by
        rcases List.mem_cons.mp hi with h | h
        · exact absurd h.symm hai
        · exact h
      have hat : a < i := hpw.1 i hits'
      rw [List.filter_cons_of_neg (by simp; intro hca; exact absurd (lt_of_lt_of_le hat hca) (lt_irrefl a)),
        List.filter_cons_of_neg (by simp; intro hca; exact absurd (lt_of_lt_of_le (lt_trans hat hii') hca) (lt_irrefl a))]
      exact ih hpw.2 hits' fun t ht hlt => hgap t (List.mem_cons_of_mem a ht) hlt

theorem filter_window_exit (ts : List ℚ) {i : ℚ} (h : 1 ≤ i) :
    ts.filter (fun t => i ≤ t ∧ t < 1) = [] := by
  rw [List.filter_eq_nil_iff]
  intro t _
  simp only [decide_eq_true_eq, not_and]
  intro hit ht
  linarith

/-- The index for strand `s` after the merge-loop iteration at time `i`, when the
current index is `k`: unchanged on interpolation, advanced when the sample at `k`
is consumed. -/
def nidx (i : ℚ) (s : Strand) (k : ℕ) : ℕ := if i < timeAt s k then k else k + 1

/-- Fuel measure for the merge loop: the number of unconsumed samples. -/
def msr (L : List Strand) (idx : List ℕ) : ℕ :=
  ∑ j ∈ Finset.range L.length, ((L.getD j []).length - idx.getD j 0)

theorem mergeLoop_run (L : List Strand) (hwf : ∀ s ∈ L, StrandWF s) :
    ∀ (fuel : ℕ) (idx : List ℕ) (i : ℚ) (acc : List (List Point)),
    idx.length = L.length →
    acc.length = L.length →
    (∀ j, j < L.length → 1 ≤ idx.getD j 0 ∧ idx.getD j 0 < (L.getD j []).length) →
    (∀ j, j < L.length → timeAt (L.getD j []) (idx.getD j 0 - 1) < i) →
    (∀ j, j < L.length → i ≤ timeAt (L.getD j []) (idx.getD j 0)) →
    (∃ j, j < L.length ∧ i = timeAt (L.getD j []) (idx.getD j 0)) →
    msr L idx < fuel →
    mergeLoop L fuel idx i acc = some
      (acc.zipWith (fun row s => row ++
        ((mergedTimes L).filter fun t => i ≤ t ∧ t < 1).map (strandAt s)) L) := by
  intro fuel
  induction fuel with
  | zero =>
    intro idx i acc _ _ _ _ _ _ hm
    omega
  | succ f ih =>
    intro idx i acc hlen halen hA hB hC hEx hfuel
    have hwfj : ∀ j, j < L.length → StrandWF (L.getD j []) := by
      intro j hj
      rw [List.getD_eq_getElem _ _ hj]
      exact hwf _ (List.getElem_mem hj)
    rw [mergeLoop]
    by_cases hi1 : i < 1
    case neg =>
      rw [if_neg hi1, filter_window_exit _ (not_lt.mp hi1)]
      congr 1
      apply List.ext_getElem
      · rw [List.length_zipWith]
        omega
      · intro n h1 h2
        rw [List.getElem_zipWith]
        simp
    case pos =>
      rw [if_pos hi1]
      have hpass : ∀ p ∈ L.zip idx,
          mergePass1 p.1 p.2 i = some (strandAt p.1 i, nidx i p.1 p.2) := by
        intro p hp
        obtain ⟨j, hj1, hj2, hps, hpk⟩ := mem_zip_index hp
        rw [← hps, ← hpk]
        have hAk := hA j hj1
        have hBk := hB j hj1
        have hCk := hC j hj1
        have hwfs := hwfj j hj1
        rw [mergePass1, get?_eq_sampleAt (by omega : idx.getD j 0 < (L.getD j []).length)]
        simp only [Option.some_bind]
        rw [show (sampleAt (L.getD j []) (idx.getD j 0)).1 =
          timeAt (L.getD j []) (idx.getD j 0) from rfl]
        by_cases hbr : i < timeAt (L.getD j []) (idx.getD j 0)
        · rw [if_pos hbr,
            get?_eq_sampleAt (by omega : idx.getD j 0 - 1 < (L.getD j []).length)]
          simp only [Option.map_some']
          rw [nidx, if_pos hbr]
          refine congrArg some (Prod.ext ?_ rfl)
          exact (strandAt_bracket (idx.getD j 0 - 1) (L.getD j []) hwfs.2.1
            (get?_eq_sampleAt (by omega))
            (by rw [show idx.getD j 0 - 1 + 1 = idx.getD j 0 from by omega]
                exact get?_eq_sampleAt (by omega))
            (le_of_lt hBk) hbr).symm
        · rw [if_neg hbr]
          have he : timeAt (L.getD j []) (idx.getD j 0) = i :=
            le_antisymm (not_lt.mp hbr) hCk
          rw [nidx, if_neg hbr]
          refine congrArg some (Prod.ext ?_ rfl)
          rw [← he, strandAt_sample hwfs (by omega : idx.getD j 0 < (L.getD j []).length)]
      have hbody : mergeBody L idx i =
          some ((L.zip idx).map fun p => (strandAt p.1 i, nidx i p.1 p.2)) :=
        mapOpt_forall_some hpass
      rw [hbody]
      simp only [Option.bind_eq_bind, Option.some_bind]
      have hmap2 : (((L.zip idx).map fun p => (strandAt p.1 i, nidx i p.1 p.2)).map (·.2)) =
          (L.zip idx).map fun p => nidx i p.1 p.2 := by
        rw [List.map_map]
        rfl
      rw [hmap2]
      set idx2 : List ℕ := (L.zip idx).map fun p => nidx i p.1 p.2 with hidx2
      have hlen2 : idx2.length = L.length := by
        rw [hidx2, List.length_map, List.length_zip]
        omega
      have hgd : ∀ j, j < L.length →
          idx2.getD j 0 = nidx i (L.getD j []) (idx.getD j 0) := by
        intro j hj
        rw [hidx2, List.getD_eq_getElem _ _ (by rw [List.length_map, List.length_zip]; omega),
          List.getElem_map, List.getElem_zip, List.getD_eq_getElem _ _ hj,
          List.getD_eq_getElem _ _ (by omega)]
      have hA2 : ∀ j, j < L.length →
          1 ≤ idx2.getD j 0 ∧ idx2.getD j 0 < (L.getD j []).length := by
        intro j hj
        rw [hgd j hj, nidx]
        have hAk := hA j hj
        have hCk := hC j hj
        by_cases hbr : i < timeAt (L.getD j []) (idx.getD j 0)
        · rw [if_pos hbr]
          exact hAk
        · rw [if_neg hbr]
          have he : timeAt (L.getD j []) (idx.getD j 0) = i :=
            le_antisymm (not_lt.mp hbr) hCk
          have hlast := timeAt_last (hwfj j hj)
          refine ⟨by omega, ?_⟩
          by_contra hc
          have h1 : idx.getD j 0 = (L.getD j []).length - 1 := by omega
          rw [h1, hlast] at he
          rw [← he] at hi1
          exact absurd hi1 (lt_irrefl 1)
      have hB2 : ∀ j, j < L.length →
          timeAt (L.getD j []) (idx2.getD j 0 - 1) ≤ i := by
        intro j hj
        rw [hgd j hj, nidx]
        by_cases hbr : i < timeAt (L.getD j []) (idx.getD j 0)
        · rw [if_pos hbr]
          exact le_of_lt (hB j hj)
        · rw [if_neg hbr]
          simp only [Nat.add_sub_cancel]
          exact not_lt.mp hbr
      have hT2 : ∀ j, j < L.length → i < timeAt (L.getD j []) (idx2.getD j 0) := by
        intro j hj
        rw [hgd j hj, nidx]
        by_cases hbr : i < timeAt (L.getD j []) (idx.getD j 0)
        · rw [if_pos hbr]
          exact hbr
        · rw [if_neg hbr]
          have he : timeAt (L.getD j []) (idx.getD j 0) = i :=
            le_antisymm (not_lt.mp hbr) (hC j hj)
          have h2 := timeAt_lt (hwfj j hj).2.1
            (by omega : idx.getD j 0 < idx.getD j 0 + 1)
            (by have := (hA2 j hj).2; rw [hgd j hj, nidx, if_neg hbr] at this; exact this)
          rw [he] at h2
          exact h2
      have htl : mapOpt (fun si => (si.1.get? si.2).map (·.1)) (L.zip idx2) =
          some ((L.zip idx2).map fun p => timeAt p.1 p.2) := by
        refine mapOpt_forall_some ?_
        intro p hp
        obtain ⟨j, hj1, hj2, hps, hpk⟩ := mem_zip_index hp
        rw [← hps, ← hpk,
          get?_eq_sampleAt (by have := (hA2 j hj1).2; omega : idx2.getD j 0 < (L.getD j []).length)]
        simp only [Option.map_some']
        rfl
      set tl : List ℚ := (L.zip idx2).map fun p => timeAt p.1 p.2 with htldef
      have htllen : tl.length = L.length := by
        rw [htldef, List.length_map, List.length_zip]
        omega
      have htlget : ∀ j, j < L.length →
          timeAt (L.getD j []) (idx2.getD j 0) ∈ tl := by
        intro j hj
        rw [htldef]
        have hj2b : j < idx2.length := by omega
        have hmem : (L[j], idx2[j]) ∈ L.zip idx2 := by
          rw [← List.getElem_zip (h := by rw [List.length_zip]; omega)]
          exact List.getElem_mem _
        have := List.mem_map_of_mem (fun p : Strand × ℕ => timeAt p.1 p.2) hmem
        rw [List.getD_eq_getElem _ _ hj, List.getD_eq_getElem _ _ (by omega : j < idx2.length)]
        exact this
      have htlmem : ∀ b ∈ tl, ∃ j, j < L.length ∧
          b = timeAt (L.getD j []) (idx2.getD j 0) := by
        intro b hb
        rw [htldef] at hb
        obtain ⟨p, hp, hpb⟩ := List.mem_map.mp hb
        obtain ⟨j, hj1, hj2, hps, hpk⟩ := mem_zip_index hp
        exact ⟨j, hj1, by rw [← hpb, ← hps, ← hpk]⟩
      have htlne : tl ≠ [] := by
        obtain ⟨j0, hj0, _⟩ := hEx
        intro hc
        rw [hc] at htllen
        simp only [List.length_nil] at htllen
        omega
      obtain ⟨i', hmin⟩ : ∃ i', tl.min? = some i' := by
        cases h : tl.min? with
        | none => exact absurd (List.min?_eq_none_iff.mp h) htlne
        | some v => exact ⟨v, rfl⟩
      have hnext : nextTime L idx2 = some i' := by
        rw [nextTime, htl]
        simpa using hmin
      rw [hnext]
      simp only [Option.bind_eq_bind, Option.some_bind]
      haveI : Std.Antisymm ((· ≤ ·) : ℚ → ℚ → Prop) := ⟨fun h1 h2 => le_antisymm h1 h2⟩
      have hmm := (List.min?_eq_some_iff (fun a => le_refl a) (fun a b => min_choice a b)
        (fun a b c => le_min_iff)).mp hmin
      have hii' : i < i' := by
        obtain ⟨j, hj, hji⟩ := htlmem i' hmm.1
        rw [hji]
        exact hT2 j hj
      have hC2 : ∀ j, j < L.length → i' ≤ timeAt (L.getD j []) (idx2.getD j 0) := by
        intro j hj
        exact hmm.2 _ (htlget j hj)
      have hEx2 : ∃ j, j < L.length ∧ i' = timeAt (L.getD j []) (idx2.getD j 0) :=
        htlmem i' hmm.1
      -- the crossing time i is in the merged grid
      have himem : i ∈ mergedTimes L := by
        obtain ⟨j0, hj0, hji⟩ := hEx
        have hA0 := hA j0 hj0
        refine sample_mem_mergedTimes ?_ ?_ hi1
        · have hb : idx.getD j0 0 < (L.getD j0 []).length := hA0.2
          rw [List.getD_eq_getElem _ _ hj0] at hb
          rw [hji, List.getD_eq_getElem _ _ hj0]
          exact timeAt_mem_sampleTimes (List.getElem_mem hj0) hb
        · rw [hji]
          exact timeAt_pos (hwfj j0 hj0) hA0.1 hA0.2
      -- between i and i' there is no merged time
      have hgap : ∀ t ∈ mergedTimes L, i < t → i' ≤ t := by
        intro t ht hit
        rcases mem_mergedTimes.mp ht with h0 | h1t | ⟨hsamp, ht0, ht1⟩
        · -- t = 0: impossible since 0 ≤ i < t
          obtain ⟨j0, hj0, hji⟩ := hEx
          have := timeAt_nonneg (hwfj j0 hj0) (hA j0 hj0).2
          rw [← hji] at this
          rw [h0] at hit
          linarith
        · -- t = 1: i' is a sample time, hence at most 1
          obtain ⟨j, hj, hji⟩ := hEx2
          rw [h1t]
          rw [hji]
          exact timeAt_le_one (hwfj j hj) (hA2 j hj).2
        · -- t is a sample time: on its strand it lies at an index ≥ the new index
          rw [sampleTimes, List.mem_flatMap] at hsamp
          obtain ⟨s, hsL, hts⟩ := hsamp
          obtain ⟨⟨j, hj⟩, hgj⟩ := List.mem_iff_get.mp hsL
          rw [List.get_eq_getElem] at hgj
          obtain ⟨a, haS, hat⟩ := List.mem_map.mp hts
          obtain ⟨⟨m, hmlt⟩, hgm⟩ := List.mem_iff_get.mp haS
          rw [List.get_eq_getElem] at hgm
          have hsj : L.getD j [] = s := by rw [List.getD_eq_getElem _ _ hj, hgj]
          have htm : t = timeAt s m := by
            rw [timeAt_eq_getElem hmlt, hgm, hat]
          have hwfs : StrandWF s := hwf s hsL
          have hmge : idx2.getD j 0 ≤ m := by
            by_contra hc
            have hlb : idx2.getD j 0 - 1 < s.length := by
              have := (hA2 j hj).2
              rw [hsj] at this
              omega
            have h2 : timeAt s m ≤ timeAt s (idx2.getD j 0 - 1) :=
              timeAt_le hwfs.2.1 (by omega) hlb
            have h3 := hB2 j hj
            rw [hsj] at h3
            rw [← htm] at h2
            linarith
          have h4 : timeAt s (idx2.getD j 0) ≤ timeAt s m :=
            timeAt_le hwfs.2.1 hmge hmlt
          have h5 := hC2 j hj
          rw [hsj] at h5
          rw [htm]
          linarith
      have hfilter : (mergedTimes L).filter (fun t => i ≤ t ∧ t < 1) =
          i :: (mergedTimes L).filter (fun t => i' ≤ t ∧ t < 1) :=
        filter_window_step (mergedTimes_pairwise L) himem hi1 hii' hgap
      -- measure decreases
      have hmsr : msr L idx2 < msr L idx := by
        obtain ⟨j0, hj0, hji⟩ := hEx
        have hneg : ¬ i < timeAt (L.getD j0 []) (idx.getD j0 0) := by
          rw [← hji]
          exact lt_irrefl i
        have hstrict : (L.getD j0 []).length - idx2.getD j0 0 <
            (L.getD j0 []).length - idx.getD j0 0 := by
          rw [hgd j0 hj0, nidx, if_neg hneg]
          have hlt := (hA j0 hj0).2
          omega
        have hle : ∀ j ∈ Finset.range L.length,
            (L.getD j []).length - idx2.getD j 0 ≤
              (L.getD j []).length - idx.getD j 0 := by
          intro j hj
          rw [Finset.mem_range] at hj
          rw [hgd j hj, nidx]
          split <;> omega
        rw [msr, msr]
        exact Finset.sum_lt_sum hle ⟨j0, Finset.mem_range.mpr hj0, hstrict⟩
      -- the recursive call
      have hrec := ih idx2 i'
        (acc.zipWith (fun row p => row ++ [p.1])
          ((L.zip idx).map fun p => (strandAt p.1 i, nidx i p.1 p.2)))
        hlen2
        (by rw [List.length_zipWith, List.length_map, List.length_zip]; omega)
        hA2
        (fun j hj => lt_of_le_of_lt (hB2 j hj) hii')
        hC2
        hEx2
        (by omega)
      rw [hrec, hfilter]
      congr 1
      apply List.ext_getElem
      · rw [List.length_zipWith, List.length_zipWith, List.length_zipWith,
          List.length_map, List.length_zip]
        omega
      · intro n h1 h2
        rw [List.getElem_zipWith, List.getElem_zipWith, List.getElem_zipWith,
          List.getElem_map, List.getElem_zip]
        simp only [List.map_cons]
        rw [List.append_assoc]
        rfl

theorem totalLen_eq (L : List Strand) :
    ∑ j ∈ Finset.range L.length, (L.getD j []).length = totalLen L := by
  induction L with
  | nil => simp [totalLen]
  | cons s t ih =>
    rw [List.length_cons, Finset.sum_range_succ']
    simp only [List.getD_cons_succ, List.getD_cons_zero]
    rw [ih, totalLen, totalLen]
    simp [Nat.add_comm]

theorem strandAt_zero {s : Strand} (hwf : StrandWF s) :
    strandAt s 0 = (sampleAt s 0).2 := by
  have h := strandAt_sample hwf (k := 0) (by have := hwf.1; omega)
  rw [timeAt_zero hwf] at h
  exact h

theorem strandAt_one {s : Strand} (hwf : StrandWF s) :
    strandAt s 1 = (sampleAt s (s.length - 1)).2 := by
  have h := strandAt_sample hwf (k := s.length - 1) (by have := hwf.1; omega)
  rw [timeAt_last hwf] at h
  exact h

theorem totalpointsOf_run (L : List Strand) (hwf : ∀ s ∈ L, StrandWF s) (hne : L ≠ []) :
    totalpointsOf L = some (L.map fun s => (mergedTimes L).map (strandAt s)) := by
  have hwfj : ∀ j, j < L.length → StrandWF (L.getD j []) := by
    intro j hj
    rw [List.getD_eq_getElem _ _ hj]
    exact hwf _ (List.getElem_mem hj)
  have h1 : mapOpt (fun s => (s.get? 1).map (·.1)) L = some (L.map fun s => timeAt s 1) := by
    refine mapOpt_forall_some ?_
    intro s hs
    rw [get?_eq_sampleAt (by have := (hwf s hs).1; omega : 1 < s.length)]
    simp only [Option.map_some']
    rfl
  have htsne : (L.map fun s => timeAt s 1) ≠ [] := by
    intro hc
    exact hne (List.map_eq_nil_iff.mp hc)
  obtain ⟨i0, hmin0⟩ : ∃ i0, (L.map fun s => timeAt s 1).min? = some i0 := by
    cases h : (L.map fun s => timeAt s 1).min? with
    | none => exact absurd (List.min?_eq_none_iff.mp h) htsne
    | some v => exact ⟨v, rfl⟩
  haveI : Std.Antisymm ((· ≤ ·) : ℚ → ℚ → Prop) := ⟨fun h1 h2 => le_antisymm h1 h2⟩
  have hmm := (List.min?_eq_some_iff (fun a => le_refl a) (fun a b => min_choice a b)
    (fun a b c => le_min_iff)).mp hmin0
  obtain ⟨s0, hs0L, hs0⟩ := List.mem_map.mp hmm.1
  have hi0pos : 0 < i0 := by
    rw [← hs0]
    exact timeAt_pos (hwf s0 hs0L) (le_refl 1) (by have := (hwf s0 hs0L).1; omega)
  have hi0le : ∀ s ∈ L, i0 ≤ timeAt s 1 := fun s hs =>
    hmm.2 _ (List.mem_map_of_mem _ hs)
  have h3 : mapOpt (fun s => (s.get? 0).map fun a => [a.2]) L =
      some (L.map fun s => [(sampleAt s 0).2]) := by
    refine mapOpt_forall_some ?_
    intro s hs
    rw [get?_eq_sampleAt (by have := (hwf s hs).1; omega : 0 < s.length)]
    simp only [Option.map_some']
  have h5 : mapOpt List.getLast? L =
      some (L.map fun s => sampleAt s (s.length - 1)) := by
    refine mapOpt_forall_some ?_
    intro s hs
    have hsne : s ≠ [] := by
      intro hc
      have := (hwf s hs).1
      rw [hc] at this
      simp at this
    rw [List.getLast?_eq_getLast _ hsne, List.getLast_eq_getElem _ hsne,
      sampleAt, List.getD_eq_getElem _ _ (by have := List.length_pos.mpr hsne; omega)]
  -- the loop invariant holds initially
  have hidx0 : ∀ j, j < L.length → (L.map fun _ => 1).getD j 0 = 1 := by
    intro j hj
    rw [List.getD_eq_getElem _ _ (by rw [List.length_map]; omega), List.getElem_map]
  have hloop := mergeLoop_run L hwf (totalLen L + 1) (L.map fun _ => 1) i0
    (L.map fun s => [(sampleAt s 0).2])
    (by rw [List.length_map])
    (by rw [List.length_map])
    (by
      intro j hj
      rw [hidx0 j hj]
      exact ⟨le_refl 1, by have := (hwfj j hj).1; omega⟩)
    (by
      intro j hj
      rw [hidx0 j hj]
      simp only [Nat.sub_self]
      rw [timeAt_zero (hwfj j hj)]
      exact hi0pos)
    (by
      intro j hj
      rw [hidx0 j hj]
      refine hi0le _ ?_
      rw [List.getD_eq_getElem _ _ hj]
      exact List.getElem_mem hj)
    (by
      obtain ⟨⟨j, hj⟩, hgj⟩ := List.mem_iff_get.mp hs0L
      rw [List.get_eq_getElem] at hgj
      refine ⟨j, hj, ?_⟩
      rw [hidx0 j hj, List.getD_eq_getElem _ _ hj, hgj, hs0])
    (by
      have hle : msr L (L.map fun _ => 1) ≤ totalLen L := by
        rw [msr, ← totalLen_eq]
        refine Finset.sum_le_sum ?_
        intro j hj
        omega
      omega)
  -- the filtered window at i0 is exactly the sorted interior times
  have hfilt : (mergedTimes L).filter (fun t => i0 ≤ t ∧ t < 1) =
      List.insertionSort (· ≤ ·) (interiorTimes L) := by
    rw [mergedTimes, List.filter_cons_of_neg (by simpa using hi0pos),
      List.filter_append]
    have hS : (List.insertionSort (· ≤ ·) (interiorTimes L)).filter
        (fun t => i0 ≤ t ∧ t < 1) = List.insertionSort (· ≤ ·) (interiorTimes L) := by
      rw [List.filter_eq_self]
      intro t ht
      obtain ⟨hsamp, ht0, ht1⟩ := mem_interiorSorted.mp ht
      simp only [decide_eq_true_eq]
      refine ⟨?_, ht1⟩
      rw [sampleTimes, List.mem_flatMap] at hsamp
      obtain ⟨s, hsL, hts⟩ := hsamp
      obtain ⟨a, haS, hat⟩ := List.mem_map.mp hts
      obtain ⟨⟨m, hmlt⟩, hgm⟩ := List.mem_iff_get.mp haS
      rw [List.get_eq_getElem] at hgm
      have htm : t = timeAt s m := by
        rw [timeAt_eq_getElem hmlt, hgm, hat]
      have hm1 : 1 ≤ m := by
        by_contra hc
        have hm0 : m = 0 := by omega
        rw [htm, hm0, timeAt_zero (hwf s hsL)] at ht0
        exact absurd ht0 (lt_irrefl 0)
      have := timeAt_le (hwf s hsL).2.1 hm1 hmlt
      rw [htm]
      exact le_trans (hi0le s hsL) this
    rw [hS, List.filter_singleton]
    simp
  rw [totalpointsOf]
  simp only [h1, h3, h5, Option.bind_eq_bind, Option.some_bind, hmin0, hloop, hfilt]
  congr 1
  apply List.ext_getElem
  · rw [List.length_zipWith, List.length_zipWith, List.length_map, List.length_map,
      List.length_map]
    omega
  · intro n hn1 hn2
    rw [List.length_zipWith, List.length_zipWith, List.length_map, List.length_map] at hn1
    have hnL : n < L.length := by omega
    rw [List.getElem_zipWith, List.getElem_zipWith, List.getElem_map, List.getElem_map,
      List.getElem_map]
    simp only [mergedTimes]
    simp only [List.map_cons, List.map_append, List.map_cons, List.map_nil]
    have hwfn : StrandWF L[n] := hwf _ (List.getElem_mem hnL)
    rw [← List.getD_eq_getElem L [] hnL]
    rw [strandAt_zero (by rw [List.getD_eq_getElem L [] hnL]; exact hwfn),
      strandAt_one (by rw [List.getD_eq_getElem L [] hnL]; exact hwfn)]
    simp

theorem slicePairCrossings_parallel (l1 l2 : List Point)
    (hS : (l1.zip l2).Pairwise fun a b =>
      (pLt a.1 b.1 ∧ pLt a.2 b.2) ∨ (pLt b.1 a.1 ∧ pLt b.2 a.2)) :
    slicePairCrossings l1 l2 = [] := by
  have hsym : Symmetric (α := Point × Point) (fun a b =>
      (pLt a.1 b.1 ∧ pLt a.2 b.2) ∨ (pLt b.1 a.1 ∧ pLt b.2 a.2)) := by
    intro a b h
    tauto
  have hM : (List.insertionSort mLe (l1.zip l2)).Pairwise (fun a b =>
      (pLt a.1 b.1 ∧ pLt a.2 b.2) ∨ (pLt b.1 a.1 ∧ pLt b.2 a.2)) :=
    ((List.perm_insertionSort mLe (l1.zip l2)).pairwise_iff (fun h => hsym h)).mpr hS
  have hsorted : (List.insertionSort mLe (l1.zip l2)).Pairwise mLe :=
    List.sorted_insertionSort mLe _
  rw [slicePairCrossings]
  apply List.flatMap_eq_nil_iff.mpr
  intro j hj
  rw [List.mem_range] at hj
  apply List.filterMap_eq_nil_iff.mpr
  intro k hk
  rw [List.mem_range] at hk
  have hklen : k < (List.insertionSort mLe (l1.zip l2)).length := lt_trans hk hj
  have hSkj := (List.pairwise_iff_getElem.mp hM) k j hklen hj hk
  have hmle := (List.pairwise_iff_getElem.mp hsorted) k j hklen hj hk
  have hsp : sortedPair l1 l2 k = (List.insertionSort mLe (l1.zip l2))[k] := by
    rw [sortedPair, List.getD_eq_getElem _ _ hklen]
  have hsp2 : sortedPair l1 l2 j = (List.insertionSort mLe (l1.zip l2))[j] := by
    rw [sortedPair, List.getD_eq_getElem _ _ hj]
  rw [if_neg]
  rw [sortedSnd, sortedSnd, hsp, hsp2]
  rcases hSkj with ⟨h1, h2⟩ | ⟨h1, h2⟩
  · exact pLt_asymm h2
  · rcases hmle with hm | ⟨hm, _⟩
    · exact absurd hm (pLt_asymm h1)
    · rw [hm] at h1
      exact absurd h1 (pLt_irrefl _)

theorem slicePairWord_parallel (l1 l2 : List Point)
    (hS : (l1.zip l2).Pairwise fun a b =>
      (pLt a.1 b.1 ∧ pLt a.2 b.2) ∨ (pLt b.1 a.1 ∧ pLt b.2 a.2)) :
    slicePairWord l1 l2 = [] := by
  rw [slicePairWord, slicePairCrossings_parallel l1 l2 hS]
  simp

/-- **C7.**  For every family of parallel non-crossing strands — pairwise, one strand
lies strictly on the same side of the other (in the lexicographic plane order used by
the code) at every merged sample time — `braid_from_piecewise` returns the empty
braid word, the identity of the braid group. -/
theorem braidFromPiecewise_parallel (L : List Strand)
    (hwf : ∀ s ∈ L, StrandWF s) (hne : L ≠ [])
    (hpar : L.Pairwise fun s1 s2 =>
      (∀ t ∈ mergedTimes L, pLt (strandAt s1 t) (strandAt s2 t)) ∨
      (∀ t ∈ mergedTimes L, pLt (strandAt s2 t) (strandAt s1 t))) :
    braidFromPiecewise L = some [] := by
  have hslice : ∀ i, i < (mergedTimes L).length →
      sliceOf (L.map fun s => (mergedTimes L).map (strandAt s)) i =
        some (L.map fun s => strandAt s ((mergedTimes L).getD i 0)) := by
    intro i hi
    rw [sliceOf, mapOpt_map]
    refine mapOpt_forall_some ?_
    intro s _
    rw [List.get?_eq_getElem?, List.getElem?_map,
      List.getElem?_eq_getElem hi, Option.map_some', List.getD_eq_getElem _ _ hi]
  have hpair : ∀ i, i < (mergedTimes L).length - 1 →
      ((L.map fun s => strandAt s ((mergedTimes L).getD i 0)).zip
        (L.map fun s => strandAt s ((mergedTimes L).getD (i + 1) 0))).Pairwise
          fun a b => (pLt a.1 b.1 ∧ pLt a.2 b.2) ∨ (pLt b.1 a.1 ∧ pLt b.2 a.2) := by
    intro i hi
    rw [List.zip_map']
    rw [List.pairwise_map]
    have hti : (mergedTimes L).getD i 0 ∈ mergedTimes L := by
      rw [List.getD_eq_getElem _ _ (by omega)]
      exact List.getElem_mem _
    have hti1 : (mergedTimes L).getD (i + 1) 0 ∈ mergedTimes L := by
      rw [List.getD_eq_getElem _ _ (by omega)]
      exact List.getElem_mem _
    refine hpar.imp ?_
    intro s1 s2 h
    rcases h with h | h
    · exact Or.inl ⟨h _ hti, h _ hti1⟩
    · exact Or.inr ⟨h _ hti, h _ hti1⟩
  rw [braidFromPiecewise, totalpointsOf_run L hwf hne]
  simp only [Option.bind_eq_bind, Option.some_bind]
  obtain ⟨s₀, L0, rfl⟩ : ∃ a l, L = a :: l := by
    cases L with
    | nil => exact absurd rfl hne
    | cons a l => exact ⟨a, l, rfl⟩
  have hhead : ((((s₀ :: L0).map fun s => (mergedTimes (s₀ :: L0)).map (strandAt s)).headD []).length)
      = (mergedTimes (s₀ :: L0)).length := by
    simp
  rw [hhead]
  have hwords : mapOpt (fun i =>
      (sliceOf ((s₀ :: L0).map fun s => (mergedTimes (s₀ :: L0)).map (strandAt s)) i).bind
        fun l1 =>
      (sliceOf ((s₀ :: L0).map fun s => (mergedTimes (s₀ :: L0)).map (strandAt s)) (i + 1)).bind
        fun l2 => pure (slicePairWord l1 l2)) (List.range ((mergedTimes (s₀ :: L0)).length - 1)) =
      some ((List.range ((mergedTimes (s₀ :: L0)).length - 1)).map fun _ => ([] : List ℤ)) := by
    refine mapOpt_forall_some ?_
    intro i hi
    rw [List.mem_range] at hi
    rw [hslice i (by omega), hslice (i + 1) (by
      have h2 : 0 < (mergedTimes (s₀ :: L0)).length := by
        rw [mergedTimes]
        simp
      omega)]
    simp only [Option.bind_eq_bind, Option.some_bind, Option.pure_def]
    rw [slicePairWord_parallel _ _ (hpair i hi)]
  rw [hwords]
  simp only [Option.bind_eq_bind, Option.some_bind, Option.pure_def]
  congr 1
  rw [List.flatten_eq_nil_iff]
  intro l hl
  rcases List.mem_map.mp hl with ⟨_, _, h⟩
  exact h.symm

theorem mergedTimes_two_parallel : mergedTimes
    [[((0:ℚ), ((0:ℚ), (0:ℚ))), (1, (0, 0))], [(0, ((1:ℚ), (0:ℚ))), (1, (1, 0))]] =
    [0, 1] := by
  norm_num [mergedTimes, interiorTimes, sampleTimes, List.flatMap, List.dedup,
    List.insertionSort]

/-- Witness for C7: two constant parallel strands, at `0` and at `1`. -/
theorem braidFromPiecewise_parallel_witness :
    (∀ s ∈ ([[((0:ℚ), ((0:ℚ), (0:ℚ))), (1, (0, 0))],
        [(0, ((1:ℚ), (0:ℚ))), (1, (1, 0))]] : List Strand), StrandWF s) ∧
    ([[((0:ℚ), ((0:ℚ), (0:ℚ))), (1, (0, 0))],
        [(0, ((1:ℚ), (0:ℚ))), (1, (1, 0))]] : List Strand) ≠ [] ∧
    ([[((0:ℚ), ((0:ℚ), (0:ℚ))), (1, (0, 0))],
        [(0, ((1:ℚ), (0:ℚ))), (1, (1, 0))]] : List Strand).Pairwise (fun s1 s2 =>
      (∀ t ∈ mergedTimes [[((0:ℚ), ((0:ℚ), (0:ℚ))), (1, (0, 0))],
          [(0, ((1:ℚ), (0:ℚ))), (1, (1, 0))]],
        pLt (strandAt s1 t) (strandAt s2 t)) ∨
      (∀ t ∈ mergedTimes [[((0:ℚ), ((0:ℚ), (0:ℚ))), (1, (0, 0))],
          [(0, ((1:ℚ), (0:ℚ))), (1, (1, 0))]],
        pLt (strandAt s2 t) (strandAt s1 t))) ∧
    braidFromPiecewise [[((0:ℚ), ((0:ℚ), (0:ℚ))), (1, (0, 0))],
        [(0, ((1:ℚ), (0:ℚ))), (1, (1, 0))]] = some [] := by
  have hwf : ∀ s ∈ ([[((0:ℚ), ((0:ℚ), (0:ℚ))), (1, (0, 0))],
      [(0, ((1:ℚ), (0:ℚ))), (1, (1, 0))]] : List Strand), StrandWF s := by
    intro s hs
    rcases List.mem_cons.mp hs with rfl | hs
    · refine ⟨by norm_num, ?_, by norm_num, by norm_num⟩
      norm_num [List.pairwise_cons]
    · rcases List.mem_cons.mp hs with rfl | hs
      · refine ⟨by norm_num, ?_, by norm_num, by norm_num⟩
        norm_num [List.pairwise_cons]
      · simp at hs
  have hne : ([[((0:ℚ), ((0:ℚ), (0:ℚ))), (1, (0, 0))],
      [(0, ((1:ℚ), (0:ℚ))), (1, (1, 0))]] : List Strand) ≠ [] := by simp
  have hpar : ([[((0:ℚ), ((0:ℚ), (0:ℚ))), (1, (0, 0))],
      [(0, ((1:ℚ), (0:ℚ))), (1, (1, 0))]] : List Strand).Pairwise (fun s1 s2 =>
      (∀ t ∈ mergedTimes [[((0:ℚ), ((0:ℚ), (0:ℚ))), (1, (0, 0))],
          [(0, ((1:ℚ), (0:ℚ))), (1, (1, 0))]],
        pLt (strandAt s1 t) (strandAt s2 t)) ∨
      (∀ t ∈ mergedTimes [[((0:ℚ), ((0:ℚ), (0:ℚ))), (1, (0, 0))],
          [(0, ((1:ℚ), (0:ℚ))), (1, (1, 0))]],
        pLt (strandAt s2 t) (strandAt s1 t))) := by
    rw [List.pairwise_cons]
    refine ⟨?_, by simp⟩
    intro s2 hs2
    rcases List.mem_cons.mp hs2 with rfl | hs2
    · refine Or.inl ?_
      intro t ht
      rw [mergedTimes_two_parallel] at ht
      rcases List.mem_cons.mp ht with rfl | ht
      · norm_num [strandAt, interpola, pLt]
      · rcases List.mem_cons.mp ht with rfl | ht
        · norm_num [strandAt, interpola, pLt]
        · simp at ht
    · simp at hs2
  exact ⟨hwf, hne, hpar, braidFromPiecewise_parallel _ hwf hne hpar⟩

/-- Insert an extra sample `(τ, v)` into a strand, keeping the samples ordered by
time. -/
def insertSample (s : Strand) (τ : ℚ) (v : Point) : Strand :=
  match s with
  | [] => [(τ, v)]
  | a :: rest => if τ < a.1 then (τ, v) :: a :: rest else a :: insertSample rest τ v

theorem length_insertSample (τ : ℚ) (v : Point) :
    ∀ s : Strand, (insertSample s τ v).length = s.length + 1 := by
  intro s
  induction s with
  | nil => rfl
  | cons a rest ih =>
    rw [insertSample]
    split
    · simp
    · simp [ih]

theorem insertSample_ne_nil (τ : ℚ) (v : Point) (s : Strand) :
    insertSample s τ v ≠ [] := by
  intro hc
  have := congrArg List.length hc
  rw [length_insertSample] at this
  simp at this

theorem mem_insertSample_times (τ : ℚ) (v : Point) :
    ∀ (s : Strand) (t' : ℚ), t' ∈ (insertSample s τ v).map (·.1) ↔
      t' = τ ∨ t' ∈ s.map (·.1) := by
  intro s
  induction s with
  | nil => intro t'; simp [insertSample]
  | cons a rest ih =>
    intro t'
    rw [insertSample]
    split
    · simp
    · simp only [List.map_cons, List.mem_cons, ih]
      tauto

theorem insertSample_pairwise {s : Strand} (hpw : (s.map (·.1)).Pairwise (· < ·))
    {τ : ℚ} (hfresh : τ ∉ s.map (·.1)) (v : Point) :
    ((insertSample s τ v).map (·.1)).Pairwise (· < ·) := by
  induction s with
  | nil => simp [insertSample]
  | cons a rest ih =>
    simp only [List.map_cons, List.pairwise_cons] at hpw
    simp only [List.map_cons, List.mem_cons, not_or] at hfresh
    rw [insertSample]
    split
    case isTrue h =>
      simp only [List.map_cons, List.pairwise_cons]
      refine ⟨?_, hpw⟩
      intro b hb
      rcases List.mem_cons.mp hb with rfl | hb
      · exact h
      · exact lt_trans h (hpw.1 b hb)
    case isFalse h =>
      have haτ : a.1 < τ := lt_of_le_of_ne (not_lt.mp h) fun hc => hfresh.1 hc.symm
      simp only [List.map_cons, List.pairwise_cons]
      refine ⟨?_, ih hpw.2 hfresh.2⟩
      intro b hb
      rcases (mem_insertSample_times τ v rest b).mp hb with rfl | hb
      · exact haτ
      · exact hpw.1 b hb

theorem insertSample_getLast? (τ : ℚ) (v : Point) :
    ∀ (s : Strand) (hne : s ≠ []), τ < (s.getLast hne).1 →
      (insertSample s τ v).getLast? = s.getLast? := by
  intro s
  induction s with
  | nil => intro hne; exact absurd rfl hne
  | cons a rest ih =>
    intro hne hτ
    match rest, ih with
    | [], _ =>
      simp only [List.getLast_singleton] at hτ
      rw [insertSample, if_pos hτ]
      rfl
    | b :: rest', ih =>
      rw [List.getLast_cons (by simp)] at hτ
      rw [insertSample]
      split
      · rw [List.getLast?_cons_cons]
      · obtain ⟨c, tail', heq⟩ : ∃ c t', insertSample (b :: rest') τ v = c :: t' := by
          cases hmm : insertSample (b :: rest') τ v with
          | nil => exact absurd hmm (insertSample_ne_nil τ v _)
          | cons c t' => exact ⟨c, t', rfl⟩
        rw [heq, List.getLast?_cons_cons, ← heq, ih (by simp) hτ,
          List.getLast?_cons_cons]

theorem insertSample_wf {s : Strand} (hwf : StrandWF s) {τ : ℚ} (hτ0 : 0 < τ)
    (hτ1 : τ < 1) (hfresh : τ ∉ s.map (·.1)) (v : Point) :
    StrandWF (insertSample s τ v) := by
  obtain ⟨hlen, hpw, hhead, hlast⟩ := hwf
  have hne : s ≠ [] := by
    intro h; rw [h] at hlen; simp at hlen
  refine ⟨by rw [length_insertSample]; omega, insertSample_pairwise hpw hfresh v, ?_, ?_⟩
  · match s, hhead with
    | a :: rest, hhead =>
      simp only [List.head?_cons, Option.map_some'] at hhead
      have ha0 : a.1 = 0 := Option.some.inj hhead
      rw [insertSample, if_neg (by rw [ha0]; exact not_lt.mpr (le_of_lt hτ0))]
      simp only [List.head?_cons, Option.map_some', ha0]
  · have hτlast : τ < (s.getLast hne).1 := by
      rw [List.getLast?_eq_getLast _ hne] at hlast
      simp only [Option.map_some'] at hlast
      rw [Option.some.inj hlast]
      exact hτ1
    rw [insertSample_getLast? τ v s hne hτlast]
    exact hlast

theorem interpola_sub_left (x y : Point) (xa b τ t : ℚ) (h1 : xa < τ) (h2 : τ < b) :
    interpola x (interpola x y xa b τ) xa τ t = interpola x y xa b t := by
  have d1 : τ - xa ≠ 0 := by linarith
  have d2 : b - xa ≠ 0 := by linarith
  simp only [interpola, Prod.mk.injEq]
  constructor <;> (field_simp; ring)

theorem interpola_sub_right (x y : Point) (xa b τ t : ℚ) (h1 : xa < τ) (h2 : τ < b) :
    interpola (interpola x y xa b τ) y τ b t = interpola x y xa b t := by
  have d1 : b - τ ≠ 0 := by linarith
  have d2 : b - xa ≠ 0 := by linarith
  simp only [interpola, Prod.mk.injEq]
  constructor <;> (field_simp; ring)

theorem strandAt_insertSample (τ : ℚ) :
    ∀ (s : Strand) (hne : s ≠ []), (s.map (·.1)).Pairwise (· < ·) →
      τ ∉ s.map (·.1) →
      (s.head hne).1 < τ → τ < (s.getLast hne).1 →
      ∀ t, strandAt (insertSample s τ (strandAt s τ)) t = strandAt s t := by
  intro s
  induction s with
  | nil => intro hne; exact absurd rfl hne
  | cons a rest ih =>
    intro hne hpw hfresh hhead hlast t
    match rest, ih with
    | [], _ =>
      simp only [List.head_cons] at hhead
      simp only [List.getLast_singleton] at hlast
      exact absurd (lt_trans hhead hlast) (lt_irrefl a.1)
    | b :: rest', ih =>
      simp only [List.head_cons] at hhead
      rw [List.getLast_cons (by simp)] at hlast
      rw [insertSample, if_neg (not_lt.mpr (le_of_lt hhead))]
      have hpw' : ((b :: rest').map (·.1)).Pairwise (· < ·) := by
        simp only [List.map_cons, List.pairwise_cons] at hpw ⊢
        exact hpw.2
      have hfresh' : τ ∉ (b :: rest').map (·.1) := by
        intro hc
        exact hfresh (List.mem_cons_of_mem _ hc)
      by_cases hτb : τ < b.1
      · -- the new sample lands between `a` and `b`
        rw [insertSample, if_pos hτb]
        have hval : strandAt (a :: b :: rest') τ = interpola a.2 b.2 a.1 b.1 τ := by
          rw [strandAt, if_pos hτb]
        rw [hval, strandAt]
        by_cases htτ : t < τ
        · rw [if_pos htτ, strandAt, if_pos (lt_trans htτ hτb),
            interpola_sub_left a.2 b.2 a.1 b.1 τ t hhead hτb]
        · rw [if_neg htτ, strandAt, strandAt]
          by_cases htb : t < b.1
          · rw [if_pos htb, if_pos htb,
              interpola_sub_right a.2 b.2 a.1 b.1 τ t hhead hτb]
          · rw [if_neg htb, if_neg htb]
      · -- the new sample lands beyond `b`: recurse into the tail
        have hbτ : b.1 < τ := by
          refine lt_of_le_of_ne (not_lt.mp hτb) ?_
          intro hc
          exact hfresh' (by rw [← hc]; simp)
        have hv : strandAt (a :: b :: rest') τ = strandAt (b :: rest') τ := by
          rw [strandAt, if_neg hτb]
        rw [hv, insertSample, if_neg hτb]
        rw [strandAt, strandAt]
        by_cases htb : t < b.1
        · rw [if_pos htb, if_pos htb]
        · rw [if_neg htb, if_neg htb]
          have hins : insertSample (b :: rest') τ (strandAt (b :: rest') τ) =
              b :: insertSample rest' τ (strandAt (b :: rest') τ) := by
            rw [insertSample, if_neg hτb]
          rw [← hins]
          exact ih (by simp) hpw' hfresh' hbτ hlast t

theorem eq_of_pairwise_lt_mem : ∀ (l1 l2 : List ℚ), l1.Pairwise (· < ·) →
    l2.Pairwise (· < ·) → (∀ t, t ∈ l1 ↔ t ∈ l2) → l1 = l2 := by
  intro l1
  induction l1 with
  | nil =>
    intro l2 _ _ hm
    cases l2 with
    | nil => rfl
    | cons b t2 => exact absurd ((hm b).mpr (List.mem_cons_self b t2)) (by simp)
  | cons a t1 ih =>
    intro l2 hp1 hp2 hm
    cases l2 with
    | nil => exact absurd ((hm a).mp (List.mem_cons_self a t1)) (by simp)
    | cons b t2 =>
      rw [List.pairwise_cons] at hp1 hp2
      have hab : a = b := by
        have ha2 : a ∈ b :: t2 := (hm a).mp (List.mem_cons_self a t1)
        have hb1 : b ∈ a :: t1 := (hm b).mpr (List.mem_cons_self b t2)
        rcases List.mem_cons.mp ha2 with h | h
        · exact h
        · rcases List.mem_cons.mp hb1 with h2 | h2
          · exact h2.symm
          · have hx := hp1.1 b h2
            have hy := hp2.1 a h
            linarith
      subst hab
      congr 1
      refine ih t2 hp1.2 hp2.2 ?_
      intro t
      constructor
      · intro ht
        rcases List.mem_cons.mp ((hm t).mp (List.mem_cons_of_mem a ht)) with h | h
        · subst h
          exact absurd (hp1.1 t ht) (lt_irrefl t)
        · exact h
      · intro ht
        rcases List.mem_cons.mp ((hm t).mpr (List.mem_cons_of_mem a ht)) with h | h
        · subst h
          exact absurd (hp2.1 t ht) (lt_irrefl t)
        · exact h

theorem sampleTimes_set_mem {L : List Strand} {p : ℕ} (hp : p < L.length)
    {τ : ℚ} (hτ : τ ∈ sampleTimes L) (v : Point) :
    ∀ t', t' ∈ sampleTimes (L.set p (insertSample (L.getD p []) τ v)) ↔
      t' ∈ sampleTimes L := by
  intro t'
  constructor
  · intro h
    rw [sampleTimes, List.mem_flatMap] at h
    obtain ⟨s, hsL, hts⟩ := h
    rcases List.mem_or_eq_of_mem_set hsL with hs | hs
    · exact List.mem_flatMap.mpr ⟨s, hs, hts⟩
    · subst hs
      rcases (mem_insertSample_times τ v _ t').mp hts with rfl | hts2
      · exact hτ
      · refine List.mem_flatMap.mpr ⟨L.getD p [], ?_, hts2⟩
        rw [List.getD_eq_getElem _ _ hp]
        exact List.getElem_mem hp
  · intro h
    rw [sampleTimes, List.mem_flatMap] at h
    obtain ⟨s, hsL, hts⟩ := h
    obtain ⟨⟨j, hj⟩, hgj⟩ := List.mem_iff_get.mp hsL
    rw [List.get_eq_getElem] at hgj
    rw [sampleTimes, List.mem_flatMap]
    by_cases hjp : j = p
    · refine ⟨insertSample (L.getD p []) τ v, ?_, ?_⟩
      · have hbp : p < (L.set p (insertSample (L.getD p []) τ v)).length := by
          rw [List.length_set]; omega
        have hself : (L.set p (insertSample (L.getD p []) τ v))[p] =
            insertSample (L.getD p []) τ v :=
          List.getElem_set_self hbp
        have hmem : (L.set p (insertSample (L.getD p []) τ v))[p] ∈
            L.set p (insertSample (L.getD p []) τ v) :=
          List.getElem_mem hbp
        rw [hself] at hmem
        exact hmem
      · rw [mem_insertSample_times]
        right
        subst hjp
        rw [List.getD_eq_getElem _ _ hj, hgj]
        exact hts
    · refine ⟨s, ?_, hts⟩
      have hbj : j < (L.set p (insertSample (L.getD p []) τ v)).length := by
        rw [List.length_set]; omega
      have hne : (L.set p (insertSample (L.getD p []) τ v))[j] = L[j] :=
        List.getElem_set_ne (fun hc => hjp hc.symm) hbj
      have hmem : (L.set p (insertSample (L.getD p []) τ v))[j] ∈
          L.set p (insertSample (L.getD p []) τ v) :=
        List.getElem_mem hbj
      rw [hne, hgj] at hmem
      exact hmem

theorem mergedTimes_set_insert {L : List Strand} {p : ℕ} (hp : p < L.length)
    {τ : ℚ} (hτ : τ ∈ sampleTimes L) (v : Point) :
    mergedTimes (L.set p (insertSample (L.getD p []) τ v)) = mergedTimes L := by
  rw [mergedTimes, mergedTimes]
  have hS : List.insertionSort (· ≤ ·)
      (interiorTimes (L.set p (insertSample (L.getD p []) τ v))) =
      List.insertionSort (· ≤ ·) (interiorTimes L) := by
    apply eq_of_pairwise_lt_mem _ _ (interiorSorted_pairwise _) (interiorSorted_pairwise _)
    intro t
    rw [mem_interiorSorted, mem_interiorSorted]
    constructor
    · rintro ⟨h1, h2, h3⟩
      exact ⟨(sampleTimes_set_mem hp hτ v t).mp h1, h2, h3⟩
    · rintro ⟨h1, h2, h3⟩
      exact ⟨(sampleTimes_set_mem hp hτ v t).mpr h1, h2, h3⟩
  rw [hS]

theorem head_time_zero {s : Strand} (hwf : StrandWF s) (hne : s ≠ []) :
    (s.head hne).1 = 0 := by
  obtain ⟨_, _, hhead, _⟩ := hwf
  cases s with
  | nil => exact absurd rfl hne
  | cons a t =>
    simp only [List.head?_cons, Option.map_some'] at hhead
    simpa using Option.some.inj hhead

theorem getLast_time_one {s : Strand} (hwf : StrandWF s) (hne : s ≠ []) :
    (s.getLast hne).1 = 1 := by
  obtain ⟨_, _, _, hlast⟩ := hwf
  rw [List.getLast?_eq_getLast _ hne] at hlast
  simp only [Option.map_some'] at hlast
  exact Option.some.inj hlast

/-- **C8 (amended core).**  Inserting one interpolated sample into strand `p` at a
time `τ` that is already a sample time of the family (so the merged time grid is
unchanged), is interior, and is new to strand `p`, leaves the braid word of
`braid_from_piecewise` unchanged. -/
theorem braidFromPiecewise_insert_sample (L : List Strand) (p : ℕ) (τ : ℚ)
    (hp : p < L.length) (hwf : ∀ s ∈ L, StrandWF s) (hne : L ≠ [])
    (hτmem : τ ∈ sampleTimes L) (hτ0 : 0 < τ) (hτ1 : τ < 1)
    (hfresh : τ ∉ (L.getD p []).map (·.1)) :
    braidFromPiecewise (L.set p
      (insertSample (L.getD p []) τ (strandAt (L.getD p []) τ))) =
      braidFromPiecewise L := by
  have hwfp : StrandWF (L.getD p []) := by
    rw [List.getD_eq_getElem _ _ hp]
    exact hwf _ (List.getElem_mem hp)
  have hpne : L.getD p [] ≠ [] := by
    intro hc
    have h2 := hwfp.1
    rw [hc] at h2
    simp at h2
  have hwf' : ∀ u ∈ L.set p (insertSample (L.getD p []) τ (strandAt (L.getD p []) τ)),
      StrandWF u := by
    intro u hu
    rcases List.mem_or_eq_of_mem_set hu with h | h
    · exact hwf u h
    · rw [h]
      exact insertSample_wf hwfp hτ0 hτ1 hfresh _
  have hne' : L.set p (insertSample (L.getD p []) τ (strandAt (L.getD p []) τ)) ≠ [] := by
    intro hc
    have h2 := congrArg List.length hc
    rw [List.length_set] at h2
    simp only [List.length_nil] at h2
    omega
  have hmt := mergedTimes_set_insert hp hτmem (strandAt (L.getD p []) τ)
  rw [braidFromPiecewise, braidFromPiecewise,
    totalpointsOf_run _ hwf' hne', totalpointsOf_run L hwf hne, hmt]
  have hcols : (L.set p (insertSample (L.getD p []) τ (strandAt (L.getD p []) τ))).map
      (fun u => (mergedTimes L).map (strandAt u)) =
      L.map (fun u => (mergedTimes L).map (strandAt u)) := by
    apply List.ext_getElem
    · rw [List.length_map, List.length_map, List.length_set]
    · intro n h1 h2
      have hnL : n < L.length := by simpa using h2
      rw [List.getElem_map, List.getElem_map]
      by_cases hnp : n = p
      · subst hnp
        rw [List.getElem_set_self (by rw [List.length_set]; omega)]
        congr 1
        funext t
        rw [← List.getD_eq_getElem L [] hnL]
        exact strandAt_insertSample τ (L.getD n []) hpne hwfp.2.1 hfresh
          ((head_time_zero hwfp hpne).trans_lt hτ0)
          (lt_of_lt_of_eq hτ1 (getLast_time_one hwfp hpne).symm) t
      · rw [List.getElem_set_ne (fun hc => hnp hc.symm)]
  rw [hcols]

/-- Witness for the amended C8: two strands, where the second already samples time
`1/2`; inserting the interpolated sample at `1/2` into the first strand leaves the
braid word unchanged. -/
theorem braidFromPiecewise_insert_sample_witness :
    (0 < ([[((0:ℚ), ((0:ℚ), (0:ℚ))), (1, (2, 0))],
       [(0, ((1:ℚ), (2:ℚ))), (1/2, (1, 2)), (1, (1, 2))]] : List Strand).length) ∧
    (∀ s ∈ ([[((0:ℚ), ((0:ℚ), (0:ℚ))), (1, (2, 0))],
       [(0, ((1:ℚ), (2:ℚ))), (1/2, (1, 2)), (1, (1, 2))]] : List Strand), StrandWF s) ∧
    ((1 : ℚ)/2 ∈ sampleTimes [[((0:ℚ), ((0:ℚ), (0:ℚ))), (1, (2, 0))],
       [(0, ((1:ℚ), (2:ℚ))), (1/2, (1, 2)), (1, (1, 2))]]) ∧
    ((1 : ℚ)/2 ∉ (([[((0:ℚ), ((0:ℚ), (0:ℚ))), (1, (2, 0))],
       [(0, ((1:ℚ), (2:ℚ))), (1/2, (1, 2)), (1, (1, 2))]] : List Strand).getD 0 []).map (·.1)) ∧
    braidFromPiecewise (([[((0:ℚ), ((0:ℚ), (0:ℚ))), (1, (2, 0))],
       [(0, ((1:ℚ), (2:ℚ))), (1/2, (1, 2)), (1, (1, 2))]] : List Strand).set 0
      (insertSample (([[((0:ℚ), ((0:ℚ), (0:ℚ))), (1, (2, 0))],
       [(0, ((1:ℚ), (2:ℚ))), (1/2, (1, 2)), (1, (1, 2))]] : List Strand).getD 0 []) (1/2)
        (strandAt (([[((0:ℚ), ((0:ℚ), (0:ℚ))), (1, (2, 0))],
       [(0, ((1:ℚ), (2:ℚ))), (1/2, (1, 2)), (1, (1, 2))]] : List Strand).getD 0 []) (1/2)))) =
      braidFromPiecewise [[((0:ℚ), ((0:ℚ), (0:ℚ))), (1, (2, 0))],
       [(0, ((1:ℚ), (2:ℚ))), (1/2, (1, 2)), (1, (1, 2))]] := by
  have hp : (0 : ℕ) < ([[((0:ℚ), ((0:ℚ), (0:ℚ))), (1, (2, 0))],
      [(0, ((1:ℚ), (2:ℚ))), (1/2, (1, 2)), (1, (1, 2))]] : List Strand).length := by
    norm_num
  have hwf : ∀ s ∈ ([[((0:ℚ), ((0:ℚ), (0:ℚ))), (1, (2, 0))],
      [(0, ((1:ℚ), (2:ℚ))), (1/2, (1, 2)), (1, (1, 2))]] : List Strand), StrandWF s := by
    intro s hs
    rcases List.mem_cons.mp hs with rfl | hs
    · refine ⟨by norm_num, ?_, by norm_num, by norm_num⟩
      norm_num [List.pairwise_cons]
    · rcases List.mem_cons.mp hs with rfl | hs
      · refine ⟨by norm_num, ?_, by norm_num, by norm_num⟩
        norm_num [List.pairwise_cons]
      · simp at hs
  have hne : ([[((0:ℚ), ((0:ℚ), (0:ℚ))), (1, (2, 0))],
      [(0, ((1:ℚ), (2:ℚ))), (1/2, (1, 2)), (1, (1, 2))]] : List Strand) ≠ [] := by
    simp
  have hτm : (1 : ℚ)/2 ∈ sampleTimes [[((0:ℚ), ((0:ℚ), (0:ℚ))), (1, (2, 0))],
      [(0, ((1:ℚ), (2:ℚ))), (1/2, (1, 2)), (1, (1, 2))]] := by
    norm_num [sampleTimes, List.flatMap_cons]
  have hfresh : (1 : ℚ)/2 ∉ (([[((0:ℚ), ((0:ℚ), (0:ℚ))), (1, (2, 0))],
      [(0, ((1:ℚ), (2:ℚ))), (1/2, (1, 2)), (1, (1, 2))]] : List Strand).getD 0 []).map (·.1) := by
    norm_num
  exact ⟨hp, hwf, hτm, hfresh,
    braidFromPiecewise_insert_sample _ 0 (1/2) hp hwf hne hτm (by norm_num) (by norm_num)
      hfresh⟩

end ZVK
